import Mathlib

/-!
# cmap: a sharded map, embedded and verified

The repository holds two variants of the same container:

* `src/cmap_iface_iface.go`: keys and values are `interface{}`, traversal
  callbacks return `bool`.  Embedded in namespace `Cmap`.
* `src/internal/cmap/cmap.go`: the generic template, traversal callbacks return
  `error`.  Embedded in namespace `Cmap.Internal`.

Conventions of the embedding.

* The builtin `map[K]V` is an association list with pairwise distinct keys
  (`AList`).  The order of the entries is the order in which a `range` over the
  map produces them.  Go leaves that order unspecified: the theorems hold for
  every order, and where two traversals are compared the second may range over
  the same entries in another order.
* `K` has decidable equality (Go: a comparable key whose `==` is reflexive).
  `default : V` is the zero value of the value type (`nil` for `interface{}`).
* Locks are not part of the state: every operation runs to completion before
  the next one starts.
* A Go panic is `none`.  Memory has no bound, except in `NewSize.within`, where
  the number of shards the run has memory for is a parameter.
* `uint32` values are natural numbers reduced modulo `2 ^ 32`.
* A callback is a function of the state it can reach: the container itself and
  a private state `σ` of the closure.
* Channel iteration follows the producer goroutine; the token, the receiver and
  the choices of `select` are parameters (`IterEnv`).
-/

namespace Cmap

/-- Go's `map[K]V`: finitely many entries, keys pairwise distinct. -/
abbrev GoMap (K V : Type) := AList (fun _ : K => V)

/-- The Go conversion `uint32(x)` of an `int`: the low 32 bits. -/
def uint32 (x : Int) : Nat := (x % 2 ^ 32).toNat

/-- The constant `DefaultShardCount = 1 << 8`. -/
def DefaultShardCount : Int := 1 <<< 8

section Primitives

variable {K V : Type} [DecidableEq K] [Inhabited V]

/-- The two-result read `v, ok := m[key]`. -/
def GoMap.commaOk (m : GoMap K V) (key : K) : V × Bool :=
  match m.lookup key with
  | some v => (v, true)
  | none => (default, false)

/-- The one-result read `m[key]`: the zero value when the key is missing. -/
def GoMap.index (m : GoMap K V) (key : K) : V :=
  match m.lookup key with
  | some v => v
  | none => default

end Primitives

/-- The struct `LMap`: the map `m` (the lock `l` carries no data). -/
structure LMap (K V : Type) where
  m : GoMap K V

/-- The struct `CMap`: the slice of shards.  The field `keysPool` only recycles
scratch buffers, which `ForEach` always truncates to length 0 before use. -/
structure CMap (K V : Type) where
  shards : List (LMap K V)

section Iface

variable {K V : Type} [DecidableEq K] [Inhabited V]

/-- Embeds `NewLMapSize(cap)`: an empty map; `cap` is only a capacity hint. -/
def NewLMapSize (_cap : Int) : LMap K V := { m := ∅ }

/-- Embeds `LMap.Set`: `lm.m[key] = v`. -/
def LMap.Set (lm : LMap K V) (key : K) (v : V) : LMap K V :=
  { m := lm.m.insert key v }

/-- Embeds `LMap.SetIfNotExists`: the result `set` and the shard afterwards. -/
def LMap.SetIfNotExists (lm : LMap K V) (key : K) (val : V) : Bool × LMap K V :=
  if (GoMap.commaOk lm.m key).2 = false then
    (true, { m := lm.m.insert key val })
  else
    (false, lm)

/-- Embeds `LMap.Get`: `v = lm.m[key]`. -/
def LMap.Get (lm : LMap K V) (key : K) : V := GoMap.index lm.m key

/-- Embeds `LMap.GetOK`: `v, ok = lm.m[key]`. -/
def LMap.GetOK (lm : LMap K V) (key : K) : V × Bool := GoMap.commaOk lm.m key

/-- Embeds `LMap.Has`: `_, ok = lm.m[key]`. -/
def LMap.Has (lm : LMap K V) (key : K) : Bool := (GoMap.commaOk lm.m key).2

/-- Embeds `LMap.Delete`: `delete(lm.m, key)`. -/
def LMap.Delete (lm : LMap K V) (key : K) : LMap K V :=
  { m := lm.m.erase key }

/-- Embeds `LMap.DeleteAndGet`: `v = lm.m[key]; delete(lm.m, key); return v`. -/
def LMap.DeleteAndGet (lm : LMap K V) (key : K) : V × LMap K V :=
  (GoMap.index lm.m key, { m := lm.m.erase key })

/-- Embeds `LMap.Update`: `lm.m[key] = fn(lm.m[key])`. -/
def LMap.Update (lm : LMap K V) (key : K) (fn : V → V) : LMap K V :=
  { m := lm.m.insert key (fn (GoMap.index lm.m key)) }

/-- Embeds `LMap.Swap`: `oldV = lm.m[key]; lm.m[key] = newV`. -/
def LMap.Swap (lm : LMap K V) (key : K) (newV : V) : V × LMap K V :=
  (GoMap.index lm.m key, { m := lm.m.insert key newV })

/-- Embeds `LMap.Len`: `len(lm.m)`. -/
def LMap.Len (lm : LMap K V) : Nat := lm.m.entries.length

/-- Embeds `LMap.Keys`: appends every key of the map to `buf` (when `cap(buf) == 0` a
fresh empty buffer replaces it, which has the same contents). -/
def LMap.Keys (lm : LMap K V) (buf : List K) : List K := buf ++ lm.m.keys

/-- The second loop of `LMap.ForEach`: for each captured key the value is read
again from the shard as it is now (`lm` reads the shard out of the state `w`);
a key that is gone is skipped, a `false` from `fn` stops the loop. -/
def LMap.ForEach.visit {W : Type} (lm : W → LMap K V) (fn : K → V → W → Bool × W) :
    List K → W → Bool × W
  | [], w => (true, w)
  | key :: keys, w =>
    match (lm w).m.lookup key with
    | none => LMap.ForEach.visit lm fn keys w
    | some val =>
      let r := fn key val w
      if r.1 = false then (false, r.2) else LMap.ForEach.visit lm fn keys r.2

/-- Embeds `LMap.ForEach(keys, fn)`: the keys of the shard are appended to the scratch
buffer `keys`, then every key of the buffer is visited. -/
def LMap.ForEach {W : Type} (lm : W → LMap K V) (keys : List K)
    (fn : K → V → W → Bool × W) (w : W) : Bool × W :=
  let keys := keys ++ (lm w).m.keys
  LMap.ForEach.visit lm fn keys w

/-- The loop of `LMap.ForEachLocked` over the entries of the locked map. -/
def LMap.ForEachLocked.visit {W : Type} (fn : K → V → W → Bool × W) :
    List (Sigma fun _ : K => V) → W → Bool × W
  | [], w => (true, w)
  | e :: rest, w =>
    let r := fn e.1 e.2 w
    if r.1 = false then (false, r.2) else LMap.ForEachLocked.visit fn rest r.2

/-- Embeds `LMap.ForEachLocked(fn)`: the read lock is held from start to end, so the
entries ranged over are those the shard has when the traversal starts. -/
def LMap.ForEachLocked {W : Type} (lm : W → LMap K V)
    (fn : K → V → W → Bool × W) (w : W) : Bool × W :=
  LMap.ForEachLocked.visit fn (lm w).m.entries w

/-- The slice built by `NewSize`: `shardCount` shards, each `NewLMapSize(shardCount)`. -/
def allocShards (shardCount : Int) : CMap K V :=
  { shards := List.replicate shardCount.toNat (NewLMapSize shardCount) }

/-- Embeds `NewSize(shardCount)`; `none` is the panic "shardCount must be a power of 2". -/
def NewSize (shardCount : Int) : Option (CMap K V) :=
  if shardCount < 1 then
    some (allocShards DefaultShardCount)
  else if Int.land shardCount (shardCount - 1) ≠ 0 then
    none
  else
    some (allocShards shardCount)

/-- Embeds `New()`: `NewSize(DefaultShardCount)`. -/
def New : Option (CMap K V) := NewSize DefaultShardCount

/-- Embeds `make([]*LMap, shardCount)` and the loop that fills the slice, in a run
that has memory for at most `maxLen` shards.  Asked for more, the allocation
does not return: `make` panics ("makeslice: len out of range") or the runtime
gives up for lack of memory; both are `none`.  The bound depends on the
platform and on the memory at hand, so it is a parameter; a slice of 8-byte
pointers has fewer than `2 ^ 61` elements on any 64-bit platform. -/
def makeShards (maxLen : Nat) (shardCount : Int) : Option (CMap K V) :=
  if shardCount.toNat ≤ maxLen then some (allocShards shardCount) else none

/-- Embeds `NewSize(shardCount)` with both of its failures: the panic "shardCount
must be a power of 2", and the failed allocation of more than `maxLen` shards.
`NewSize` above is this function in a run whose memory has no bound. -/
def NewSize.within (maxLen : Nat) (shardCount : Int) : Option (CMap K V) :=
  if shardCount < 1 then
    makeShards maxLen DefaultShardCount
  else if Int.land shardCount (shardCount - 1) ≠ 0 then
    none
  else
    makeShards maxLen shardCount

/-- The index `h&uint32(len(cm.shards)-1)` with `h := hasher(key)`. -/
def CMap.shardIndex (hasher : K → Nat) (cm : CMap K V) (key : K) : Nat :=
  let h := hasher key % 2 ^ 32
  h &&& uint32 ((cm.shards.length : Int) - 1)

/-- Embeds `CMap.ShardForKey`; `none` is the index-out-of-range panic. -/
def CMap.ShardForKey (hasher : K → Nat) (cm : CMap K V) (key : K) : Option (LMap K V) :=
  cm.shards[cm.shardIndex hasher key]?

/-- Embeds `CMap.Set`. -/
def CMap.Set (hasher : K → Nat) (cm : CMap K V) (key : K) (val : V) : Option (CMap K V) :=
  let i := cm.shardIndex hasher key
  match cm.shards[i]? with
  | none => none
  | some sh => some { shards := cm.shards.set i (sh.Set key val) }

/-- Embeds `CMap.SetIfNotExists`. -/
def CMap.SetIfNotExists (hasher : K → Nat) (cm : CMap K V) (key : K) (val : V) :
    Option (Bool × CMap K V) :=
  let i := cm.shardIndex hasher key
  match cm.shards[i]? with
  | none => none
  | some sh =>
    let r := sh.SetIfNotExists key val
    some (r.1, { shards := cm.shards.set i r.2 })

/-- Embeds `CMap.Get`. -/
def CMap.Get (hasher : K → Nat) (cm : CMap K V) (key : K) : Option V :=
  match cm.shards[cm.shardIndex hasher key]? with
  | none => none
  | some sh => some (sh.Get key)

/-- Embeds `CMap.GetOK`. -/
def CMap.GetOK (hasher : K → Nat) (cm : CMap K V) (key : K) : Option (V × Bool) :=
  match cm.shards[cm.shardIndex hasher key]? with
  | none => none
  | some sh => some (sh.GetOK key)

/-- Embeds `CMap.Has`. -/
def CMap.Has (hasher : K → Nat) (cm : CMap K V) (key : K) : Option Bool :=
  match cm.shards[cm.shardIndex hasher key]? with
  | none => none
  | some sh => some (sh.Has key)

/-- Embeds `CMap.Delete`. -/
def CMap.Delete (hasher : K → Nat) (cm : CMap K V) (key : K) : Option (CMap K V) :=
  let i := cm.shardIndex hasher key
  match cm.shards[i]? with
  | none => none
  | some sh => some { shards := cm.shards.set i (sh.Delete key) }

/-- Embeds `CMap.DeleteAndGet`. -/
def CMap.DeleteAndGet (hasher : K → Nat) (cm : CMap K V) (key : K) : Option (V × CMap K V) :=
  let i := cm.shardIndex hasher key
  match cm.shards[i]? with
  | none => none
  | some sh =>
    let r := sh.DeleteAndGet key
    some (r.1, { shards := cm.shards.set i r.2 })

/-- Embeds `CMap.Update`. -/
def CMap.Update (hasher : K → Nat) (cm : CMap K V) (key : K) (fn : V → V) : Option (CMap K V) :=
  let i := cm.shardIndex hasher key
  match cm.shards[i]? with
  | none => none
  | some sh => some { shards := cm.shards.set i (sh.Update key fn) }

/-- Embeds `CMap.Swap`. -/
def CMap.Swap (hasher : K → Nat) (cm : CMap K V) (key : K) (val : V) : Option (V × CMap K V) :=
  let i := cm.shardIndex hasher key
  match cm.shards[i]? with
  | none => none
  | some sh =>
    let r := sh.Swap key val
    some (r.1, { shards := cm.shards.set i r.2 })

/-- Embeds `CMap.Len`: `ln := 0; for _, lm := range cm.shards { ln += lm.Len() }`. -/
def CMap.Len (cm : CMap K V) : Nat :=
  cm.shards.foldl (fun ln lm => ln + lm.Len) 0

/-- Embeds `CMap.Keys`: `out` starts empty (with capacity `cm.Len()`) and every shard
appends its keys, in slice order. -/
def CMap.Keys (cm : CMap K V) : List K :=
  cm.shards.foldl (fun out sh => sh.Keys out) []

/-- Embeds `CMap.NumShards`: `len(cm.shards)`. -/
def CMap.NumShards (cm : CMap K V) : Nat := cm.shards.length

/-- The shard that element `i` of `cm.shards` points to, as it is in the state
`cm`.  The slice is never resized after `NewSize`, so for `i` below the length
fixed at construction the fallback is never taken. -/
def CMap.deref (cm : CMap K V) (i : Nat) : LMap K V :=
  cm.shards.getD i { m := ∅ }

/-- The loop `for _, lm := range cm.shards` of `CMap.ForEach`, over the indices
still to do.  The scratch buffer is cut back to length 0 for every shard. -/
def CMap.ForEach.loop {σ : Type} (fn : K → V → CMap K V × σ → Bool × (CMap K V × σ)) :
    List Nat → CMap K V × σ → Bool × (CMap K V × σ)
  | [], w => (false, w)
  | i :: rest, w =>
    let keysP : List K := []
    let keys := keysP.take 0
    let r := LMap.ForEach (fun w => w.1.deref i) keys fn w
    if r.1 = false then (false, r.2) else CMap.ForEach.loop fn rest r.2

/-- Embeds `CMap.ForEach(fn)` started in the state `(cm, s)`: the result and the state
reached. -/
def CMap.ForEach {σ : Type} (cm : CMap K V)
    (fn : K → V → CMap K V × σ → Bool × (CMap K V × σ)) (s : σ) : Bool × (CMap K V × σ) :=
  CMap.ForEach.loop fn (List.range cm.shards.length) (cm, s)

/-- The loop `for _, lm := range cm.shards` of `CMap.ForEachLocked`. -/
def CMap.ForEachLocked.loop {σ : Type} (fn : K → V → CMap K V × σ → Bool × (CMap K V × σ)) :
    List Nat → CMap K V × σ → Bool × (CMap K V × σ)
  | [], w => (true, w)
  | i :: rest, w =>
    let r := LMap.ForEachLocked (fun w => w.1.deref i) fn w
    if r.1 = false then (false, r.2) else CMap.ForEachLocked.loop fn rest r.2

/-- Embeds `CMap.ForEachLocked(fn)` started in the state `(cm, s)`. -/
def CMap.ForEachLocked {σ : Type} (cm : CMap K V)
    (fn : K → V → CMap K V × σ → Bool × (CMap K V × σ)) (s : σ) : Bool × (CMap K V × σ) :=
  CMap.ForEachLocked.loop fn (List.range cm.shards.length) (cm, s)

/-- A callback together with a record of its invocations: every call appends
the pair it was given and the value it returned to a log kept next to the
private state.  The container and the private state evolve exactly as with `fn`. -/
def traced {K V C σ R : Type} (fn : K → V → C × σ → R × (C × σ)) :
    K → V → C × (σ × List (K × V × R)) → R × (C × (σ × List (K × V × R))) :=
  fun k v w =>
    let r := fn k v (w.1, w.2.1)
    (r.1, (r.2.1, (r.2.2, w.2.2 ++ [(k, v, r.1)])))

/-- The maps a program can hold: what `NewSize` returns, and what any of the
point operations makes of such a map. -/
inductive Reachable (hasher : K → Nat) : CMap K V → Prop
  | newSize (shardCount : Int) (cm : CMap K V) :
      NewSize shardCount = some cm → Reachable hasher cm
  | set (cm cm' : CMap K V) (key : K) (val : V) :
      Reachable hasher cm → cm.Set hasher key val = some cm' → Reachable hasher cm'
  | setIfNotExists (cm cm' : CMap K V) (key : K) (val : V) (b : Bool) :
      Reachable hasher cm → cm.SetIfNotExists hasher key val = some (b, cm') →
      Reachable hasher cm'
  | delete (cm cm' : CMap K V) (key : K) :
      Reachable hasher cm → cm.Delete hasher key = some cm' → Reachable hasher cm'
  | deleteAndGet (cm cm' : CMap K V) (key : K) (old : V) :
      Reachable hasher cm → cm.DeleteAndGet hasher key = some (old, cm') →
      Reachable hasher cm'
  | swap (cm cm' : CMap K V) (key : K) (val old : V) :
      Reachable hasher cm → cm.Swap hasher key val = some (old, cm') → Reachable hasher cm'
  | update (cm cm' : CMap K V) (key : K) (fn : V → V) :
      Reachable hasher cm → cm.Update hasher key fn = some cm' → Reachable hasher cm'

/-- Every key sits in the shard its hash selects. -/
def HomeShard (hasher : K → Nat) (cm : CMap K V) : Prop :=
  ∀ (i : Nat) (sh : LMap K V), cm.shards[i]? = some sh →
    ∀ key ∈ sh.m.keys, cm.shardIndex hasher key = i

/-- The invocations of `fn` that `cm.ForEach(fn)` makes from the state `(cm, s)`,
in order: the key and value passed and the value `fn` returned. -/
def CMap.ForEach.calls {σ : Type} (cm : CMap K V)
    (fn : K → V → CMap K V × σ → Bool × (CMap K V × σ)) (s : σ) : List (K × V × Bool) :=
  (cm.ForEach (traced fn) (s, [])).2.2.2

/-- The invocations of `fn` that `cm.ForEachLocked(fn)` makes from the state
`(cm, s)`, in order. -/
def CMap.ForEachLocked.calls {σ : Type} (cm : CMap K V)
    (fn : K → V → CMap K V × σ → Bool × (CMap K V × σ)) (s : σ) : List (K × V × Bool) :=
  (cm.ForEachLocked (traced fn) (s, [])).2.2.2

end Iface

/-! ## The generic template (`src/internal/cmap/cmap.go`) -/

namespace Internal

/-- Modelled from the spec: the struct `LockedMap` is declared outside `src/`;
`cmap.go` reads its fields `m` (the mapping) and `l` (the lock, which carries no
data). -/
structure LockedMap (K V : Type) where
  m : GoMap K V

/-- The struct `CMap` of the template: the shards, the hash function `HashFn`
and the mask `mod` (a `uint32`). -/
structure CMap (K V : Type) where
  shards : List (LockedMap K V)
  HashFn : K → Nat
  mod : Nat

section Template

variable {K V E : Type} [DecidableEq K] [Inhabited V] [DecidableEq E]

/-- Modelled from the spec: `NewLockedMapSize` is defined outside `src/`; a
shard is created with an empty mapping. -/
def NewLockedMapSize (_cap : Int) : LockedMap K V := { m := ∅ }

/-- Modelled from the spec: `LockedMap.Set` is defined outside `src/`;
"unconditionally assigns". -/
def LockedMap.Set (lm : LockedMap K V) (key : K) (v : V) : LockedMap K V :=
  { m := lm.m.insert key v }

/-- Modelled from the spec: `LockedMap.GetOK` is defined outside `src/`;
"`present` is true iff the key exists", the value is the stored one or the zero
value. -/
def LockedMap.GetOK (lm : LockedMap K V) (key : K) : V × Bool := GoMap.commaOk lm.m key

/-- Modelled from the spec: `LockedMap.Has` is defined outside `src/`;
"equivalent to the second element of `GetOK`". -/
def LockedMap.Has (lm : LockedMap K V) (key : K) : Bool := (GoMap.commaOk lm.m key).2

/-- Modelled from the spec: `LockedMap.Len` is defined outside `src/`; "count of
entries". -/
def LockedMap.Len (lm : LockedMap K V) : Nat := lm.m.entries.length

/-- Modelled from the spec: phase 2 of `LockedMap.ForEach`, defined outside
`src/`: "for each captured key ... re-read the value, and if still present
invoke `fn(key, value)`"; the traversal ends at the first non-nil value `fn`
returns and hands that value (the Break signal included) to its caller, which
is the value `CMap.ForEach` compares with `Break`. -/
def LockedMap.ForEach.visit {W : Type} (lm : W → LockedMap K V)
    (fn : K → V → W → Option E × W) : List K → W → Option E × W
  | [], w => (none, w)
  | key :: keys, w =>
    match (lm w).m.lookup key with
    | none => LockedMap.ForEach.visit lm fn keys w
    | some val =>
      let r := fn key val w
      match r.1 with
      | some err => (some err, r.2)
      | none => LockedMap.ForEach.visit lm fn keys r.2

/-- Modelled from the spec: `LockedMap.ForEach(scratch, fn)`, defined outside
`src/`: "capture the current key set into the caller-provided scratch buffer",
then phase 2. -/
def LockedMap.ForEach {W : Type} (lm : W → LockedMap K V) (keys : List K)
    (fn : K → V → W → Option E × W) (w : W) : Option E × W :=
  let keys := keys ++ (lm w).m.keys
  LockedMap.ForEach.visit lm fn keys w

/-- Modelled from the spec: the loop of `LockedMap.ForEachLocked`, defined
outside `src/`: "delivers every `(key, value)` to `fn`", ending at the first
non-nil value `fn` returns, which goes to the caller. -/
def LockedMap.ForEachLocked.visit {W : Type} (fn : K → V → W → Option E × W) :
    List (Sigma fun _ : K => V) → W → Option E × W
  | [], w => (none, w)
  | e :: rest, w =>
    let r := fn e.1 e.2 w
    match r.1 with
    | some err => (some err, r.2)
    | none => LockedMap.ForEachLocked.visit fn rest r.2

/-- Modelled from the spec: `LockedMap.ForEachLocked(fn)`, defined outside
`src/`: "holds the shared lock for the entire traversal", so the entries are
those at the start. -/
def LockedMap.ForEachLocked {W : Type} (lm : W → LockedMap K V)
    (fn : K → V → W → Option E × W) (w : W) : Option E × W :=
  LockedMap.ForEachLocked.visit fn (lm w).m.entries w

/-- The struct literal of `NewSize`: the shards, `mod: uint32(shardCount) - 1`
(wrapping subtraction) and `HashFn: DefaultKeyHasher`. -/
def allocShards (DefaultKeyHasher : K → Nat) (shardCount : Int) : CMap K V :=
  { shards := List.replicate shardCount.toNat (NewLockedMapSize shardCount)
    HashFn := DefaultKeyHasher
    mod := (uint32 shardCount + 2 ^ 32 - 1) % 2 ^ 32 }

/-- Embeds `NewSize(shardCount)` of the template; `DefaultKeyHasher` lives outside
`src/` and is a parameter. -/
def NewSize (DefaultKeyHasher : K → Nat) (shardCount : Int) : Option (CMap K V) :=
  if shardCount < 1 then
    some (allocShards DefaultKeyHasher DefaultShardCount)
  else if Int.land shardCount (shardCount - 1) ≠ 0 then
    none
  else
    some (allocShards DefaultKeyHasher shardCount)

/-- Embeds `make([]*LockedMap, shardCount)` inside the struct literal of `NewSize`
and the loop that fills the slice, in a run that has memory for at most `maxLen`
shards; `none` is the allocation that does not return (the panic of `make`, or
the runtime giving up for lack of memory). -/
def makeShards (maxLen : Nat) (DefaultKeyHasher : K → Nat) (shardCount : Int) :
    Option (CMap K V) :=
  if shardCount.toNat ≤ maxLen then some (allocShards DefaultKeyHasher shardCount) else none

/-- Embeds `NewSize(shardCount)` of the template with both of its failures: the
panic "shardCount must be a power of 2", and the failed allocation of more than
`maxLen` shards. -/
def NewSize.within (maxLen : Nat) (DefaultKeyHasher : K → Nat) (shardCount : Int) :
    Option (CMap K V) :=
  if shardCount < 1 then
    makeShards maxLen DefaultKeyHasher DefaultShardCount
  else if Int.land shardCount (shardCount - 1) ≠ 0 then
    none
  else
    makeShards maxLen DefaultKeyHasher shardCount

/-- Embeds `cm.shard(key)`: the index `h&cm.mod` and the shard found there; `none` is
the index-out-of-range panic. -/
def CMap.shard (cm : CMap K V) (key : K) : Option (Nat × LockedMap K V) :=
  let h := cm.HashFn key % 2 ^ 32
  match cm.shards[h &&& cm.mod]? with
  | none => none
  | some sh => some (h &&& cm.mod, sh)

/-- Embeds `CMap.GetOK`: `cm.shard(key).GetOK(key)`. -/
def CMap.GetOK (cm : CMap K V) (key : K) : Option (V × Bool) :=
  match cm.shard key with
  | none => none
  | some p => some (p.2.GetOK key)

/-- Embeds `CMap.Set`: `cm.shard(key).Set(key, val)`. -/
def CMap.Set (cm : CMap K V) (key : K) (val : V) : Option (CMap K V) :=
  match cm.shard key with
  | none => none
  | some p => some { cm with shards := cm.shards.set p.1 (p.2.Set key val) }

/-- Embeds `CMap.SetIfNotExists` of the template, which works on `sh.m` itself. -/
def CMap.SetIfNotExists (cm : CMap K V) (key : K) (val : V) : Option (Bool × CMap K V) :=
  match cm.shard key with
  | none => none
  | some p =>
    if (GoMap.commaOk p.2.m key).2 = false then
      some (true, { cm with shards := cm.shards.set p.1 { m := p.2.m.insert key val } })
    else
      some (false, cm)

/-- Embeds `CMap.Has`: `cm.shard(key).Has(key)`. -/
def CMap.Has (cm : CMap K V) (key : K) : Option Bool :=
  match cm.shard key with
  | none => none
  | some p => some (p.2.Has key)

/-- Embeds `CMap.Len` of the template. -/
def CMap.Len (cm : CMap K V) : Nat :=
  cm.shards.foldl (fun ln sh => ln + sh.Len) 0

/-- Embeds `CMap.NumShards` of the template. -/
def CMap.NumShards (cm : CMap K V) : Nat := cm.shards.length

/-- The shard that `cm.shards[i]` points to, as it is in the state `cm`. -/
def CMap.deref (cm : CMap K V) (i : Nat) : LockedMap K V :=
  cm.shards.getD i { m := ∅ }

/-- The loop `for i := range cm.shards` of `CMap.ForEach`: a non-nil `err` from
a shard ends it, with `nil` when `err == Break` and with `err` otherwise. -/
def CMap.ForEach.loop {σ : Type} (Break : E)
    (fn : K → V → CMap K V × σ → Option E × (CMap K V × σ)) :
    List Nat → CMap K V × σ → Option E × (CMap K V × σ)
  | [], w => (none, w)
  | i :: rest, w =>
    let keysP : List K := []
    let keys := keysP.take 0
    let r := LockedMap.ForEach (fun w => w.1.deref i) keys fn w
    match r.1 with
    | some err => if err = Break then (none, r.2) else (some err, r.2)
    | none => CMap.ForEach.loop Break fn rest r.2

/-- Embeds `CMap.ForEach(fn)` of the template, started in the state `(cm, s)`. -/
def CMap.ForEach {σ : Type} (Break : E) (cm : CMap K V)
    (fn : K → V → CMap K V × σ → Option E × (CMap K V × σ)) (s : σ) :
    Option E × (CMap K V × σ) :=
  CMap.ForEach.loop Break fn (List.range cm.shards.length) (cm, s)

/-- The loop `for i := range cm.shards` of `CMap.ForEachLocked`. -/
def CMap.ForEachLocked.loop {σ : Type} (Break : E)
    (fn : K → V → CMap K V × σ → Option E × (CMap K V × σ)) :
    List Nat → CMap K V × σ → Option E × (CMap K V × σ)
  | [], w => (none, w)
  | i :: rest, w =>
    let r := LockedMap.ForEachLocked (fun w => w.1.deref i) fn w
    match r.1 with
    | some err => if err = Break then (none, r.2) else (some err, r.2)
    | none => CMap.ForEachLocked.loop Break fn rest r.2

/-- Embeds `CMap.ForEachLocked(fn)` of the template, started in the state `(cm, s)`. -/
def CMap.ForEachLocked {σ : Type} (Break : E) (cm : CMap K V)
    (fn : K → V → CMap K V × σ → Option E × (CMap K V × σ)) (s : σ) :
    Option E × (CMap K V × σ) :=
  CMap.ForEachLocked.loop Break fn (List.range cm.shards.length) (cm, s)

/-- The invocations of `fn` that `cm.ForEach(fn)` of the template makes from the
state `(cm, s)`, in order: the key and value passed and the error returned. -/
def CMap.ForEach.calls {σ : Type} (Break : E) (cm : CMap K V)
    (fn : K → V → CMap K V × σ → Option E × (CMap K V × σ)) (s : σ) :
    List (K × V × Option E) :=
  (cm.ForEach Break (traced fn) (s, [])).2.2.2

/-- The invocations of `fn` that `cm.ForEachLocked(fn)` of the template makes
from the state `(cm, s)`, in order. -/
def CMap.ForEachLocked.calls {σ : Type} (Break : E) (cm : CMap K V)
    (fn : K → V → CMap K V × σ → Option E × (CMap K V × σ)) (s : σ) :
    List (K × V × Option E) :=
  (cm.ForEachLocked Break (traced fn) (s, [])).2.2.2

end Template

end Internal

/-! ## Concrete maps on which the theorems are exercised -/

section Examples

/-- The hash of the examples: a natural-number key hashes to itself. -/
def exHash : Nat → Nat := fun k => k

/-- The map `NewSize(4)`: four empty shards. -/
def exEmpty : CMap Nat (Option Nat) := allocShards 4

/-- The map after `NewSize(4); Set(1, 10)`. -/
def exOne : CMap Nat (Option Nat) := (exEmpty.Set exHash 1 (some 10)).getD exEmpty

/-- The map after `NewSize(4); Set(1, 10); Set(5, 50)`. -/
def exTwo : CMap Nat (Option Nat) := (exOne.Set exHash 5 (some 50)).getD exOne

/-- The map after `NewSize(4); Set(1, 10); Set(5, 50); Set(2, 20)`: keys 1 and 5
share shard 1,
key 2 is in shard 2. -/
def exMap : CMap Nat (Option Nat) := (exTwo.Set exHash 2 (some 20)).getD exTwo

/-- A callback that counts its invocations and never asks to stop. -/
def exCount : Nat → Option Nat → CMap Nat (Option Nat) × Nat →
    Bool × (CMap Nat (Option Nat) × Nat) :=
  fun _ _ w => (true, (w.1, w.2 + 1))

/-- The map `NewSize(4)` of the template, with `exHash` as the default hasher. -/
def exTemplate : Internal.CMap Nat (Option Nat) := Internal.allocShards exHash 4

end Examples

/-! ## Further operations of the two variants -/

section Further

variable {K V : Type} [DecidableEq K] [Inhabited V]

/-- Embeds `CMap.ShardDistribution`: entry `i` is `float64(cm.shards[i].Len()) / ln`
with `ln = float64(cm.Len())`.  The `float64` values are taken as exact
rationals; rounding is not modelled. -/
def CMap.ShardDistribution (cm : CMap K V) : List ℚ :=
  let ln : ℚ := (cm.Len : ℚ)
  cm.shards.map fun sh => (sh.Len : ℚ) / ln

/-- Embeds `CMap.Keys` of the template: for every shard in slice order, every key of
`sh.m` is appended to `out`. -/
def Internal.CMap.Keys (cm : Internal.CMap K V) : List K :=
  cm.shards.foldl (fun out sh => out ++ sh.m.keys) []

/-- A sequence of `Set` calls on the same map, in list order. -/
def CMap.SetAll (hasher : K → Nat) (cm : CMap K V) : List (K × V) → Option (CMap K V)
  | [] => some cm
  | p :: rest =>
    match cm.Set hasher p.1 p.2 with
    | none => none
    | some cm' => CMap.SetAll hasher cm' rest

/-- A callback together with a record of the moments of its invocations: every
call appends the key and value it was given, the container as it was when the
call was made and the container as the call left it. -/
def recorded {K V C σ R : Type} (fn : K → V → C × σ → R × (C × σ)) :
    K → V → C × (σ × List (K × V × C × C)) → R × (C × (σ × List (K × V × C × C))) :=
  fun k v w =>
    let r := fn k v (w.1, w.2.1)
    (r.1, (r.2.1, (r.2.2, w.2.2 ++ [(k, v, w.1, r.2.1)])))

/-- The recorded moments follow one another: the first call is made in the state
`start`, every later call in the state the call before it left, and the last
call leaves the state `stop`. -/
def Linked {K V C : Type} : C → List (K × V × C × C) → C → Prop
  | start, [], stop => start = stop
  | start, c :: rest, stop => c.2.2.1 = start ∧ Linked c.2.2.2 rest stop

/-- The invocations that `lm.ForEach(nil, fn)` makes on a single shard whose
callback may change that shard, each with the shard before and after the call.
The state is the shard itself and the private state of the callback. -/
def LMap.ForEach.visits {σ : Type} (lm : LMap K V)
    (fn : K → V → LMap K V × σ → Bool × (LMap K V × σ)) (s : σ) :
    List (K × V × LMap K V × LMap K V) :=
  (LMap.ForEach (fun w => w.1) [] (recorded fn) (lm, (s, []))).2.2.2

/-- Modelled from the spec: `LockedMap.Get` is defined outside `src/`; "returns the
stored value or the type's zero/sentinel absent value when the key is not
present". -/
def Internal.LockedMap.Get (lm : Internal.LockedMap K V) (key : K) : V :=
  GoMap.index lm.m key

/-- Modelled from the spec: `LockedMap.Delete` is defined outside `src/`; "removes
the key if present; no-op otherwise". -/
def Internal.LockedMap.Delete (lm : Internal.LockedMap K V) (key : K) :
    Internal.LockedMap K V :=
  { m := lm.m.erase key }

/-- Modelled from the spec: `LockedMap.DeleteAndGet` is defined outside `src/`;
"retrieves the current value (or absent sentinel) and removes the key". -/
def Internal.LockedMap.DeleteAndGet (lm : Internal.LockedMap K V) (key : K) :
    V × Internal.LockedMap K V :=
  (GoMap.index lm.m key, { m := lm.m.erase key })

/-- Modelled from the spec: `LockedMap.Update` is defined outside `src/`; "reads
current value (or absent sentinel), invokes `fn(old) → new`, stores the result". -/
def Internal.LockedMap.Update (lm : Internal.LockedMap K V) (key : K) (fn : V → V) :
    Internal.LockedMap K V :=
  { m := lm.m.insert key (fn (GoMap.index lm.m key)) }

/-- Modelled from the spec: `LockedMap.Swap` is defined outside `src/`; "returns
prior value (or absent sentinel) and installs `new_value`". -/
def Internal.LockedMap.Swap (lm : Internal.LockedMap K V) (key : K) (newV : V) :
    V × Internal.LockedMap K V :=
  (GoMap.index lm.m key, { m := lm.m.insert key newV })

/-- Embeds `CMap.Get` of the template: `cm.shard(key).Get(key)`. -/
def Internal.CMap.Get (cm : Internal.CMap K V) (key : K) : Option V :=
  match cm.shard key with
  | none => none
  | some p => some (p.2.Get key)

/-- Embeds `CMap.Delete` of the template: `cm.shard(key).Delete(key)`. -/
def Internal.CMap.Delete (cm : Internal.CMap K V) (key : K) : Option (Internal.CMap K V) :=
  match cm.shard key with
  | none => none
  | some p => some { cm with shards := cm.shards.set p.1 (p.2.Delete key) }

/-- Embeds `CMap.DeleteAndGet` of the template: `cm.shard(key).DeleteAndGet(key)`. -/
def Internal.CMap.DeleteAndGet (cm : Internal.CMap K V) (key : K) :
    Option (V × Internal.CMap K V) :=
  match cm.shard key with
  | none => none
  | some p =>
    let r := p.2.DeleteAndGet key
    some (r.1, { cm with shards := cm.shards.set p.1 r.2 })

/-- Embeds `CMap.Update` of the template: `cm.shard(key).Update(key, fn)`. -/
def Internal.CMap.Update (cm : Internal.CMap K V) (key : K) (fn : V → V) :
    Option (Internal.CMap K V) :=
  match cm.shard key with
  | none => none
  | some p => some { cm with shards := cm.shards.set p.1 (p.2.Update key fn) }

/-- Embeds `CMap.Swap` of the template: `cm.shard(key).Swap(key, val)`. -/
def Internal.CMap.Swap (cm : Internal.CMap K V) (key : K) (val : V) :
    Option (V × Internal.CMap K V) :=
  match cm.shard key with
  | none => none
  | some p =>
    let r := p.2.Swap key val
    some (r.1, { cm with shards := cm.shards.set p.1 r.2 })

/-- The maps of the template a program can hold when it leaves `HashFn` alone:
what `NewSize` returns and what the point operations make of such a map. -/
inductive Internal.Reachable (hashFn : K → Nat) : Internal.CMap K V → Prop
  | newSize (shardCount : Int) (cm : Internal.CMap K V) :
      Internal.NewSize hashFn shardCount = some cm → Internal.Reachable hashFn cm
  | set (cm cm' : Internal.CMap K V) (key : K) (val : V) :
      Internal.Reachable hashFn cm → cm.Set key val = some cm' →
      Internal.Reachable hashFn cm'
  | setIfNotExists (cm cm' : Internal.CMap K V) (key : K) (val : V) (b : Bool) :
      Internal.Reachable hashFn cm → cm.SetIfNotExists key val = some (b, cm') →
      Internal.Reachable hashFn cm'
  | delete (cm cm' : Internal.CMap K V) (key : K) :
      Internal.Reachable hashFn cm → cm.Delete key = some cm' →
      Internal.Reachable hashFn cm'
  | deleteAndGet (cm cm' : Internal.CMap K V) (key : K) (old : V) :
      Internal.Reachable hashFn cm → cm.DeleteAndGet key = some (old, cm') →
      Internal.Reachable hashFn cm'
  | swap (cm cm' : Internal.CMap K V) (key : K) (val old : V) :
      Internal.Reachable hashFn cm → cm.Swap key val = some (old, cm') →
      Internal.Reachable hashFn cm'
  | update (cm cm' : Internal.CMap K V) (key : K) (fn : V → V) :
      Internal.Reachable hashFn cm → cm.Update key fn = some cm' →
      Internal.Reachable hashFn cm'

/-- Every key of the template's map sits in the shard that `HashFn` and `mod`
select. -/
def Internal.HomeShard (cm : Internal.CMap K V) : Prop :=
  ∀ (i : Nat) (sh : Internal.LockedMap K V), cm.shards[i]? = some sh →
    ∀ key ∈ sh.m.keys, (cm.HashFn key % 2 ^ 32) &&& cm.mod = i

/-! ### Channel iteration

`Iter` starts a goroutine that runs a traversal whose callback is one `select`
between `<-ctx.Done()` and `ch <- &KV{k, v}`.  The producer goroutine is followed
step by step; what the rest of the program does is a parameter (`IterEnv`). -/

/-- What the producer of `Iter` meets from outside: whether `ctx.Done()` is
already closed when `Iter` is called (`done`; a token that has not fired does
not fire during the run), whether a receiver is waiting on the channel at every
`select` and takes each pair as soon as it is sent (`receiver`; otherwise nobody
receives before the producer has finished), which case the `n`-th `select`
takes when both can proceed (`pick n = true`: the send), and what the receiver
does to the map once it holds a pair (`react`; the identity for a receiver that
leaves the map alone).  `C` is the type of the map. -/
structure IterEnv (K V C : Type) where
  done : Bool
  receiver : Bool
  pick : Nat → Bool
  react : K → V → C → C

/-- The channel made by `make(chan *KV, buffer)` as the producer sees it: its
capacity, the pairs sent so far (oldest first), the number of `select`
statements executed, whether the producer is blocked in a `select` of which
neither case can proceed, and whether `close(ch)` has run. -/
structure IterChan (K V : Type) where
  cap : Nat
  sent : List (K × V)
  selects : Nat
  blocked : Bool
  closed : Bool

/-- The callback `fn` of `iterContext`: one `select`.  The send can proceed when
a receiver is waiting or the buffer has a free slot; the cancellation case can
proceed when the token has fired.  When both can proceed the scheduler picks
one; when neither can, the producer stays blocked (the traversal does not
continue and the channel is never closed). -/
def CMap.iterContext.fn (env : IterEnv K V (CMap K V)) (k : K) (v : V)
    (w : CMap K V × IterChan K V) : Bool × (CMap K V × IterChan K V) :=
  let canSend : Bool := env.receiver || decide (w.2.sent.length < w.2.cap)
  let send : Bool × (CMap K V × IterChan K V) :=
    (true, (if env.receiver then env.react k v w.1 else w.1,
      { w.2 with sent := w.2.sent ++ [(k, v)], selects := w.2.selects + 1 }))
  let stop : Bool × (CMap K V × IterChan K V) :=
    (false, (w.1, { w.2 with selects := w.2.selects + 1 }))
  if env.done && canSend then
    if env.pick w.2.selects then send else stop
  else if env.done then stop
  else if canSend then send
  else (false, (w.1, { w.2 with selects := w.2.selects + 1, blocked := true }))

/-- Embeds `CMap.iterContext(ctx, ch, locked)`: the locked traversal when `locked`,
the snapshot traversal otherwise; the result of the traversal is dropped. -/
def CMap.iterContext (env : IterEnv K V (CMap K V)) (cm : CMap K V) (ch : IterChan K V)
    (locked : Bool) : CMap K V × IterChan K V :=
  if locked then
    (cm.ForEachLocked (CMap.iterContext.fn env) ch).2
  else
    (cm.ForEach (CMap.iterContext.fn env) ch).2

/-- The body `go func() { cm.iterContext(ctx, ch, locked); close(ch) }()` on a
fresh channel of capacity `buffer`; `none` is the panic of `make` on a negative
size.  The result is the map and the channel once the producer has returned or
is blocked for good. -/
def CMap.runProducer (env : IterEnv K V (CMap K V)) (cm : CMap K V) (buffer : Int) (locked : Bool) :
    Option (CMap K V × IterChan K V) :=
  if buffer < 0 then
    none
  else
    let ch : IterChan K V :=
      { cap := buffer.toNat, sent := [], selects := 0, blocked := false, closed := false }
    let r := cm.iterContext env ch locked
    some (r.1, { r.2 with closed := !r.2.blocked })

/-- Embeds `CMap.Iter(ctx, buffer)`: the producer runs `cm.iterContext(ctx, ch, false)`. -/
def CMap.Iter (env : IterEnv K V (CMap K V)) (cm : CMap K V) (buffer : Int) :
    Option (CMap K V × IterChan K V) :=
  cm.runProducer env buffer false

/-- Embeds `CMap.IterLocked(ctx, buffer)`: the producer runs
`cm.iterContext(ctx, ch, false)`, as the source has it. -/
def CMap.IterLocked (env : IterEnv K V (CMap K V)) (cm : CMap K V) (buffer : Int) :
    Option (CMap K V × IterChan K V) :=
  cm.runProducer env buffer false

/-- The callback `fn` of the template's `iterContext`: the same `select`, which
returns `Break` on the cancellation case and `nil` after the send. -/
def Internal.CMap.iterContext.fn {E : Type} (Break : E)
    (env : IterEnv K V (Internal.CMap K V)) (k : K) (v : V)
    (w : Internal.CMap K V × IterChan K V) : Option E × (Internal.CMap K V × IterChan K V) :=
  let canSend : Bool := env.receiver || decide (w.2.sent.length < w.2.cap)
  let send : Option E × (Internal.CMap K V × IterChan K V) :=
    (none, (if env.receiver then env.react k v w.1 else w.1,
      { w.2 with sent := w.2.sent ++ [(k, v)], selects := w.2.selects + 1 }))
  let stop : Option E × (Internal.CMap K V × IterChan K V) :=
    (some Break, (w.1, { w.2 with selects := w.2.selects + 1 }))
  if env.done && canSend then
    if env.pick w.2.selects then send else stop
  else if env.done then stop
  else if canSend then send
  else (some Break, (w.1, { w.2 with selects := w.2.selects + 1, blocked := true }))

/-- Embeds `CMap.iterContext(ctx, ch, locked)` of the template. -/
def Internal.CMap.iterContext {E : Type} [DecidableEq E] (Break : E)
    (env : IterEnv K V (Internal.CMap K V)) (cm : Internal.CMap K V) (ch : IterChan K V)
    (locked : Bool) : Internal.CMap K V × IterChan K V :=
  if locked then
    (cm.ForEachLocked Break (Internal.CMap.iterContext.fn Break env) ch).2
  else
    (cm.ForEach Break (Internal.CMap.iterContext.fn Break env) ch).2

/-- The body `go func() { cm.iterContext(ctx, ch, locked); close(ch) }()` of the
template on a fresh channel of capacity `buffer`; `none` is the panic of `make`
on a negative size. -/
def Internal.CMap.runProducer {E : Type} [DecidableEq E] (Break : E)
    (env : IterEnv K V (Internal.CMap K V)) (cm : Internal.CMap K V) (buffer : Int)
    (locked : Bool) : Option (Internal.CMap K V × IterChan K V) :=
  if buffer < 0 then
    none
  else
    let ch : IterChan K V :=
      { cap := buffer.toNat, sent := [], selects := 0, blocked := false, closed := false }
    let r := cm.iterContext Break env ch locked
    some (r.1, { r.2 with closed := !r.2.blocked })

/-- Embeds `CMap.Iter(ctx, buffer)` of the template: `cm.iterContext(ctx, ch, false)`. -/
def Internal.CMap.Iter {E : Type} [DecidableEq E] (Break : E)
    (env : IterEnv K V (Internal.CMap K V)) (cm : Internal.CMap K V) (buffer : Int) :
    Option (Internal.CMap K V × IterChan K V) :=
  cm.runProducer Break env buffer false

/-- Embeds `CMap.IterLocked(ctx, buffer)` of the template: `cm.iterContext(ctx, ch,
false)`, as the source has it. -/
def Internal.CMap.IterLocked {E : Type} [DecidableEq E] (Break : E)
    (env : IterEnv K V (Internal.CMap K V)) (cm : Internal.CMap K V) (buffer : Int) :
    Option (Internal.CMap K V × IterChan K V) :=
  cm.runProducer Break env buffer false

/-- The template's map after `NewSize(4); Set(1, 10); Set(5, 50); Set(2, 20)`. -/
def exTemplateMap : Internal.CMap Nat (Option Nat) :=
  ((((exTemplate.Set 1 (some 10)).getD exTemplate).Set 5 (some 50)).getD exTemplate).Set 2
    (some 20) |>.getD exTemplate

/-- A callback of the template that returns the error `err` on the key `key` and
nil on every other key, leaves the map as it is and counts its invocations.
Errors are numbered. -/
def exStopAt (key err : Nat) : Nat → Option Nat →
    Internal.CMap Nat (Option Nat) × Nat → Option Nat × (Internal.CMap Nat (Option Nat) × Nat) :=
  fun k _ w => (if k = key then some err else none, (w.1, w.2 + 1))

/-- A run with memory for `2 ^ 45` shards: the slice of shard pointers alone is
then `1 << 48` bytes, the largest allocation the Go runtime makes on a 64-bit
platform. -/
def exMaxLen : Nat := 2 ^ 45

/-- A fired token, nobody receiving, a scheduler that takes the send whenever it
can. -/
def exFiredEnv : IterEnv Nat (Option Nat) (CMap Nat (Option Nat)) :=
  { done := true, receiver := false, pick := fun _ => true, react := fun _ _ cm => cm }

/-- The same for the template: a fired token, nobody receiving, the send taken
whenever it can be. -/
def exFiredTemplateEnv : IterEnv Nat (Option Nat) (Internal.CMap Nat (Option Nat)) :=
  { done := true, receiver := false, pick := fun _ => true, react := fun _ _ cm => cm }

/-- The same for the template: a token that does not fire and a receiver that
deletes key 1 when it is handed key 5. -/
def exDeletingTemplateEnv : IterEnv Nat (Option Nat) (Internal.CMap Nat (Option Nat)) :=
  { done := false, receiver := true, pick := fun _ => true,
    react := fun k _ cm => if k = 5 then (cm.Delete 1).getD cm else cm }

/-- A token that does not fire and a receiver that deletes key 1 from the map
when it is handed key 5. -/
def exDeletingEnv : IterEnv Nat (Option Nat) (CMap Nat (Option Nat)) :=
  { done := false, receiver := true, pick := fun _ => true,
    react := fun k _ cm => if k = 5 then (cm.Delete exHash 1).getD cm else cm }

end Further


/-! # Theorems -/

/-! ## Routing: every point operation reaches a shard -/

section Routing

variable {K V : Type}

theorem uint32_pred_le (n : Nat) (hn : 0 < n) : uint32 ((n : Int) - 1) ≤ n - 1 := by
  unfold uint32
  omega

theorem defaultShardCount_eq : DefaultShardCount = 256 := by decide

theorem CMap.shardIndex_lt (hasher : K → Nat) (cm : CMap K V) (key : K)
    (hne : 0 < cm.shards.length) : cm.shardIndex hasher key < cm.shards.length := by
  show (hasher key % 2 ^ 32) &&& uint32 ((cm.shards.length : Int) - 1) < cm.shards.length
  have h1 := uint32_pred_le cm.shards.length hne
  have h2 : (hasher key % 2 ^ 32) &&& uint32 ((cm.shards.length : Int) - 1)
      ≤ uint32 ((cm.shards.length : Int) - 1) := Nat.and_le_right
  omega

theorem CMap.exists_shard (hasher : K → Nat) (cm : CMap K V) (key : K)
    (hne : 0 < cm.shards.length) :
    ∃ sh, cm.shards[cm.shardIndex hasher key]? = some sh :=
  ⟨_, List.getElem?_eq_getElem (cm.shardIndex_lt hasher key hne)⟩

theorem CMap.shardIndex_set (hasher : K → Nat) (cm : CMap K V) (i : Nat) (sh : LMap K V)
    (key : K) :
    CMap.shardIndex hasher { shards := cm.shards.set i sh } key = cm.shardIndex hasher key := by
  simp only [CMap.shardIndex, List.length_set]

/-- Reading the shard of `key` after shard `i` was overwritten with `sh`. -/
theorem CMap.getElem?_set_home (hasher : K → Nat) (cm : CMap K V) (key : K) (sh : LMap K V)
    (hne : 0 < cm.shards.length) :
    (cm.shards.set (cm.shardIndex hasher key) sh)[
      CMap.shardIndex hasher { shards := cm.shards.set (cm.shardIndex hasher key) sh } key]?
      = some sh := by
  rw [CMap.shardIndex_set]
  exact List.getElem?_set_self (cm.shardIndex_lt hasher key hne)

theorem CMap.set_self (cm : CMap K V) (i : Nat) (sh : LMap K V)
    (h : cm.shards[i]? = some sh) : ({ shards := cm.shards.set i sh } : CMap K V) = cm := by
  cases cm with
  | mk shards =>
    simp only [CMap.mk.injEq]
    apply List.ext_getElem?
    intro j
    rw [List.getElem?_set]
    by_cases hij : i = j
    · subst hij
      simp only [if_true]
      have hlt : i < shards.length := by
        by_contra hge
        have : shards[i]? = none := List.getElem?_eq_none (by omega)
        simp_all
      simp only [hlt, if_true]
      exact h.symm
    · simp only [hij, if_false]

theorem NewSize_length_pos [DecidableEq K] [Inhabited V] (shardCount : Int) (cm : CMap K V)
    (h : NewSize shardCount = some cm) : 0 < cm.shards.length := by
  unfold NewSize at h
  split_ifs at h with h1 h2
  · cases h
    simp only [allocShards, List.length_replicate, defaultShardCount_eq]
    decide
  · cases h
    simp only [allocShards, List.length_replicate]
    omega

theorem Reachable.length_pos [DecidableEq K] [Inhabited V] {hasher : K → Nat} {cm : CMap K V}
    (h : Reachable hasher cm) : 0 < cm.shards.length := by
  induction h with
  | newSize n cm hn => exact NewSize_length_pos n cm hn
  | set cm cm' key val _ hop ih =>
    simp only [CMap.Set] at hop
    split at hop
    · cases hop
    · cases hop; simpa using ih
  | setIfNotExists cm cm' key val b _ hop ih =>
    simp only [CMap.SetIfNotExists] at hop
    split at hop
    · cases hop
    · cases hop; simpa using ih
  | delete cm cm' key _ hop ih =>
    simp only [CMap.Delete] at hop
    split at hop
    · cases hop
    · cases hop; simpa using ih
  | deleteAndGet cm cm' key old _ hop ih =>
    simp only [CMap.DeleteAndGet] at hop
    split at hop
    · cases hop
    · cases hop; simpa using ih
  | swap cm cm' key val old _ hop ih =>
    simp only [CMap.Swap] at hop
    split at hop
    · cases hop
    · cases hop; simpa using ih
  | update cm cm' key fn _ hop ih =>
    simp only [CMap.Update] at hop
    split at hop
    · cases hop
    · cases hop; simpa using ih

end Routing

/-! ## One shard -/

section Shard

variable {K V : Type}

theorem GoMap.commaOk_insert [DecidableEq K] [Inhabited V] (m : GoMap K V) (k : K) (v : V) :
    GoMap.commaOk (m.insert k v) k = (v, true) := by
  simp [GoMap.commaOk, AList.lookup_insert]

theorem GoMap.index_insert [DecidableEq K] [Inhabited V] (m : GoMap K V) (k : K) (v : V) :
    GoMap.index (m.insert k v) k = v := by
  simp [GoMap.index, AList.lookup_insert]

theorem GoMap.commaOk_erase [DecidableEq K] [Inhabited V] (m : GoMap K V) (k : K) :
    GoMap.commaOk (m.erase k) k = (default, false) := by
  simp [GoMap.commaOk, AList.lookup_erase]

theorem GoMap.index_erase [DecidableEq K] [Inhabited V] (m : GoMap K V) (k : K) :
    GoMap.index (m.erase k) k = default := by
  simp [GoMap.index, AList.lookup_erase]

theorem GoMap.commaOk_snd_false [DecidableEq K] [Inhabited V] (m : GoMap K V) (k : K) :
    (GoMap.commaOk m k).2 = false ↔ m.lookup k = none := by
  unfold GoMap.commaOk
  cases h : m.lookup k <;> simp

theorem GoMap.commaOk_snd_true [DecidableEq K] [Inhabited V] (m : GoMap K V) (k : K) :
    (GoMap.commaOk m k).2 = true ↔ ∃ v, m.lookup k = some v := by
  unfold GoMap.commaOk
  cases h : m.lookup k <;> simp

theorem GoMap.index_of_absent [DecidableEq K] [Inhabited V] (m : GoMap K V) (k : K)
    (h : m.lookup k = none) : GoMap.index m k = default := by
  simp [GoMap.index, h]

theorem GoMap.erase_of_absent [DecidableEq K] (m : GoMap K V) (k : K)
    (h : m.lookup k = none) : m.erase k = m := by
  apply AList.ext
  have hk : k ∉ m.entries.keys := by
    have := AList.lookup_eq_none.mp h
    exact fun hmem => this (AList.mem_keys.mpr hmem)
  simpa [AList.erase] using List.kerase_of_not_mem_keys hk

end Shard

/-! ## Point operations -/

section PointOps

variable {K V : Type}

theorem CMap.Set_of_shard [DecidableEq K] (hasher : K → Nat) (cm : CMap K V) (k : K) (v : V)
    (sh : LMap K V) (h : cm.shards[cm.shardIndex hasher k]? = some sh) :
    cm.Set hasher k v = some { shards := cm.shards.set (cm.shardIndex hasher k) (sh.Set k v) } := by
  simp only [CMap.Set, h]

theorem CMap.SetIfNotExists_of_shard [DecidableEq K] [Inhabited V] (hasher : K → Nat)
    (cm : CMap K V) (k : K) (v : V) (sh : LMap K V)
    (h : cm.shards[cm.shardIndex hasher k]? = some sh) :
    cm.SetIfNotExists hasher k v = some ((sh.SetIfNotExists k v).1,
      { shards := cm.shards.set (cm.shardIndex hasher k) (sh.SetIfNotExists k v).2 }) := by
  simp only [CMap.SetIfNotExists, h]

theorem CMap.Get_of_shard [DecidableEq K] [Inhabited V] (hasher : K → Nat) (cm : CMap K V)
    (k : K) (sh : LMap K V) (h : cm.shards[cm.shardIndex hasher k]? = some sh) :
    cm.Get hasher k = some (sh.Get k) := by
  simp only [CMap.Get, h]

theorem CMap.GetOK_of_shard [DecidableEq K] [Inhabited V] (hasher : K → Nat) (cm : CMap K V)
    (k : K) (sh : LMap K V) (h : cm.shards[cm.shardIndex hasher k]? = some sh) :
    cm.GetOK hasher k = some (sh.GetOK k) := by
  simp only [CMap.GetOK, h]

theorem CMap.Has_of_shard [DecidableEq K] [Inhabited V] (hasher : K → Nat) (cm : CMap K V)
    (k : K) (sh : LMap K V) (h : cm.shards[cm.shardIndex hasher k]? = some sh) :
    cm.Has hasher k = some (sh.Has k) := by
  simp only [CMap.Has, h]

theorem CMap.Delete_of_shard [DecidableEq K] (hasher : K → Nat) (cm : CMap K V) (k : K)
    (sh : LMap K V) (h : cm.shards[cm.shardIndex hasher k]? = some sh) :
    cm.Delete hasher k = some { shards := cm.shards.set (cm.shardIndex hasher k) (sh.Delete k) } := by
  simp only [CMap.Delete, h]

theorem CMap.DeleteAndGet_of_shard [DecidableEq K] [Inhabited V] (hasher : K → Nat)
    (cm : CMap K V) (k : K) (sh : LMap K V)
    (h : cm.shards[cm.shardIndex hasher k]? = some sh) :
    cm.DeleteAndGet hasher k = some ((sh.DeleteAndGet k).1,
      { shards := cm.shards.set (cm.shardIndex hasher k) (sh.DeleteAndGet k).2 }) := by
  simp only [CMap.DeleteAndGet, h]

theorem CMap.Update_of_shard [DecidableEq K] [Inhabited V] (hasher : K → Nat) (cm : CMap K V)
    (k : K) (fn : V → V) (sh : LMap K V) (h : cm.shards[cm.shardIndex hasher k]? = some sh) :
    cm.Update hasher k fn
      = some { shards := cm.shards.set (cm.shardIndex hasher k) (sh.Update k fn) } := by
  simp only [CMap.Update, h]

theorem CMap.Swap_of_shard [DecidableEq K] [Inhabited V] (hasher : K → Nat) (cm : CMap K V)
    (k : K) (v : V) (sh : LMap K V) (h : cm.shards[cm.shardIndex hasher k]? = some sh) :
    cm.Swap hasher k v = some ((sh.Swap k v).1,
      { shards := cm.shards.set (cm.shardIndex hasher k) (sh.Swap k v).2 }) := by
  simp only [CMap.Swap, h]

/-- After shard `shardIndex k` is replaced by `sh`, the shard of `k` is `sh`. -/
theorem CMap.home_after_set (hasher : K → Nat) (cm : CMap K V) (k : K) (sh : LMap K V)
    (hpos : 0 < cm.shards.length) :
    (CMap.mk (cm.shards.set (cm.shardIndex hasher k) sh)).shards[
      (CMap.mk (cm.shards.set (cm.shardIndex hasher k) sh)).shardIndex hasher k]? = some sh :=
  cm.getElem?_set_home hasher k sh hpos

/-- C1: for every map built by `NewSize` (and whatever point operations it went
through since), every key `k` and value `v`: `Set(k, v)` succeeds, and afterwards
`GetOK(k)` returns `(v, true)` and `Get(k)` returns `v`. -/
theorem set_then_getOK [DecidableEq K] [Inhabited V] (hasher : K → Nat) (cm : CMap K V)
    (k : K) (v : V) (hcm : Reachable hasher cm) :
    ∃ cm', cm.Set hasher k v = some cm' ∧
      cm'.GetOK hasher k = some (v, true) ∧ cm'.Get hasher k = some v := by
  have hpos := hcm.length_pos
  obtain ⟨sh, hsh⟩ := cm.exists_shard hasher k hpos
  have hsh1 := cm.home_after_set hasher k (sh.Set k v) hpos
  refine ⟨_, cm.Set_of_shard hasher k v sh hsh, ?_, ?_⟩
  · rw [CMap.GetOK_of_shard hasher _ k _ hsh1]
    simp only [LMap.GetOK, LMap.Set, GoMap.commaOk_insert]
  · rw [CMap.Get_of_shard hasher _ k _ hsh1]
    simp only [LMap.Get, LMap.Set, GoMap.index_insert]

/-- Replacing the shard of `k`: the new map has the same number of shards and
finds the new shard under `k`. -/
theorem CMap.replace_home (hasher : K → Nat) (cm : CMap K V) (k : K) (sh : LMap K V)
    (hpos : 0 < cm.shards.length) :
    ∃ cm' : CMap K V, cm' = { shards := cm.shards.set (cm.shardIndex hasher k) sh } ∧
      0 < cm'.shards.length ∧ cm'.shards[cm'.shardIndex hasher k]? = some sh :=
  ⟨_, rfl, by simpa using hpos, cm.home_after_set hasher k sh hpos⟩

/-- C3: after `Set(k, v1)`, `Swap(k, v2)` returns `v1` and then `GetOK(k)` is
`(v2, true)`; on a map without `k`, `Swap(k, v2)` returns the zero value (nil)
and installs `v2` all the same. -/
theorem swap_spec [DecidableEq K] [Inhabited V] (hasher : K → Nat) (cm : CMap K V)
    (k : K) (v1 v2 : V) (hcm : Reachable hasher cm) :
    (∃ cm1 cm2, cm.Set hasher k v1 = some cm1 ∧ cm1.Swap hasher k v2 = some (v1, cm2) ∧
        cm2.GetOK hasher k = some (v2, true)) ∧
    (cm.Has hasher k = some false →
      ∃ cm2, cm.Swap hasher k v2 = some (default, cm2) ∧
        cm2.GetOK hasher k = some (v2, true)) := by
  have hpos := hcm.length_pos
  obtain ⟨sh, hsh⟩ := cm.exists_shard hasher k hpos
  constructor
  · obtain ⟨cm1, hcm1, hpos1, hsh1⟩ := cm.replace_home hasher k (sh.Set k v1) hpos
    obtain ⟨cm2, hcm2, _, hsh2⟩ :=
      cm1.replace_home hasher k ((sh.Set k v1).Swap k v2).2 hpos1
    refine ⟨cm1, cm2, ?_, ?_, ?_⟩
    · rw [cm.Set_of_shard hasher k v1 sh hsh, hcm1]
    · rw [cm1.Swap_of_shard hasher k v2 _ hsh1, hcm2]
      simp only [LMap.Swap, LMap.Set, GoMap.index_insert]
    · rw [cm2.GetOK_of_shard hasher k _ hsh2]
      simp only [LMap.GetOK, LMap.Swap, GoMap.commaOk_insert]
  · intro hhas
    rw [cm.Has_of_shard hasher k sh hsh] at hhas
    have habs : sh.m.lookup k = none := by
      rw [← GoMap.commaOk_snd_false]; simpa [LMap.Has] using hhas
    obtain ⟨cm2, hcm2, _, hsh2⟩ := cm.replace_home hasher k (sh.Swap k v2).2 hpos
    refine ⟨cm2, ?_, ?_⟩
    · rw [cm.Swap_of_shard hasher k v2 sh hsh, hcm2]
      simp only [LMap.Swap, GoMap.index_of_absent _ _ habs]
    · rw [cm2.GetOK_of_shard hasher k _ hsh2]
      simp only [LMap.GetOK, LMap.Swap, GoMap.commaOk_insert]

/-- C4: after `Set(k, v)`, `DeleteAndGet(k)` returns `v` and then `Has(k)` is
false; a second `DeleteAndGet(k)` returns the zero value (nil) and leaves the
map as it is. -/
theorem deleteAndGet_spec [DecidableEq K] [Inhabited V] (hasher : K → Nat) (cm : CMap K V)
    (k : K) (v : V) (hcm : Reachable hasher cm) :
    ∃ cm1 cm2, cm.Set hasher k v = some cm1 ∧ cm1.DeleteAndGet hasher k = some (v, cm2) ∧
      cm2.Has hasher k = some false ∧ cm2.DeleteAndGet hasher k = some (default, cm2) := by
  have hpos := hcm.length_pos
  obtain ⟨sh, hsh⟩ := cm.exists_shard hasher k hpos
  obtain ⟨cm1, hcm1, hpos1, hsh1⟩ := cm.replace_home hasher k (sh.Set k v) hpos
  obtain ⟨cm2, hcm2, _, hsh2⟩ :=
    cm1.replace_home hasher k ((sh.Set k v).DeleteAndGet k).2 hpos1
  refine ⟨cm1, cm2, ?_, ?_, ?_, ?_⟩
  · rw [cm.Set_of_shard hasher k v sh hsh, hcm1]
  · rw [cm1.DeleteAndGet_of_shard hasher k _ hsh1, hcm2]
    simp only [LMap.DeleteAndGet, LMap.Set, GoMap.index_insert]
  · rw [cm2.Has_of_shard hasher k _ hsh2]
    simp only [LMap.Has, LMap.DeleteAndGet, GoMap.commaOk_erase]
  · rw [cm2.DeleteAndGet_of_shard hasher k _ hsh2]
    have hsame : (((sh.Set k v).DeleteAndGet k).2.DeleteAndGet k).2
        = ((sh.Set k v).DeleteAndGet k).2 := by
      simp only [LMap.DeleteAndGet]
      rw [GoMap.erase_of_absent _ k (AList.lookup_erase k _)]
    rw [hsame, cm2.set_self _ _ hsh2]
    simp only [LMap.DeleteAndGet, GoMap.index_erase]

/-- C8: `Delete(k)` leaves `Has(k)` false, changes nothing when `k` was absent,
and a second `Delete(k)` gives the map that the first one gave. -/
theorem delete_spec [DecidableEq K] [Inhabited V] (hasher : K → Nat) (cm : CMap K V)
    (k : K) (hcm : Reachable hasher cm) :
    ∃ cm1, cm.Delete hasher k = some cm1 ∧ cm1.Has hasher k = some false ∧
      (cm.Has hasher k = some false → cm1 = cm) ∧ cm1.Delete hasher k = some cm1 := by
  have hpos := hcm.length_pos
  obtain ⟨sh, hsh⟩ := cm.exists_shard hasher k hpos
  have hsh1 := cm.home_after_set hasher k (sh.Delete k) hpos
  refine ⟨_, cm.Delete_of_shard hasher k sh hsh, ?_, ?_, ?_⟩
  · rw [CMap.Has_of_shard hasher _ k _ hsh1]
    simp only [LMap.Has, LMap.Delete, GoMap.commaOk_erase]
  · intro hhas
    rw [cm.Has_of_shard hasher k sh hsh] at hhas
    have habs : sh.m.lookup k = none := by
      rw [← GoMap.commaOk_snd_false]; simpa [LMap.Has] using hhas
    have : sh.Delete k = sh := by
      simp only [LMap.Delete, GoMap.erase_of_absent _ k habs]
    rw [this, cm.set_self _ _ hsh]
  · rw [CMap.Delete_of_shard hasher _ k _ hsh1]
    have : (sh.Delete k).Delete k = sh.Delete k := by
      simp only [LMap.Delete]
      rw [GoMap.erase_of_absent _ k (AList.lookup_erase k _)]
    rw [this, CMap.set_self _ _ _ hsh1]

end PointOps

/-! ## Construction -/

section Construction

variable {K V : Type}

theorem and_pred_eq_zero_iff (n : Nat) (hn : 1 ≤ n) :
    n &&& (n - 1) = 0 ↔ ∃ e : Nat, n = 2 ^ e := by
  constructor
  · induction n using Nat.strong_induction_on with
    | _ n ih =>
      intro h
      by_cases h1 : n = 1
      · exact ⟨0, by simp [h1]⟩
      · have hdiv : n / 2 &&& (n - 1) / 2 = 0 := by
          rw [← Nat.and_div_two, h]
        rcases Nat.mod_two_eq_zero_or_one n with hev | hodd
        · have hpred : (n - 1) / 2 = n / 2 - 1 := by omega
          rw [hpred] at hdiv
          obtain ⟨e, he⟩ := ih (n / 2) (by omega) (by omega) hdiv
          exact ⟨e + 1, by rw [pow_succ]; omega⟩
        · have hpred : (n - 1) / 2 = n / 2 := by omega
          rw [hpred, Nat.and_self] at hdiv
          omega
  · rintro ⟨e, rfl⟩
    rw [Nat.and_pow_two_sub_one_eq_mod, Nat.mod_self]

theorem int_land_pred_eq_zero_iff (x : Int) (hx : 1 ≤ x) :
    Int.land x (x - 1) = 0 ↔ ∃ e : Nat, x = 2 ^ e := by
  obtain ⟨n, rfl⟩ : ∃ n : Nat, x = (n : Int) := ⟨x.toNat, by omega⟩
  have hn : 1 ≤ n := by omega
  have hsub : ((n : Int) - 1) = ((n - 1 : Nat) : Int) := by omega
  rw [hsub]
  have hland : Int.land (n : Int) ((n - 1 : Nat) : Int) = ((n &&& (n - 1) : Nat) : Int) := rfl
  rw [hland]
  constructor
  · intro h
    obtain ⟨e, he⟩ := (and_pred_eq_zero_iff n hn).mp (by exact_mod_cast h)
    exact ⟨e, by exact_mod_cast he⟩
  · rintro ⟨e, he⟩
    have : n &&& (n - 1) = 0 := (and_pred_eq_zero_iff n hn).mpr ⟨e, by exact_mod_cast he⟩
    exact_mod_cast this

theorem CMap.Len_eq_sum (cm : CMap K V) : cm.Len = (cm.shards.map LMap.Len).sum := by
  unfold CMap.Len
  rw [List.sum_eq_foldl, List.foldl_map]

theorem CMap.Len_allocShards [DecidableEq K] [Inhabited V] (n : Int) :
    (allocShards n : CMap K V).Len = 0 := by
  rw [CMap.Len_eq_sum]
  simp [allocShards, NewLMapSize, LMap.Len]

theorem Internal.CMap.Len_allocShards_template [DecidableEq K] [Inhabited V] (hashFn : K → Nat)
    (n : Int) : (Internal.allocShards hashFn n : Internal.CMap K V).Len = 0 := by
  unfold Internal.CMap.Len
  rw [← List.foldl_map (f := Internal.LockedMap.Len) (g := fun (ln : Nat) n => ln + n),
    ← List.sum_eq_foldl]
  simp [Internal.allocShards, Internal.NewLockedMapSize, Internal.LockedMap.Len]

/-- In a run without a bound on memory the only failure of `NewSize` is the
power-of-two check; this is the part of `NewSize.within` that does not depend on
the memory at hand. -/
theorem NewSize_unbounded [DecidableEq K] [Inhabited V] (hashFn : K → Nat) (shardCount : Int) :
    (((NewSize shardCount : Option (CMap K V)) = none ↔
        1 ≤ shardCount ∧ ¬ ∃ e : Nat, shardCount = 2 ^ e) ∧
      (shardCount < 1 → ∃ cm : CMap K V,
        NewSize shardCount = some cm ∧ cm.Len = 0 ∧ cm.NumShards = 256) ∧
      ((∃ e : Nat, shardCount = 2 ^ e) → ∃ cm : CMap K V,
        NewSize shardCount = some cm ∧ cm.Len = 0 ∧ (cm.NumShards : Int) = shardCount)) ∧
    (((Internal.NewSize hashFn shardCount : Option (Internal.CMap K V)) = none ↔
        1 ≤ shardCount ∧ ¬ ∃ e : Nat, shardCount = 2 ^ e) ∧
      (shardCount < 1 → ∃ cm : Internal.CMap K V,
        Internal.NewSize hashFn shardCount = some cm ∧ cm.Len = 0 ∧ cm.NumShards = 256) ∧
      ((∃ e : Nat, shardCount = 2 ^ e) → ∃ cm : Internal.CMap K V,
        Internal.NewSize hashFn shardCount = some cm ∧ cm.Len = 0 ∧
          (cm.NumShards : Int) = shardCount)) := by
  have hpow_pos : (∃ e : Nat, shardCount = 2 ^ e) → 1 ≤ shardCount := by
    rintro ⟨e, rfl⟩
    exact_mod_cast Nat.one_le_two_pow
  have h256 : (DefaultShardCount.toNat : Nat) = 256 := by decide
  refine ⟨⟨?_, ?_, ?_⟩, ⟨?_, ?_, ?_⟩⟩
  · unfold NewSize
    by_cases h1 : shardCount < 1
    · rw [if_pos h1]
      constructor
      · intro h; cases h
      · rintro ⟨h, _⟩; omega
    · have h1' : 1 ≤ shardCount := by omega
      have hiff := int_land_pred_eq_zero_iff shardCount h1'
      by_cases h2 : Int.land shardCount (shardCount - 1) = 0
      · rw [if_neg h1, if_neg (not_not.mpr h2)]
        exact ⟨fun h => (by cases h), fun h => absurd (hiff.mp h2) h.2⟩
      · rw [if_neg h1, if_pos h2]
        exact ⟨fun _ => ⟨h1', fun hp => h2 (hiff.mpr hp)⟩, fun _ => rfl⟩
  · intro h1
    refine ⟨allocShards DefaultShardCount, by simp only [NewSize, h1, if_true],
      CMap.Len_allocShards _, ?_⟩
    simp only [CMap.NumShards, allocShards, List.length_replicate, h256]
  · intro hp
    have h1' := hpow_pos hp
    have h1 : ¬ shardCount < 1 := by omega
    refine ⟨allocShards shardCount, ?_, CMap.Len_allocShards _, ?_⟩
    · simp only [NewSize, h1, if_false, ne_eq,
        (int_land_pred_eq_zero_iff shardCount h1').mpr hp, not_true_eq_false]
    · simp only [CMap.NumShards, allocShards, List.length_replicate]
      omega
  · unfold Internal.NewSize
    by_cases h1 : shardCount < 1
    · rw [if_pos h1]
      constructor
      · intro h; cases h
      · rintro ⟨h, _⟩; omega
    · have h1' : 1 ≤ shardCount := by omega
      have hiff := int_land_pred_eq_zero_iff shardCount h1'
      by_cases h2 : Int.land shardCount (shardCount - 1) = 0
      · rw [if_neg h1, if_neg (not_not.mpr h2)]
        exact ⟨fun h => (by cases h), fun h => absurd (hiff.mp h2) h.2⟩
      · rw [if_neg h1, if_pos h2]
        exact ⟨fun _ => ⟨h1', fun hp => h2 (hiff.mpr hp)⟩, fun _ => rfl⟩
  · intro h1
    refine ⟨Internal.allocShards hashFn DefaultShardCount,
      by simp only [Internal.NewSize, h1, if_true], Internal.CMap.Len_allocShards_template _ _, ?_⟩
    simp only [Internal.CMap.NumShards, Internal.allocShards, List.length_replicate, h256]
  · intro hp
    have h1' := hpow_pos hp
    have h1 : ¬ shardCount < 1 := by omega
    refine ⟨Internal.allocShards hashFn shardCount, ?_, Internal.CMap.Len_allocShards_template _ _, ?_⟩
    · simp only [Internal.NewSize, h1, if_false, ne_eq,
        (int_land_pred_eq_zero_iff shardCount h1').mpr hp, not_true_eq_false]
    · simp only [Internal.CMap.NumShards, Internal.allocShards, List.length_replicate]
      omega

theorem NewSize.within_eq [DecidableEq K] [Inhabited V] (maxLen : Nat) (shardCount : Int) :
    (NewSize.within maxLen shardCount : Option (CMap K V))
      = if (if shardCount < 1 then 256 else shardCount.toNat) ≤ maxLen
        then NewSize shardCount else none := by
  have h256 : (DefaultShardCount.toNat : Nat) = 256 := by decide
  unfold NewSize.within NewSize makeShards
  by_cases h1 : shardCount < 1
  · simp only [h1, if_true, h256]
  · by_cases h2 : Int.land shardCount (shardCount - 1) ≠ 0
    · rw [if_neg h1, if_neg h1, if_neg h1, if_pos h2, if_pos h2, ite_self]
    · rw [if_neg h1, if_neg h1, if_neg h1, if_neg h2, if_neg h2]

theorem Internal.NewSize.within_eq_template [DecidableEq K] [Inhabited V] (maxLen : Nat)
    (hashFn : K → Nat) (shardCount : Int) :
    (Internal.NewSize.within maxLen hashFn shardCount : Option (Internal.CMap K V))
      = if (if shardCount < 1 then 256 else shardCount.toNat) ≤ maxLen
        then Internal.NewSize hashFn shardCount else none := by
  have h256 : (DefaultShardCount.toNat : Nat) = 256 := by decide
  unfold Internal.NewSize.within Internal.NewSize Internal.makeShards
  by_cases h1 : shardCount < 1
  · simp only [h1, if_true, h256]
  · by_cases h2 : Int.land shardCount (shardCount - 1) ≠ 0
    · rw [if_neg h1, if_neg h1, if_neg h1, if_pos h2, if_pos h2, ite_self]
    · rw [if_neg h1, if_neg h1, if_neg h1, if_neg h2, if_neg h2]

/-- C6: in a run that has memory for at most `maxLen` shards,
`NewSize(shardCount)` fails exactly when `shardCount` is at least 1 and not a
power of two, or the number of shards it allocates (256 when `shardCount` is
below 1, `shardCount` otherwise) is more than `maxLen`.
Otherwise it returns an empty map: of 256 shards for `shardCount` below 1, of
`shardCount` shards for a power of two.  Whenever it returns, the map is the
one `NewSize` returns in a run without a bound on memory.  The same holds for
`NewSize` of the generic template. -/
theorem newSize_spec [DecidableEq K] [Inhabited V] (hashFn : K → Nat) (maxLen : Nat)
    (shardCount : Int) :
    (((NewSize.within maxLen shardCount : Option (CMap K V)) = none ↔
        (1 ≤ shardCount ∧ ¬ ∃ e : Nat, shardCount = 2 ^ e) ∨
          maxLen < (if shardCount < 1 then 256 else shardCount.toNat)) ∧
      (shardCount < 1 → 256 ≤ maxLen → ∃ cm : CMap K V,
        NewSize.within maxLen shardCount = some cm ∧ cm.Len = 0 ∧ cm.NumShards = 256) ∧
      ((∃ e : Nat, shardCount = 2 ^ e) → shardCount ≤ maxLen → ∃ cm : CMap K V,
        NewSize.within maxLen shardCount = some cm ∧ cm.Len = 0 ∧
          (cm.NumShards : Int) = shardCount) ∧
      (∀ cm : CMap K V, NewSize.within maxLen shardCount = some cm →
        NewSize shardCount = some cm)) ∧
    (((Internal.NewSize.within maxLen hashFn shardCount : Option (Internal.CMap K V)) = none ↔
        (1 ≤ shardCount ∧ ¬ ∃ e : Nat, shardCount = 2 ^ e) ∨
          maxLen < (if shardCount < 1 then 256 else shardCount.toNat)) ∧
      (shardCount < 1 → 256 ≤ maxLen → ∃ cm : Internal.CMap K V,
        Internal.NewSize.within maxLen hashFn shardCount = some cm ∧ cm.Len = 0 ∧
          cm.NumShards = 256) ∧
      ((∃ e : Nat, shardCount = 2 ^ e) → shardCount ≤ maxLen → ∃ cm : Internal.CMap K V,
        Internal.NewSize.within maxLen hashFn shardCount = some cm ∧ cm.Len = 0 ∧
          (cm.NumShards : Int) = shardCount) ∧
      (∀ cm : Internal.CMap K V, Internal.NewSize.within maxLen hashFn shardCount = some cm →
        Internal.NewSize hashFn shardCount = some cm)) := by
  obtain ⟨⟨a1, a2, a3⟩, ⟨b1, b2, b3⟩⟩ := NewSize_unbounded (K := K) (V := V) hashFn shardCount
  have hpow_pos : (∃ e : Nat, shardCount = 2 ^ e) → 1 ≤ shardCount := by
    rintro ⟨e, rfl⟩
    exact_mod_cast Nat.one_le_two_pow
  refine ⟨⟨?_, ?_, ?_, ?_⟩, ⟨?_, ?_, ?_, ?_⟩⟩
  · rw [NewSize.within_eq]
    by_cases hm : (if shardCount < 1 then 256 else shardCount.toNat) ≤ maxLen
    · rw [if_pos hm, a1]
      exact ⟨Or.inl, fun h => h.elim id (fun h' => absurd hm (by omega))⟩
    · rw [if_neg hm]
      exact ⟨fun _ => Or.inr (by omega), fun _ => rfl⟩
  · intro h1 hm
    rw [NewSize.within_eq, if_pos (by rw [if_pos h1]; exact hm)]
    exact a2 h1
  · intro hp hm
    have h1 : ¬ shardCount < 1 := by have := hpow_pos hp; omega
    rw [NewSize.within_eq, if_pos (by rw [if_neg h1]; omega)]
    exact a3 hp
  · intro cm h
    rw [NewSize.within_eq] at h
    split_ifs at h <;> exact h
  · rw [Internal.NewSize.within_eq_template]
    by_cases hm : (if shardCount < 1 then 256 else shardCount.toNat) ≤ maxLen
    · rw [if_pos hm, b1]
      exact ⟨Or.inl, fun h => h.elim id (fun h' => absurd hm (by omega))⟩
    · rw [if_neg hm]
      exact ⟨fun _ => Or.inr (by omega), fun _ => rfl⟩
  · intro h1 hm
    rw [Internal.NewSize.within_eq_template, if_pos (by rw [if_pos h1]; exact hm)]
    exact b2 h1
  · intro hp hm
    have h1 : ¬ shardCount < 1 := by have := hpow_pos hp; omega
    rw [Internal.NewSize.within_eq_template, if_pos (by rw [if_neg h1]; omega)]
    exact b3 hp
  · intro cm h
    rw [Internal.NewSize.within_eq_template] at h
    split_ifs at h <;> exact h

end Construction

/-! ## Update with the identity -/

section UpdateIdentity

variable {K V : Type}

theorem GoMap.index_insert_ne [DecidableEq K] [Inhabited V] (m : GoMap K V) (k k' : K) (v : V)
    (h : k' ≠ k) : GoMap.index (m.insert k v) k' = GoMap.index m k' := by
  simp only [GoMap.index, AList.lookup_insert_ne h]

theorem GoMap.commaOk_insert_ne [DecidableEq K] [Inhabited V] (m : GoMap K V) (k k' : K)
    (v : V) (h : k' ≠ k) : GoMap.commaOk (m.insert k v) k' = GoMap.commaOk m k' := by
  simp only [GoMap.commaOk, AList.lookup_insert_ne h]

theorem GoMap.length_insert_of_present [DecidableEq K] (m : GoMap K V) (k : K) (v w : V)
    (h : m.lookup k = some w) : (m.insert k v).entries.length = m.entries.length := by
  have hmem : k ∈ m.keys := by
    rw [← AList.mem_keys, ← AList.lookup_isSome, h]; rfl
  have h1 : (m.insert k v).keys.length = m.keys.length := by
    rw [AList.keys_insert, List.length_cons, List.length_erase_of_mem hmem]
    have : 0 < m.keys.length := List.length_pos_of_mem hmem
    omega
  simpa [AList.keys, List.keys] using h1

theorem GoMap.length_insert_of_absent [DecidableEq K] (m : GoMap K V) (k : K) (v : V)
    (h : m.lookup k = none) : (m.insert k v).entries.length = m.entries.length + 1 := by
  have hmem : k ∉ m := AList.lookup_eq_none.mp h
  rw [AList.insert_entries_of_neg hmem, List.length_cons]

theorem sum_map_set {α : Type} (f : α → Nat) (l : List α) (i : Nat) (a b : α)
    (h : l[i]? = some a) : ((l.set i b).map f).sum + f a = (l.map f).sum + f b := by
  induction l generalizing i with
  | nil => simp at h
  | cons x xs ih =>
    cases i with
    | zero =>
      simp only [List.getElem?_cons_zero, Option.some.injEq] at h
      subst h
      simp only [List.set_cons_zero, List.map_cons, List.sum_cons]
      omega
    | succ j =>
      simp only [List.getElem?_cons_succ] at h
      have := ih j h
      simp only [List.set_cons_succ, List.map_cons, List.sum_cons]
      omega

theorem CMap.Len_replace (cm : CMap K V) (i : Nat) (sh sh' : LMap K V)
    (h : cm.shards[i]? = some sh) :
    (CMap.mk (cm.shards.set i sh')).Len + sh.Len = cm.Len + sh'.Len := by
  rw [CMap.Len_eq_sum, CMap.Len_eq_sum]
  exact sum_map_set LMap.Len cm.shards i sh sh' h

/-- The shard found under any key `k'` after the shard of `k` was replaced. -/
theorem CMap.shard_after_replace (hasher : K → Nat) (cm : CMap K V) (k k' : K)
    (sh' : LMap K V) (hpos : 0 < cm.shards.length) :
    (CMap.mk (cm.shards.set (cm.shardIndex hasher k) sh')).shards[
        (CMap.mk (cm.shards.set (cm.shardIndex hasher k) sh')).shardIndex hasher k']?
      = if cm.shardIndex hasher k' = cm.shardIndex hasher k then some sh'
        else cm.shards[cm.shardIndex hasher k']? := by
  rw [CMap.shardIndex_set]
  show (cm.shards.set (cm.shardIndex hasher k) sh')[cm.shardIndex hasher k']? = _
  rw [List.getElem?_set]
  have hlt := cm.shardIndex_lt hasher k hpos
  by_cases hidx : cm.shardIndex hasher k' = cm.shardIndex hasher k
  · simp only [hidx, hlt, if_true]
  · have hidx' : ¬ cm.shardIndex hasher k = cm.shardIndex hasher k' := fun h => hidx h.symm
    simp only [hidx, hidx', if_false]

/-- C5 (amended): `Update(k, identity)` succeeds and leaves `Get(k')` unchanged
for every key `k'`, and `GetOK(k')` unchanged for every `k'` other than `k`.
When `k` was present, `GetOK(k')` is unchanged for every `k'` and `Len()` is
unchanged.  When `k` was absent, `k` is stored with the zero value: `GetOK(k)`
becomes `(nil, true)` and `Len()` grows by one. -/
theorem update_identity_spec [DecidableEq K] [Inhabited V] (hasher : K → Nat) (cm : CMap K V)
    (k : K) (hcm : Reachable hasher cm) :
    ∃ cm', cm.Update hasher k (fun old => old) = some cm' ∧
      (∀ k', cm'.Get hasher k' = cm.Get hasher k') ∧
      (∀ k', k' ≠ k → cm'.GetOK hasher k' = cm.GetOK hasher k') ∧
      (cm.Has hasher k = some true →
        (∀ k', cm'.GetOK hasher k' = cm.GetOK hasher k') ∧ cm'.Len = cm.Len) ∧
      (cm.Has hasher k = some false →
        cm'.GetOK hasher k = some (default, true) ∧ cm'.Len = cm.Len + 1) := by
  have hpos := hcm.length_pos
  obtain ⟨sh, hsh⟩ := cm.exists_shard hasher k hpos
  refine ⟨_, cm.Update_of_shard hasher k _ sh hsh, ?_, ?_, ?_, ?_⟩
  · intro k'
    simp only [CMap.Get]
    rw [cm.shard_after_replace hasher k k' _ hpos]
    by_cases hidx : cm.shardIndex hasher k' = cm.shardIndex hasher k
    · rw [if_pos hidx, hidx, hsh]
      simp only [LMap.Get, LMap.Update, Option.some.injEq]
      by_cases hk : k' = k
      · subst hk; exact GoMap.index_insert _ _ _
      · exact GoMap.index_insert_ne _ _ _ _ hk
    · rw [if_neg hidx]
  · intro k' hk
    simp only [CMap.GetOK]
    rw [cm.shard_after_replace hasher k k' _ hpos]
    by_cases hidx : cm.shardIndex hasher k' = cm.shardIndex hasher k
    · rw [if_pos hidx, hidx, hsh]
      simp only [LMap.GetOK, LMap.Update, Option.some.injEq]
      exact GoMap.commaOk_insert_ne _ _ _ _ hk
    · rw [if_neg hidx]
  · intro hhas
    rw [cm.Has_of_shard hasher k sh hsh] at hhas
    obtain ⟨w, hw⟩ : ∃ w, sh.m.lookup k = some w := by
      rw [← GoMap.commaOk_snd_true]; simpa [LMap.Has] using hhas
    constructor
    · intro k'
      simp only [CMap.GetOK]
      rw [cm.shard_after_replace hasher k k' _ hpos]
      by_cases hidx : cm.shardIndex hasher k' = cm.shardIndex hasher k
      · rw [if_pos hidx, hidx, hsh]
        simp only [LMap.GetOK, LMap.Update, Option.some.injEq]
        by_cases hk : k' = k
        · subst hk
          rw [GoMap.commaOk_insert]
          simp only [GoMap.index, GoMap.commaOk, hw]
        · exact GoMap.commaOk_insert_ne _ _ _ _ hk
      · rw [if_neg hidx]
    · have hlen := cm.Len_replace (cm.shardIndex hasher k) sh (sh.Update k (fun old => old)) hsh
      have : (sh.Update k (fun old => old)).Len = sh.Len := by
        simp only [LMap.Len, LMap.Update]
        exact GoMap.length_insert_of_present _ _ _ w hw
      omega
  · intro hhas
    rw [cm.Has_of_shard hasher k sh hsh] at hhas
    have habs : sh.m.lookup k = none := by
      rw [← GoMap.commaOk_snd_false]; simpa [LMap.Has] using hhas
    constructor
    · rw [CMap.GetOK_of_shard hasher _ k _ (cm.home_after_set hasher k _ hpos)]
      simp only [LMap.GetOK, LMap.Update, GoMap.commaOk_insert,
        GoMap.index_of_absent _ _ habs]
    · have hlen := cm.Len_replace (cm.shardIndex hasher k) sh (sh.Update k (fun old => old)) hsh
      have : (sh.Update k (fun old => old)).Len = sh.Len + 1 := by
        simp only [LMap.Len, LMap.Update]
        exact GoMap.length_insert_of_absent _ _ _ habs
      omega

end UpdateIdentity

/-! ## The home-shard invariant and the aggregate queries -/

section Aggregates

variable {K V : Type}

theorem HomeShard.replace {hasher : K → Nat} {cm : CMap K V}
    (h : HomeShard hasher cm) (k : K) (sh sh' : LMap K V)
    (hsh : cm.shards[cm.shardIndex hasher k]? = some sh)
    (hkeys : ∀ key ∈ sh'.m.keys, key = k ∨ key ∈ sh.m.keys) :
    HomeShard hasher { shards := cm.shards.set (cm.shardIndex hasher k) sh' } := by
  intro j shj hj key hkey
  rw [CMap.shardIndex_set]
  simp only [List.getElem?_set] at hj
  by_cases hij : cm.shardIndex hasher k = j
  · rw [if_pos hij] at hj
    split_ifs at hj with hlt
    · cases hj
      rcases hkeys key hkey with rfl | hold
      · exact hij
      · rw [← hij]
        exact h _ sh hsh key hold
  · rw [if_neg hij] at hj
    exact h j shj hj key hkey

theorem keys_insert_sub [DecidableEq K] (m : GoMap K V) (k : K) (v : V) :
    ∀ key ∈ (m.insert k v).keys, key = k ∨ key ∈ m.keys := by
  intro key hkey
  rw [← AList.mem_keys, AList.mem_insert] at hkey
  rcases hkey with h | h
  · exact Or.inl h
  · exact Or.inr (AList.mem_keys.mp h)

theorem keys_erase_sub [DecidableEq K] (m : GoMap K V) (k : K) :
    ∀ key ∈ (m.erase k).keys, key = k ∨ key ∈ m.keys := by
  intro key hkey
  rw [← AList.mem_keys, AList.mem_erase] at hkey
  exact Or.inr (AList.mem_keys.mp hkey.2)

theorem NewSize_homeShard [DecidableEq K] [Inhabited V] (hasher : K → Nat) (shardCount : Int)
    (cm : CMap K V) (h : NewSize shardCount = some cm) : HomeShard hasher cm := by
  have hempty : ∀ n : Int, HomeShard hasher (allocShards n : CMap K V) := by
    intro n j sh hj key hkey
    simp only [allocShards, List.getElem?_replicate] at hj
    split_ifs at hj
    cases hj
    simp [NewLMapSize] at hkey
  unfold NewSize at h
  split_ifs at h
  · cases h; exact hempty _
  · cases h; exact hempty _

theorem Reachable.homeShard [DecidableEq K] [Inhabited V] {hasher : K → Nat} {cm : CMap K V}
    (h : Reachable hasher cm) : HomeShard hasher cm := by
  induction h with
  | newSize n cm hn => exact NewSize_homeShard hasher n cm hn
  | set cm cm' key val hcm hop ih =>
    obtain ⟨sh, hsh⟩ := cm.exists_shard hasher key hcm.length_pos
    rw [cm.Set_of_shard hasher key val sh hsh] at hop
    cases hop
    exact ih.replace key sh _ hsh (keys_insert_sub _ _ _)
  | setIfNotExists cm cm' key val b hcm hop ih =>
    obtain ⟨sh, hsh⟩ := cm.exists_shard hasher key hcm.length_pos
    rw [cm.SetIfNotExists_of_shard hasher key val sh hsh] at hop
    cases hop
    refine ih.replace key sh _ hsh ?_
    unfold LMap.SetIfNotExists
    split_ifs
    · exact keys_insert_sub _ _ _
    · exact fun key hkey => Or.inr hkey
  | delete cm cm' key hcm hop ih =>
    obtain ⟨sh, hsh⟩ := cm.exists_shard hasher key hcm.length_pos
    rw [cm.Delete_of_shard hasher key sh hsh] at hop
    cases hop
    exact ih.replace key sh _ hsh (keys_erase_sub _ _)
  | deleteAndGet cm cm' key old hcm hop ih =>
    obtain ⟨sh, hsh⟩ := cm.exists_shard hasher key hcm.length_pos
    rw [cm.DeleteAndGet_of_shard hasher key sh hsh] at hop
    cases hop
    exact ih.replace key sh _ hsh (keys_erase_sub _ _)
  | swap cm cm' key val old hcm hop ih =>
    obtain ⟨sh, hsh⟩ := cm.exists_shard hasher key hcm.length_pos
    rw [cm.Swap_of_shard hasher key val sh hsh] at hop
    cases hop
    exact ih.replace key sh _ hsh (keys_insert_sub _ _ _)
  | update cm cm' key fn hcm hop ih =>
    obtain ⟨sh, hsh⟩ := cm.exists_shard hasher key hcm.length_pos
    rw [cm.Update_of_shard hasher key fn sh hsh] at hop
    cases hop
    exact ih.replace key sh _ hsh (keys_insert_sub _ _ _)

theorem foldl_keys_eq (l : List (LMap K V)) (acc : List K) :
    l.foldl (fun out sh => sh.Keys out) acc = acc ++ (l.map fun sh => sh.m.keys).flatten := by
  induction l generalizing acc with
  | nil => simp
  | cons x xs ih =>
    rw [List.foldl_cons, ih, LMap.Keys, List.map_cons, List.flatten_cons, List.append_assoc]

theorem CMap.Keys_eq_flatten (cm : CMap K V) :
    cm.Keys = (cm.shards.map fun sh => sh.m.keys).flatten := by
  unfold CMap.Keys
  rw [foldl_keys_eq, List.nil_append]

theorem CMap.Keys_length (cm : CMap K V) : cm.Keys.length = cm.Len := by
  rw [cm.Keys_eq_flatten, List.length_flatten, cm.Len_eq_sum, List.map_map]
  congr 1
  apply List.map_congr_left
  intro sh _
  simp [LMap.Len, AList.keys, List.keys]

theorem HomeShard.keys_nodup {hasher : K → Nat} {cm : CMap K V}
    (h : HomeShard hasher cm) : cm.Keys.Nodup := by
  rw [cm.Keys_eq_flatten, List.nodup_flatten]
  constructor
  · intro l hl
    obtain ⟨sh, _, rfl⟩ := List.mem_map.mp hl
    exact sh.m.keys_nodup
  · rw [List.pairwise_iff_getElem]
    intro i j hi hj hij
    simp only [List.getElem_map]
    simp only [List.length_map] at hi hj
    intro key hki hkj
    have e1 := h i cm.shards[i] (List.getElem?_eq_getElem hi) key hki
    have e2 := h j cm.shards[j] (List.getElem?_eq_getElem hj) key hkj
    omega

end Aggregates

/-! ## Traversals of the generic template -/

section TemplateTraversal

variable {K V E C σ : Type}

theorem Internal.LockedMap.ForEach.visit_traced_snap [DecidableEq K]
    (lm : C × σ → Internal.LockedMap K V) (fn : K → V → C × σ → Option E × (C × σ))
    (keys : List K) (w : C × (σ × List (K × V × Option E))) :
    (Internal.LockedMap.ForEach.visit (fun w' => lm (w'.1, w'.2.1)) (traced fn) keys w).1
        = (Internal.LockedMap.ForEach.visit lm fn keys (w.1, w.2.1)).1 ∧
    ((Internal.LockedMap.ForEach.visit (fun w' => lm (w'.1, w'.2.1)) (traced fn) keys w).2.1,
      (Internal.LockedMap.ForEach.visit (fun w' => lm (w'.1, w'.2.1)) (traced fn) keys w).2.2.1)
        = (Internal.LockedMap.ForEach.visit lm fn keys (w.1, w.2.1)).2 := by
  induction keys generalizing w with
  | nil => exact ⟨rfl, rfl⟩
  | cons key keys ih =>
    simp only [Internal.LockedMap.ForEach.visit]
    cases hlk : (lm (w.1, w.2.1)).m.lookup key with
    | none => exact ih w
    | some val =>
      simp only [traced]
      cases hr : (fn key val (w.1, w.2.1)).1 with
      | none => exact ih _
      | some err => exact ⟨rfl, rfl⟩

theorem Internal.LockedMap.ForEach.visit_stops_snap [DecidableEq K]
    (lm : C × (σ × List (K × V × Option E)) → Internal.LockedMap K V)
    (fn : K → V → C × σ → Option E × (C × σ))
    (keys : List K) (w : C × (σ × List (K × V × Option E)))
    (hclean : ∀ c ∈ w.2.2, c.2.2 = none) :
    ((Internal.LockedMap.ForEach.visit lm (traced fn) keys w).1 = none ∧
      ∀ c ∈ (Internal.LockedMap.ForEach.visit lm (traced fn) keys w).2.2.2, c.2.2 = none) ∨
    (∃ pre k v e,
      (Internal.LockedMap.ForEach.visit lm (traced fn) keys w).2.2.2 = pre ++ [(k, v, some e)] ∧
      (∀ c ∈ pre, c.2.2 = none) ∧
      (Internal.LockedMap.ForEach.visit lm (traced fn) keys w).1 = some e) := by
  induction keys generalizing w with
  | nil => exact Or.inl ⟨rfl, hclean⟩
  | cons key keys ih =>
    simp only [Internal.LockedMap.ForEach.visit]
    cases hlk : (lm w).m.lookup key with
    | none => exact ih w hclean
    | some val =>
      simp only [traced]
      cases hr : (fn key val (w.1, w.2.1)).1 with
      | none =>
        apply ih
        intro c hc
        rcases List.mem_append.mp hc with h | h
        · exact hclean c h
        · simp only [List.mem_singleton] at h
          subst h; rfl
      | some err =>
        exact Or.inr ⟨w.2.2, key, val, err, rfl, hclean, rfl⟩

theorem Internal.LockedMap.ForEachLocked.visit_traced_locked
    (fn : K → V → C × σ → Option E × (C × σ))
    (es : List (Sigma fun _ : K => V)) (w : C × (σ × List (K × V × Option E))) :
    (Internal.LockedMap.ForEachLocked.visit (traced fn) es w).1
        = (Internal.LockedMap.ForEachLocked.visit fn es (w.1, w.2.1)).1 ∧
    ((Internal.LockedMap.ForEachLocked.visit (traced fn) es w).2.1,
      (Internal.LockedMap.ForEachLocked.visit (traced fn) es w).2.2.1)
        = (Internal.LockedMap.ForEachLocked.visit fn es (w.1, w.2.1)).2 := by
  induction es generalizing w with
  | nil => exact ⟨rfl, rfl⟩
  | cons e es ih =>
    simp only [Internal.LockedMap.ForEachLocked.visit, traced]
    cases hr : (fn e.1 e.2 (w.1, w.2.1)).1 with
    | none => exact ih _
    | some err => exact ⟨rfl, rfl⟩

theorem Internal.LockedMap.ForEachLocked.visit_stops_locked
    (fn : K → V → C × σ → Option E × (C × σ))
    (es : List (Sigma fun _ : K => V)) (w : C × (σ × List (K × V × Option E)))
    (hclean : ∀ c ∈ w.2.2, c.2.2 = none) :
    ((Internal.LockedMap.ForEachLocked.visit (traced fn) es w).1 = none ∧
      ∀ c ∈ (Internal.LockedMap.ForEachLocked.visit (traced fn) es w).2.2.2, c.2.2 = none) ∨
    (∃ pre k v e,
      (Internal.LockedMap.ForEachLocked.visit (traced fn) es w).2.2.2 = pre ++ [(k, v, some e)] ∧
      (∀ c ∈ pre, c.2.2 = none) ∧
      (Internal.LockedMap.ForEachLocked.visit (traced fn) es w).1 = some e) := by
  induction es generalizing w with
  | nil => exact Or.inl ⟨rfl, hclean⟩
  | cons e es ih =>
    simp only [Internal.LockedMap.ForEachLocked.visit, traced]
    cases hr : (fn e.1 e.2 (w.1, w.2.1)).1 with
    | none =>
      apply ih
      intro c hc
      rcases List.mem_append.mp hc with h | h
      · exact hclean c h
      · simp only [List.mem_singleton] at h
        subst h; rfl
    | some err =>
      exact Or.inr ⟨w.2.2, e.1, e.2, err, rfl, hclean, rfl⟩

theorem Internal.CMap.ForEach.loop_traced_snap [DecidableEq K] [DecidableEq E] (Break : E)
    (fn : K → V → Internal.CMap K V × σ → Option E × (Internal.CMap K V × σ))
    (idxs : List Nat) (w : Internal.CMap K V × (σ × List (K × V × Option E))) :
    (Internal.CMap.ForEach.loop Break (traced fn) idxs w).1
        = (Internal.CMap.ForEach.loop Break fn idxs (w.1, w.2.1)).1 ∧
    ((Internal.CMap.ForEach.loop Break (traced fn) idxs w).2.1,
      (Internal.CMap.ForEach.loop Break (traced fn) idxs w).2.2.1)
        = (Internal.CMap.ForEach.loop Break fn idxs (w.1, w.2.1)).2 := by
  induction idxs generalizing w with
  | nil => exact ⟨rfl, rfl⟩
  | cons i rest ih =>
    have hsim := Internal.LockedMap.ForEach.visit_traced_snap
      (fun w : Internal.CMap K V × σ => w.1.deref i) fn
      (([] : List K).take 0 ++ (w.1.deref i).m.keys) w
    simp only [Internal.CMap.ForEach.loop, Internal.LockedMap.ForEach]
    simp only [] at hsim
    obtain ⟨h1, h2⟩ := hsim
    rw [h1]
    cases hr : (Internal.LockedMap.ForEach.visit (fun w : Internal.CMap K V × σ => w.1.deref i)
      fn (([] : List K).take 0 ++ (w.1.deref i).m.keys) (w.1, w.2.1)).1 with
    | none =>
      simp only []
      rw [← h2]
      exact ih _
    | some err =>
      simp only []
      split_ifs
      · exact ⟨rfl, h2⟩
      · exact ⟨rfl, h2⟩

theorem Internal.CMap.ForEach.loop_stops_snap [DecidableEq K] [DecidableEq E] (Break : E)
    (fn : K → V → Internal.CMap K V × σ → Option E × (Internal.CMap K V × σ))
    (idxs : List Nat) (w : Internal.CMap K V × (σ × List (K × V × Option E)))
    (hclean : ∀ c ∈ w.2.2, c.2.2 = none) :
    ((Internal.CMap.ForEach.loop Break (traced fn) idxs w).1 = none ∧
      ∀ c ∈ (Internal.CMap.ForEach.loop Break (traced fn) idxs w).2.2.2, c.2.2 = none) ∨
    (∃ pre k v e,
      (Internal.CMap.ForEach.loop Break (traced fn) idxs w).2.2.2 = pre ++ [(k, v, some e)] ∧
      (∀ c ∈ pre, c.2.2 = none) ∧
      (Internal.CMap.ForEach.loop Break (traced fn) idxs w).1
        = if e = Break then none else some e) := by
  induction idxs generalizing w with
  | nil => exact Or.inl ⟨rfl, hclean⟩
  | cons i rest ih =>
    have hst := Internal.LockedMap.ForEach.visit_stops_snap
      (fun w : Internal.CMap K V × (σ × List (K × V × Option E)) => w.1.deref i) fn
      (([] : List K).take 0 ++ (w.1.deref i).m.keys) w hclean
    simp only [Internal.CMap.ForEach.loop, Internal.LockedMap.ForEach]
    rcases hst with ⟨h1, h2⟩ | ⟨pre, k, v, e, hlog, hpre, hres⟩
    · rw [h1]
      exact ih _ h2
    · rw [hres]
      simp only []
      split_ifs with hb
      · exact Or.inr ⟨pre, k, v, e, hlog, hpre, by rw [if_pos hb]⟩
      · exact Or.inr ⟨pre, k, v, e, hlog, hpre, by rw [if_neg hb]⟩

theorem Internal.CMap.ForEachLocked.loop_traced_locked [DecidableEq K] [DecidableEq E] (Break : E)
    (fn : K → V → Internal.CMap K V × σ → Option E × (Internal.CMap K V × σ))
    (idxs : List Nat) (w : Internal.CMap K V × (σ × List (K × V × Option E))) :
    (Internal.CMap.ForEachLocked.loop Break (traced fn) idxs w).1
        = (Internal.CMap.ForEachLocked.loop Break fn idxs (w.1, w.2.1)).1 ∧
    ((Internal.CMap.ForEachLocked.loop Break (traced fn) idxs w).2.1,
      (Internal.CMap.ForEachLocked.loop Break (traced fn) idxs w).2.2.1)
        = (Internal.CMap.ForEachLocked.loop Break fn idxs (w.1, w.2.1)).2 := by
  induction idxs generalizing w with
  | nil => exact ⟨rfl, rfl⟩
  | cons i rest ih =>
    obtain ⟨h1, h2⟩ := Internal.LockedMap.ForEachLocked.visit_traced_locked fn
      (w.1.deref i).m.entries w
    simp only [Internal.CMap.ForEachLocked.loop, Internal.LockedMap.ForEachLocked]
    rw [h1]
    cases hr : (Internal.LockedMap.ForEachLocked.visit fn (w.1.deref i).m.entries
      (w.1, w.2.1)).1 with
    | none =>
      simp only []
      rw [← h2]
      exact ih _
    | some err =>
      simp only []
      split_ifs
      · exact ⟨rfl, h2⟩
      · exact ⟨rfl, h2⟩

theorem Internal.CMap.ForEachLocked.loop_stops_locked [DecidableEq K] [DecidableEq E] (Break : E)
    (fn : K → V → Internal.CMap K V × σ → Option E × (Internal.CMap K V × σ))
    (idxs : List Nat) (w : Internal.CMap K V × (σ × List (K × V × Option E)))
    (hclean : ∀ c ∈ w.2.2, c.2.2 = none) :
    ((Internal.CMap.ForEachLocked.loop Break (traced fn) idxs w).1 = none ∧
      ∀ c ∈ (Internal.CMap.ForEachLocked.loop Break (traced fn) idxs w).2.2.2, c.2.2 = none) ∨
    (∃ pre k v e,
      (Internal.CMap.ForEachLocked.loop Break (traced fn) idxs w).2.2.2
        = pre ++ [(k, v, some e)] ∧
      (∀ c ∈ pre, c.2.2 = none) ∧
      (Internal.CMap.ForEachLocked.loop Break (traced fn) idxs w).1
        = if e = Break then none else some e) := by
  induction idxs generalizing w with
  | nil => exact Or.inl ⟨rfl, hclean⟩
  | cons i rest ih =>
    have hst := Internal.LockedMap.ForEachLocked.visit_stops_locked fn (w.1.deref i).m.entries w hclean
    simp only [Internal.CMap.ForEachLocked.loop, Internal.LockedMap.ForEachLocked]
    rcases hst with ⟨h1, h2⟩ | ⟨pre, k, v, e, hlog, hpre, hres⟩
    · rw [h1]
      exact ih _ h2
    · rw [hres]
      simp only []
      split_ifs with hb
      · exact Or.inr ⟨pre, k, v, e, hlog, hpre, by rw [if_pos hb]⟩
      · exact Or.inr ⟨pre, k, v, e, hlog, hpre, by rw [if_neg hb]⟩

/-! ### Which pairs the traversals of the template reach -/

theorem Internal.LockedMap.ForEachLocked.visit_prefix_locked
    (fn : K → V → C × σ → Option E × (C × σ)) (hfix : ∀ k v w, (fn k v w).2.1 = w.1)
    (es : List (Sigma fun _ : K => V)) (w : C × (σ × List (K × V × Option E))) :
    (Internal.LockedMap.ForEachLocked.visit (traced fn) es w).2.1 = w.1 ∧
    ∃ pre : List (K × V × Option E),
      (Internal.LockedMap.ForEachLocked.visit (traced fn) es w).2.2.2 = w.2.2 ++ pre ∧
      pre.map (fun c => (⟨c.1, c.2.1⟩ : Sigma fun _ : K => V)) <+: es ∧
      ((Internal.LockedMap.ForEachLocked.visit (traced fn) es w).1 = none →
        pre.map (fun c => (⟨c.1, c.2.1⟩ : Sigma fun _ : K => V)) = es) ∧
      ((∀ c ∈ pre, c.2.2 = none) →
        (Internal.LockedMap.ForEachLocked.visit (traced fn) es w).1 = none) := by
  induction es generalizing w with
  | nil =>
    exact ⟨rfl, [], by simp [Internal.LockedMap.ForEachLocked.visit], List.prefix_refl _,
      fun _ => rfl, fun _ => rfl⟩
  | cons e es ih =>
    simp only [Internal.LockedMap.ForEachLocked.visit, traced]
    cases hr : (fn e.1 e.2 (w.1, w.2.1)).1 with
    | some err =>
      refine ⟨hfix _ _ _, [(e.1, e.2, some err)], rfl, ?_, ?_, ?_⟩
      · exact ⟨es, rfl⟩
      · intro h; cases h
      · intro h
        have := h (e.1, e.2, some err) (List.mem_singleton.mpr rfl)
        cases this
    | none =>
      obtain ⟨h1, pre, h2, h3, h4, h5⟩ := ih ((fn e.1 e.2 (w.1, w.2.1)).2.1,
        ((fn e.1 e.2 (w.1, w.2.1)).2.2, w.2.2 ++ [(e.1, e.2, none)]))
      refine ⟨by rw [h1]; exact hfix _ _ _, (e.1, e.2, none) :: pre, ?_, ?_, ?_, ?_⟩
      · rw [h2]
        simp only [List.append_assoc, List.singleton_append]
      · obtain ⟨t, ht⟩ := h3
        exact ⟨t, by rw [← ht]; rfl⟩
      · intro h
        rw [List.map_cons, h4 h]
      · intro h
        exact h5 fun c hc => h c (List.mem_cons_of_mem _ hc)

theorem Internal.LockedMap.ForEach.visit_prefix_snap [DecidableEq K]
    (g : C → Internal.LockedMap K V)
    (fn : K → V → C × σ → Option E × (C × σ)) (hfix : ∀ k v w, (fn k v w).2.1 = w.1)
    (es : List (Sigma fun _ : K => V)) (w : C × (σ × List (K × V × Option E)))
    (hes : ∀ e ∈ es, e ∈ (g w.1).m.entries) :
    (Internal.LockedMap.ForEach.visit
      (fun w' : C × (σ × List (K × V × Option E)) => g w'.1) (traced fn)
      (es.map Sigma.fst) w).2.1 = w.1 ∧
    ∃ pre : List (K × V × Option E),
      (Internal.LockedMap.ForEach.visit
        (fun w' : C × (σ × List (K × V × Option E)) => g w'.1) (traced fn)
        (es.map Sigma.fst) w).2.2.2 = w.2.2 ++ pre ∧
      pre.map (fun c => (⟨c.1, c.2.1⟩ : Sigma fun _ : K => V)) <+: es ∧
      ((Internal.LockedMap.ForEach.visit
        (fun w' : C × (σ × List (K × V × Option E)) => g w'.1) (traced fn)
        (es.map Sigma.fst) w).1 = none →
        pre.map (fun c => (⟨c.1, c.2.1⟩ : Sigma fun _ : K => V)) = es) ∧
      ((∀ c ∈ pre, c.2.2 = none) →
        (Internal.LockedMap.ForEach.visit
          (fun w' : C × (σ × List (K × V × Option E)) => g w'.1) (traced fn)
          (es.map Sigma.fst) w).1 = none) := by
  induction es generalizing w with
  | nil =>
    exact ⟨rfl, [], by simp [Internal.LockedMap.ForEach.visit], List.prefix_refl _,
      fun _ => rfl, fun _ => rfl⟩
  | cons e es ih =>
    have hlk : (g w.1).m.lookup e.1 = some e.2 := by
      have hmem : e ∈ (g w.1).m.entries := hes e (List.mem_cons_self _ _)
      have : e.2 ∈ (g w.1).m.lookup e.1 := AList.mem_lookup_iff.mpr (by simpa using hmem)
      exact this
    simp only [List.map_cons, Internal.LockedMap.ForEach.visit, hlk, traced]
    cases hr : (fn e.1 e.2 (w.1, w.2.1)).1 with
    | some err =>
      refine ⟨hfix _ _ _, [(e.1, e.2, some err)], rfl, ?_, ?_, ?_⟩
      · exact ⟨es, rfl⟩
      · intro h; cases h
      · intro h
        have := h (e.1, e.2, some err) (List.mem_singleton.mpr rfl)
        cases this
    | none =>
      have hes' : ∀ e' ∈ es, e' ∈ (g ((fn e.1 e.2 (w.1, w.2.1)).2.1)).m.entries := by
        intro e' he'
        rw [hfix]
        exact hes e' (List.mem_cons_of_mem _ he')
      obtain ⟨h1, pre, h2, h3, h4, h5⟩ := ih ((fn e.1 e.2 (w.1, w.2.1)).2.1,
        ((fn e.1 e.2 (w.1, w.2.1)).2.2, w.2.2 ++ [(e.1, e.2, none)])) hes'
      refine ⟨by rw [h1]; exact hfix _ _ _, (e.1, e.2, none) :: pre, ?_, ?_, ?_, ?_⟩
      · rw [h2]
        simp only [List.append_assoc, List.singleton_append]
      · obtain ⟨t, ht⟩ := h3
        exact ⟨t, by rw [← ht]; rfl⟩
      · intro h
        rw [List.map_cons, h4 h]
      · intro h
        exact h5 fun c hc => h c (List.mem_cons_of_mem _ hc)

theorem Internal.CMap.ForEachLocked.loop_prefix_locked [DecidableEq K] [DecidableEq E]
    (Break : E)
    (fn : K → V → Internal.CMap K V × σ → Option E × (Internal.CMap K V × σ))
    (hfix : ∀ k v w, (fn k v w).2.1 = w.1)
    (idxs : List Nat) (w : Internal.CMap K V × (σ × List (K × V × Option E))) :
    (Internal.CMap.ForEachLocked.loop Break (traced fn) idxs w).2.1 = w.1 ∧
    ∃ pre : List (K × V × Option E),
      (Internal.CMap.ForEachLocked.loop Break (traced fn) idxs w).2.2.2 = w.2.2 ++ pre ∧
      pre.map (fun c => (⟨c.1, c.2.1⟩ : Sigma fun _ : K => V))
        <+: (idxs.map fun i => (w.1.deref i).m.entries).flatten ∧
      ((∀ c ∈ pre, c.2.2 = none) →
        pre.map (fun c => (⟨c.1, c.2.1⟩ : Sigma fun _ : K => V))
          = (idxs.map fun i => (w.1.deref i).m.entries).flatten) := by
  induction idxs generalizing w with
  | nil =>
    exact ⟨rfl, [], by simp [Internal.CMap.ForEachLocked.loop], List.prefix_refl _,
      fun _ => rfl⟩
  | cons i rest ih =>
    obtain ⟨h1, pre, h2, h3, h4, h5⟩ :=
      Internal.LockedMap.ForEachLocked.visit_prefix_locked fn hfix (w.1.deref i).m.entries w
    simp only [Internal.CMap.ForEachLocked.loop, Internal.LockedMap.ForEachLocked,
      List.map_cons, List.flatten_cons]
    cases hr : (Internal.LockedMap.ForEachLocked.visit (traced fn) (w.1.deref i).m.entries
      w).1 with
    | some err =>
      have hpre : ¬ ∀ c ∈ pre, c.2.2 = none := fun h => by
        rw [h5 h] at hr; cases hr
      have hres : ∀ b : Option E,
          ((b, (Internal.LockedMap.ForEachLocked.visit (traced fn) (w.1.deref i).m.entries
            w).2) : Option E × _).2.1 = w.1 ∧
          ∃ pre' : List (K × V × Option E),
            ((b, (Internal.LockedMap.ForEachLocked.visit (traced fn)
              (w.1.deref i).m.entries w).2) : Option E × _).2.2.2 = w.2.2 ++ pre' ∧
            pre'.map (fun c => (⟨c.1, c.2.1⟩ : Sigma fun _ : K => V))
              <+: (w.1.deref i).m.entries
                ++ (rest.map fun i => (w.1.deref i).m.entries).flatten ∧
            ((∀ c ∈ pre', c.2.2 = none) →
              pre'.map (fun c => (⟨c.1, c.2.1⟩ : Sigma fun _ : K => V))
                = (w.1.deref i).m.entries
                  ++ (rest.map fun i => (w.1.deref i).m.entries).flatten) :=
        fun _ => ⟨h1, pre, h2, h3.trans (List.prefix_append _ _), fun h => absurd h hpre⟩
      simp only []
      split_ifs
      · exact hres none
      · exact hres (some err)
    | none =>
      simp only []
      have hfull := h4 hr
      obtain ⟨g1, pre2, g2, g3, g4⟩ := ih (Internal.LockedMap.ForEachLocked.visit (traced fn)
        (w.1.deref i).m.entries w).2
      rw [h1] at g1 g3 g4
      refine ⟨g1, pre ++ pre2, ?_, ?_, ?_⟩
      · rw [g2, h2, List.append_assoc]
      · rw [List.map_append, hfull]
        exact (List.prefix_append_right_inj _).mpr g3
      · intro h
        rw [List.map_append, hfull,
          g4 fun c hc => h c (List.mem_append_right _ hc)]

theorem Internal.CMap.ForEach.loop_prefix_snap [DecidableEq K] [DecidableEq E]
    (Break : E)
    (fn : K → V → Internal.CMap K V × σ → Option E × (Internal.CMap K V × σ))
    (hfix : ∀ k v w, (fn k v w).2.1 = w.1)
    (idxs : List Nat) (w : Internal.CMap K V × (σ × List (K × V × Option E))) :
    (Internal.CMap.ForEach.loop Break (traced fn) idxs w).2.1 = w.1 ∧
    ∃ pre : List (K × V × Option E),
      (Internal.CMap.ForEach.loop Break (traced fn) idxs w).2.2.2 = w.2.2 ++ pre ∧
      pre.map (fun c => (⟨c.1, c.2.1⟩ : Sigma fun _ : K => V))
        <+: (idxs.map fun i => (w.1.deref i).m.entries).flatten ∧
      ((∀ c ∈ pre, c.2.2 = none) →
        pre.map (fun c => (⟨c.1, c.2.1⟩ : Sigma fun _ : K => V))
          = (idxs.map fun i => (w.1.deref i).m.entries).flatten) := by
  induction idxs generalizing w with
  | nil =>
    exact ⟨rfl, [], by simp [Internal.CMap.ForEach.loop], List.prefix_refl _,
      fun _ => rfl⟩
  | cons i rest ih =>
    obtain ⟨h1, pre, h2, h3, h4, h5⟩ :=
      Internal.LockedMap.ForEach.visit_prefix_snap (fun c : Internal.CMap K V => c.deref i)
        fn hfix (w.1.deref i).m.entries w (fun e he => he)
    have hkeys : ([] : List K).take 0 ++ (w.1.deref i).m.keys
        = (w.1.deref i).m.entries.map Sigma.fst := rfl
    simp only [Internal.CMap.ForEach.loop, Internal.LockedMap.ForEach,
      List.map_cons, List.flatten_cons]
    rw [hkeys]
    cases hr : (Internal.LockedMap.ForEach.visit
      (fun w' : Internal.CMap K V × (σ × List (K × V × Option E)) => w'.1.deref i)
      (traced fn) ((w.1.deref i).m.entries.map Sigma.fst) w).1 with
    | some err =>
      have hpre : ¬ ∀ c ∈ pre, c.2.2 = none := fun h => by
        rw [h5 h] at hr; cases hr
      have hres : ∀ b : Option E,
          ((b, (Internal.LockedMap.ForEach.visit
            (fun w' : Internal.CMap K V × (σ × List (K × V × Option E)) => w'.1.deref i)
            (traced fn) ((w.1.deref i).m.entries.map Sigma.fst) w).2) : Option E × _).2.1
              = w.1 ∧
          ∃ pre' : List (K × V × Option E),
            ((b, (Internal.LockedMap.ForEach.visit
              (fun w' : Internal.CMap K V × (σ × List (K × V × Option E)) => w'.1.deref i)
              (traced fn) ((w.1.deref i).m.entries.map Sigma.fst) w).2)
                : Option E × _).2.2.2 = w.2.2 ++ pre' ∧
            pre'.map (fun c => (⟨c.1, c.2.1⟩ : Sigma fun _ : K => V))
              <+: (w.1.deref i).m.entries
                ++ (rest.map fun i => (w.1.deref i).m.entries).flatten ∧
            ((∀ c ∈ pre', c.2.2 = none) →
              pre'.map (fun c => (⟨c.1, c.2.1⟩ : Sigma fun _ : K => V))
                = (w.1.deref i).m.entries
                  ++ (rest.map fun i => (w.1.deref i).m.entries).flatten) :=
        fun _ => ⟨h1, pre, h2, h3.trans (List.prefix_append _ _), fun h => absurd h hpre⟩
      simp only []
      split_ifs
      · exact hres none
      · exact hres (some err)
    | none =>
      simp only []
      have hfull := h4 hr
      obtain ⟨g1, pre2, g2, g3, g4⟩ := ih (Internal.LockedMap.ForEach.visit
        (fun w' : Internal.CMap K V × (σ × List (K × V × Option E)) => w'.1.deref i)
        (traced fn) ((w.1.deref i).m.entries.map Sigma.fst) w).2
      rw [h1] at g1 g3 g4
      refine ⟨g1, pre ++ pre2, ?_, ?_, ?_⟩
      · rw [g2, h2, List.append_assoc]
      · rw [List.map_append, hfull]
        exact (List.prefix_append_right_inj _).mpr g3
      · intro h
        rw [List.map_append, hfull,
          g4 fun c hc => h c (List.mem_append_right _ hc)]

theorem Internal.CMap.flatten_deref_range_template (cm : Internal.CMap K V) {β : Type}
    (f : Internal.LockedMap K V → List β) :
    ((List.range cm.shards.length).map fun i => f (cm.deref i)).flatten
      = (cm.shards.map f).flatten := by
  have hmm : (List.range cm.shards.length).map (fun i => cm.deref i) = cm.shards := by
    apply List.ext_getElem
    · simp
    · intro i h1 h2
      simp only [List.getElem_map, List.getElem_range, Internal.CMap.deref]
      exact List.getD_eq_getElem _ _ h2
  have hcomp : (List.range cm.shards.length).map (fun i => f (cm.deref i))
      = ((List.range cm.shards.length).map (fun i => cm.deref i)).map f := by
    rw [List.map_map]; rfl
  rw [hcomp, hmm]

theorem Internal.LockedMap.ForEachLocked.visit_found_locked
    (fn : K → V → C × σ → Option E × (C × σ)) (f : K → V → Option E)
    (hfix : ∀ k v w, (fn k v w).2.1 = w.1) (hdet : ∀ k v w, (fn k v w).1 = f k v)
    (es : List (Sigma fun _ : K => V)) (w : C × σ) :
    (Internal.LockedMap.ForEachLocked.visit fn es w).1 = es.findSome? (fun p => f p.1 p.2) ∧
    (Internal.LockedMap.ForEachLocked.visit fn es w).2.1 = w.1 := by
  induction es generalizing w with
  | nil => exact ⟨rfl, rfl⟩
  | cons e es ih =>
    simp only [Internal.LockedMap.ForEachLocked.visit, List.findSome?_cons, hdet]
    cases hr : f e.1 e.2 with
    | some err => exact ⟨rfl, hfix _ _ _⟩
    | none =>
      obtain ⟨h1, h2⟩ := ih (fn e.1 e.2 w).2
      exact ⟨h1, by rw [h2]; exact hfix _ _ _⟩

theorem Internal.LockedMap.ForEach.visit_found_snap [DecidableEq K]
    (g : C → Internal.LockedMap K V)
    (fn : K → V → C × σ → Option E × (C × σ)) (f : K → V → Option E)
    (hfix : ∀ k v w, (fn k v w).2.1 = w.1) (hdet : ∀ k v w, (fn k v w).1 = f k v)
    (es : List (Sigma fun _ : K => V)) (w : C × σ)
    (hes : ∀ e ∈ es, e ∈ (g w.1).m.entries) :
    (Internal.LockedMap.ForEach.visit (fun w' : C × σ => g w'.1) fn (es.map Sigma.fst) w).1
      = es.findSome? (fun p => f p.1 p.2) ∧
    (Internal.LockedMap.ForEach.visit (fun w' : C × σ => g w'.1) fn (es.map Sigma.fst) w).2.1
      = w.1 := by
  induction es generalizing w with
  | nil => exact ⟨rfl, rfl⟩
  | cons e es ih =>
    have hlk : (g w.1).m.lookup e.1 = some e.2 := by
      have hmem : e ∈ (g w.1).m.entries := hes e (List.mem_cons_self _ _)
      have : e.2 ∈ (g w.1).m.lookup e.1 := AList.mem_lookup_iff.mpr (by simpa using hmem)
      exact this
    simp only [List.map_cons, Internal.LockedMap.ForEach.visit, hlk, List.findSome?_cons, hdet]
    cases hr : f e.1 e.2 with
    | some err => exact ⟨rfl, hfix _ _ _⟩
    | none =>
      have hes' : ∀ e' ∈ es, e' ∈ (g (fn e.1 e.2 w).2.1).m.entries := by
        intro e' he'
        rw [hfix]
        exact hes e' (List.mem_cons_of_mem _ he')
      obtain ⟨h1, h2⟩ := ih (fn e.1 e.2 w).2 hes'
      exact ⟨h1, by rw [h2]; exact hfix _ _ _⟩

theorem findSome?_append_pairs {α β : Type} (f : α → Option β) (l₁ l₂ : List α) :
    (l₁ ++ l₂).findSome? f
      = match l₁.findSome? f with
        | some b => some b
        | none => l₂.findSome? f := by
  induction l₁ with
  | nil => rfl
  | cons a l ih =>
    simp only [List.cons_append, List.findSome?_cons]
    cases f a with
    | some b => rfl
    | none => exact ih

theorem Internal.CMap.ForEachLocked.loop_found_locked [DecidableEq K] [DecidableEq E]
    (Break : E)
    (fn : K → V → Internal.CMap K V × σ → Option E × (Internal.CMap K V × σ))
    (f : K → V → Option E)
    (hfix : ∀ k v w, (fn k v w).2.1 = w.1) (hdet : ∀ k v w, (fn k v w).1 = f k v)
    (idxs : List Nat) (w : Internal.CMap K V × σ) :
    (Internal.CMap.ForEachLocked.loop Break fn idxs w).1
      = ((idxs.map fun i => (w.1.deref i).m.entries).flatten.findSome?
          (fun p => f p.1 p.2)).bind (fun e => if e = Break then none else some e) := by
  induction idxs generalizing w with
  | nil => rfl
  | cons i rest ih =>
    obtain ⟨h1, h2⟩ := Internal.LockedMap.ForEachLocked.visit_found_locked fn f hfix hdet
      (w.1.deref i).m.entries w
    simp only [Internal.CMap.ForEachLocked.loop, Internal.LockedMap.ForEachLocked,
      List.map_cons, List.flatten_cons, findSome?_append_pairs]
    rw [h1]
    cases hr : (w.1.deref i).m.entries.findSome? (fun p => f p.1 p.2) with
    | some err =>
      simp only [Option.bind]
      split_ifs <;> rfl
    | none =>
      simp only []
      rw [ih, h2]

theorem Internal.CMap.ForEach.loop_found_snap [DecidableEq K] [DecidableEq E]
    (Break : E)
    (fn : K → V → Internal.CMap K V × σ → Option E × (Internal.CMap K V × σ))
    (f : K → V → Option E)
    (hfix : ∀ k v w, (fn k v w).2.1 = w.1) (hdet : ∀ k v w, (fn k v w).1 = f k v)
    (idxs : List Nat) (w : Internal.CMap K V × σ) :
    (Internal.CMap.ForEach.loop Break fn idxs w).1
      = ((idxs.map fun i => (w.1.deref i).m.entries).flatten.findSome?
          (fun p => f p.1 p.2)).bind (fun e => if e = Break then none else some e) := by
  induction idxs generalizing w with
  | nil => rfl
  | cons i rest ih =>
    obtain ⟨h1, h2⟩ := Internal.LockedMap.ForEach.visit_found_snap
      (fun c : Internal.CMap K V => c.deref i) fn f hfix hdet (w.1.deref i).m.entries w
      (fun e he => he)
    have hkeys : ([] : List K).take 0 ++ (w.1.deref i).m.keys
        = (w.1.deref i).m.entries.map Sigma.fst := rfl
    simp only [Internal.CMap.ForEach.loop, Internal.LockedMap.ForEach,
      List.map_cons, List.flatten_cons, findSome?_append_pairs]
    rw [hkeys, h1]
    cases hr : (w.1.deref i).m.entries.findSome? (fun p => f p.1 p.2) with
    | some err =>
      simp only [Option.bind]
      split_ifs <;> rfl
    | none =>
      simp only []
      rw [ih, h2]

/-- C9: in the error-returning variant, `CMap.ForEach(fn)` returns nil when no
invocation of `fn` returned an error; otherwise the invocations end with the
first one that returned a non-nil value `e`, and the result is nil when `e` is
`Break` and `e` itself otherwise.  Once a shard's traversal has returned a
non-nil value the shards after it play no part in the outcome.  When `fn` leaves
the map unchanged, the pairs `fn` is invoked on are the stored pairs, shard by
shard, from the first one on: all of them when no invocation returned an error.
When moreover the value `fn` returns is a function `f` of the pair alone, the
result is decided by the first stored pair on which `f` is not nil: nil when
there is none or `f` gives `Break` there, the error `f` gives there otherwise.
The same holds for `CMap.ForEachLocked`. -/
theorem forEach_error_spec [DecidableEq K] [DecidableEq E] (Break : E)
    (cm : Internal.CMap K V)
    (fn : K → V → Internal.CMap K V × σ → Option E × (Internal.CMap K V × σ)) (s : σ) :
    ((((cm.ForEach Break fn s).1 = none ∧
          ∀ c ∈ Internal.CMap.ForEach.calls Break cm fn s, c.2.2 = none) ∨
        (∃ pre k v e,
          Internal.CMap.ForEach.calls Break cm fn s = pre ++ [(k, v, some e)] ∧
          (∀ c ∈ pre, c.2.2 = none) ∧
          (cm.ForEach Break fn s).1 = if e = Break then none else some e)) ∧
      (∀ (i : Nat) (rest : List Nat) (w : Internal.CMap K V × σ),
        (Internal.LockedMap.ForEach (fun w => w.1.deref i) [] fn w).1 ≠ none →
        Internal.CMap.ForEach.loop Break fn (i :: rest) w
          = Internal.CMap.ForEach.loop Break fn [i] w) ∧
      ((∀ k v w, (fn k v w).2.1 = w.1) →
        (Internal.CMap.ForEach.calls Break cm fn s).map
            (fun c => (⟨c.1, c.2.1⟩ : Sigma fun _ : K => V))
          <+: (cm.shards.map fun sh => sh.m.entries).flatten ∧
        ((∀ c ∈ Internal.CMap.ForEach.calls Break cm fn s, c.2.2 = none) →
          (Internal.CMap.ForEach.calls Break cm fn s).map
              (fun c => (⟨c.1, c.2.1⟩ : Sigma fun _ : K => V))
            = (cm.shards.map fun sh => sh.m.entries).flatten)) ∧
      (∀ f : K → V → Option E,
        (∀ k v w, (fn k v w).2.1 = w.1) → (∀ k v w, (fn k v w).1 = f k v) →
        (cm.ForEach Break fn s).1
          = ((cm.shards.map fun sh => sh.m.entries).flatten.findSome?
              (fun p => f p.1 p.2)).bind (fun e => if e = Break then none else some e))) ∧
    ((((cm.ForEachLocked Break fn s).1 = none ∧
          ∀ c ∈ Internal.CMap.ForEachLocked.calls Break cm fn s, c.2.2 = none) ∨
        (∃ pre k v e,
          Internal.CMap.ForEachLocked.calls Break cm fn s = pre ++ [(k, v, some e)] ∧
          (∀ c ∈ pre, c.2.2 = none) ∧
          (cm.ForEachLocked Break fn s).1 = if e = Break then none else some e)) ∧
      (∀ (i : Nat) (rest : List Nat) (w : Internal.CMap K V × σ),
        (Internal.LockedMap.ForEachLocked (fun w => w.1.deref i) fn w).1 ≠ none →
        Internal.CMap.ForEachLocked.loop Break fn (i :: rest) w
          = Internal.CMap.ForEachLocked.loop Break fn [i] w) ∧
      ((∀ k v w, (fn k v w).2.1 = w.1) →
        (Internal.CMap.ForEachLocked.calls Break cm fn s).map
            (fun c => (⟨c.1, c.2.1⟩ : Sigma fun _ : K => V))
          <+: (cm.shards.map fun sh => sh.m.entries).flatten ∧
        ((∀ c ∈ Internal.CMap.ForEachLocked.calls Break cm fn s, c.2.2 = none) →
          (Internal.CMap.ForEachLocked.calls Break cm fn s).map
              (fun c => (⟨c.1, c.2.1⟩ : Sigma fun _ : K => V))
            = (cm.shards.map fun sh => sh.m.entries).flatten)) ∧
      (∀ f : K → V → Option E,
        (∀ k v w, (fn k v w).2.1 = w.1) → (∀ k v w, (fn k v w).1 = f k v) →
        (cm.ForEachLocked Break fn s).1
          = ((cm.shards.map fun sh => sh.m.entries).flatten.findSome?
              (fun p => f p.1 p.2)).bind (fun e => if e = Break then none else some e))) := by
  refine ⟨⟨?_, ?_, ?_, ?_⟩, ⟨?_, ?_, ?_, ?_⟩⟩
  · have hsim := (Internal.CMap.ForEach.loop_traced_snap Break fn (List.range cm.shards.length)
      (cm, (s, []))).1
    have hst := Internal.CMap.ForEach.loop_stops_snap Break fn (List.range cm.shards.length)
      (cm, (s, [])) (by intro c hc; cases hc)
    unfold Internal.CMap.ForEach.calls Internal.CMap.ForEach
    rw [← hsim]
    exact hst
  · intro i rest w hne
    simp only [Internal.CMap.ForEach.loop, List.take_nil]
    cases hr : (Internal.LockedMap.ForEach (fun w : Internal.CMap K V × σ => w.1.deref i) [] fn w).1 with
    | none => exact absurd hr hne
    | some err => rfl
  · intro hfix
    obtain ⟨_, pre, h2, h3, h4⟩ := Internal.CMap.ForEach.loop_prefix_snap Break fn hfix
      (List.range cm.shards.length) (cm, (s, []))
    have hcalls : Internal.CMap.ForEach.calls Break cm fn s = pre := by
      unfold Internal.CMap.ForEach.calls Internal.CMap.ForEach
      rw [h2]; rfl
    rw [Internal.CMap.flatten_deref_range_template cm (fun sh => sh.m.entries)] at h3 h4
    rw [hcalls]
    exact ⟨h3, h4⟩
  · intro f hfix hdet
    unfold Internal.CMap.ForEach
    rw [Internal.CMap.ForEach.loop_found_snap Break fn f hfix hdet,
      Internal.CMap.flatten_deref_range_template cm (fun sh => sh.m.entries)]
  · have hsim := (Internal.CMap.ForEachLocked.loop_traced_locked Break fn
      (List.range cm.shards.length) (cm, (s, []))).1
    have hst := Internal.CMap.ForEachLocked.loop_stops_locked Break fn (List.range cm.shards.length)
      (cm, (s, [])) (by intro c hc; cases hc)
    unfold Internal.CMap.ForEachLocked.calls Internal.CMap.ForEachLocked
    rw [← hsim]
    exact hst
  · intro i rest w hne
    simp only [Internal.CMap.ForEachLocked.loop]
    cases hr : (Internal.LockedMap.ForEachLocked (fun w : Internal.CMap K V × σ => w.1.deref i) fn w).1 with
    | none => exact absurd hr hne
    | some err => rfl
  · intro hfix
    obtain ⟨_, pre, h2, h3, h4⟩ := Internal.CMap.ForEachLocked.loop_prefix_locked Break fn hfix
      (List.range cm.shards.length) (cm, (s, []))
    have hcalls : Internal.CMap.ForEachLocked.calls Break cm fn s = pre := by
      unfold Internal.CMap.ForEachLocked.calls Internal.CMap.ForEachLocked
      rw [h2]; rfl
    rw [Internal.CMap.flatten_deref_range_template cm (fun sh => sh.m.entries)] at h3 h4
    rw [hcalls]
    exact ⟨h3, h4⟩
  · intro f hfix hdet
    unfold Internal.CMap.ForEachLocked
    rw [Internal.CMap.ForEachLocked.loop_found_locked Break fn f hfix hdet,
      Internal.CMap.flatten_deref_range_template cm (fun sh => sh.m.entries)]

end TemplateTraversal

/-! ## Traversals of the `interface{}` variant -/

section IfaceTraversal

variable {K V C σ : Type}

theorem CMap.ForEach.loop_false [DecidableEq K]
    (fn : K → V → CMap K V × σ → Bool × (CMap K V × σ)) (idxs : List Nat)
    (w : CMap K V × σ) : (CMap.ForEach.loop fn idxs w).1 = false := by
  induction idxs generalizing w with
  | nil => rfl
  | cons i rest ih =>
    simp only [CMap.ForEach.loop]
    split_ifs
    · rfl
    · exact ih _

theorem LMap.ForEachLocked.visit_traced_bool (fn : K → V → C × σ → Bool × (C × σ))
    (es : List (Sigma fun _ : K => V)) (w : C × (σ × List (K × V × Bool))) :
    (LMap.ForEachLocked.visit (traced fn) es w).1
        = (LMap.ForEachLocked.visit fn es (w.1, w.2.1)).1 ∧
    ((LMap.ForEachLocked.visit (traced fn) es w).2.1,
      (LMap.ForEachLocked.visit (traced fn) es w).2.2.1)
        = (LMap.ForEachLocked.visit fn es (w.1, w.2.1)).2 := by
  induction es generalizing w with
  | nil => exact ⟨rfl, rfl⟩
  | cons e es ih =>
    simp only [LMap.ForEachLocked.visit, traced]
    split_ifs
    · exact ⟨rfl, rfl⟩
    · exact ih _

theorem LMap.ForEachLocked.visit_stops_bool (fn : K → V → C × σ → Bool × (C × σ))
    (es : List (Sigma fun _ : K => V)) (w : C × (σ × List (K × V × Bool)))
    (hclean : ∀ c ∈ w.2.2, c.2.2 = true) :
    ((LMap.ForEachLocked.visit (traced fn) es w).1 = true ∧
      ∀ c ∈ (LMap.ForEachLocked.visit (traced fn) es w).2.2.2, c.2.2 = true) ∨
    ((LMap.ForEachLocked.visit (traced fn) es w).1 = false ∧
      ∃ pre k v,
        (LMap.ForEachLocked.visit (traced fn) es w).2.2.2 = pre ++ [(k, v, false)] ∧
        ∀ c ∈ pre, c.2.2 = true) := by
  induction es generalizing w with
  | nil => exact Or.inl ⟨rfl, hclean⟩
  | cons e es ih =>
    simp only [LMap.ForEachLocked.visit, traced]
    split_ifs with hr
    · exact Or.inr ⟨rfl, w.2.2, e.1, e.2, by rw [hr], hclean⟩
    · apply ih
      intro c hc
      rcases List.mem_append.mp hc with h | h
      · exact hclean c h
      · simp only [List.mem_singleton] at h
        subst h
        simpa using hr

theorem CMap.ForEachLocked.loop_traced_bool [DecidableEq K]
    (fn : K → V → CMap K V × σ → Bool × (CMap K V × σ))
    (idxs : List Nat) (w : CMap K V × (σ × List (K × V × Bool))) :
    (CMap.ForEachLocked.loop (traced fn) idxs w).1
        = (CMap.ForEachLocked.loop fn idxs (w.1, w.2.1)).1 ∧
    ((CMap.ForEachLocked.loop (traced fn) idxs w).2.1,
      (CMap.ForEachLocked.loop (traced fn) idxs w).2.2.1)
        = (CMap.ForEachLocked.loop fn idxs (w.1, w.2.1)).2 := by
  induction idxs generalizing w with
  | nil => exact ⟨rfl, rfl⟩
  | cons i rest ih =>
    obtain ⟨h1, h2⟩ := LMap.ForEachLocked.visit_traced_bool fn (w.1.deref i).m.entries w
    simp only [CMap.ForEachLocked.loop, LMap.ForEachLocked]
    rw [h1]
    split_ifs
    · exact ⟨rfl, h2⟩
    · rw [← h2]
      exact ih _

theorem CMap.ForEachLocked.loop_stops_bool [DecidableEq K]
    (fn : K → V → CMap K V × σ → Bool × (CMap K V × σ))
    (idxs : List Nat) (w : CMap K V × (σ × List (K × V × Bool)))
    (hclean : ∀ c ∈ w.2.2, c.2.2 = true) :
    ((CMap.ForEachLocked.loop (traced fn) idxs w).1 = true ∧
      ∀ c ∈ (CMap.ForEachLocked.loop (traced fn) idxs w).2.2.2, c.2.2 = true) ∨
    ((CMap.ForEachLocked.loop (traced fn) idxs w).1 = false ∧
      ∃ pre k v,
        (CMap.ForEachLocked.loop (traced fn) idxs w).2.2.2 = pre ++ [(k, v, false)] ∧
        ∀ c ∈ pre, c.2.2 = true) := by
  induction idxs generalizing w with
  | nil => exact Or.inl ⟨rfl, hclean⟩
  | cons i rest ih =>
    have hst := LMap.ForEachLocked.visit_stops_bool fn (w.1.deref i).m.entries w hclean
    simp only [CMap.ForEachLocked.loop, LMap.ForEachLocked]
    rcases hst with ⟨h1, h2⟩ | ⟨h1, hlog⟩
    · rw [h1]
      simp only [Bool.true_eq_false, if_false]
      exact ih _ h2
    · rw [h1]
      simp only [if_true]
      exact Or.inr ⟨trivial, hlog⟩

/-- C10 (amended): in the `interface{}` variant `CMap.ForEach` returns false at
the end of every traversal, a full one included.  `CMap.ForEachLocked` returns
true after a full traversal in which the callback returned true for every pair,
and false only when an invocation of the callback returned false, which is then
the last invocation. -/
theorem forEach_bool_result [DecidableEq K] (cm : CMap K V)
    (fn : K → V → CMap K V × σ → Bool × (CMap K V × σ)) (s : σ) :
    (cm.ForEach fn s).1 = false ∧
    (((cm.ForEachLocked fn s).1 = true ∧
        ∀ c ∈ CMap.ForEachLocked.calls cm fn s, c.2.2 = true) ∨
      ((cm.ForEachLocked fn s).1 = false ∧
        ∃ pre k v, CMap.ForEachLocked.calls cm fn s = pre ++ [(k, v, false)] ∧
          ∀ c ∈ pre, c.2.2 = true)) := by
  refine ⟨CMap.ForEach.loop_false fn _ _, ?_⟩
  have hsim := (CMap.ForEachLocked.loop_traced_bool fn (List.range cm.shards.length)
    (cm, (s, []))).1
  have hst := CMap.ForEachLocked.loop_stops_bool fn (List.range cm.shards.length)
    (cm, (s, [])) (by intro c hc; cases hc)
  unfold CMap.ForEachLocked.calls CMap.ForEachLocked
  rw [← hsim]
  exact hst

end IfaceTraversal

/-! ## Length, keys and the locked traversal agree -/

section LengthEquality

variable {K V C σ : Type}

theorem LMap.ForEachLocked.visit_count (fn : K → V → C × σ → Bool × (C × σ))
    (hgo : ∀ k v w, (fn k v w).1 = true) (hfix : ∀ k v w, (fn k v w).2.1 = w.1)
    (es : List (Sigma fun _ : K => V)) (w : C × (σ × List (K × V × Bool))) :
    (LMap.ForEachLocked.visit (traced fn) es w).1 = true ∧
    (LMap.ForEachLocked.visit (traced fn) es w).2.1 = w.1 ∧
    (LMap.ForEachLocked.visit (traced fn) es w).2.2.2.length = w.2.2.length + es.length := by
  induction es generalizing w with
  | nil => exact ⟨rfl, rfl, rfl⟩
  | cons e es ih =>
    simp only [LMap.ForEachLocked.visit, traced, hgo, Bool.true_eq_false, if_false]
    obtain ⟨h1, h2, h3⟩ := ih ((fn e.1 e.2 (w.1, w.2.1)).2.1,
      ((fn e.1 e.2 (w.1, w.2.1)).2.2, w.2.2 ++ [(e.1, e.2, true)]))
    refine ⟨h1, ?_, ?_⟩
    · rw [h2]; exact hfix _ _ _
    · rw [h3]
      show (w.2.2 ++ [(e.1, e.2, true)]).length + es.length = w.2.2.length + (e :: es).length
      rw [List.length_append, List.length_singleton, List.length_cons]
      omega

theorem CMap.ForEachLocked.loop_count [DecidableEq K]
    (fn : K → V → CMap K V × σ → Bool × (CMap K V × σ))
    (hgo : ∀ k v w, (fn k v w).1 = true) (hfix : ∀ k v w, (fn k v w).2.1 = w.1)
    (idxs : List Nat) (w : CMap K V × (σ × List (K × V × Bool))) :
    (CMap.ForEachLocked.loop (traced fn) idxs w).2.1 = w.1 ∧
    (CMap.ForEachLocked.loop (traced fn) idxs w).2.2.2.length
      = w.2.2.length + (idxs.map fun i => (w.1.deref i).Len).sum := by
  induction idxs generalizing w with
  | nil => exact ⟨rfl, rfl⟩
  | cons i rest ih =>
    obtain ⟨h1, h2, h3⟩ := LMap.ForEachLocked.visit_count fn hgo hfix (w.1.deref i).m.entries w
    simp only [CMap.ForEachLocked.loop, LMap.ForEachLocked]
    rw [h1]
    simp only [Bool.true_eq_false, if_false]
    obtain ⟨g1, g2⟩ := ih (LMap.ForEachLocked.visit (traced fn) (w.1.deref i).m.entries w).2
    refine ⟨by rw [g1, h2], ?_⟩
    rw [g2, h3, h2]
    simp only [List.map_cons, List.sum_cons, LMap.Len]
    omega

theorem map_deref_range (cm : CMap K V) :
    (List.range cm.shards.length).map (fun i => cm.deref i) = cm.shards := by
  apply List.ext_getElem
  · simp
  · intro i h1 h2
    simp only [List.getElem_map, List.getElem_range, CMap.deref]
    exact List.getD_eq_getElem _ _ h2

/-- C7: for every map reachable from `NewSize` by the point operations, `Len()`
is the number of distinct keys in `Keys()`, `Keys()` holds no key twice, and a
callback that never asks to stop and does not change the map is invoked by
`ForEachLocked` exactly `Len()` times. -/
theorem len_keys_forEachLocked [DecidableEq K] [Inhabited V] (hasher : K → Nat)
    (cm : CMap K V) (fn : K → V → CMap K V × σ → Bool × (CMap K V × σ)) (s : σ)
    (hcm : Reachable hasher cm)
    (hgo : ∀ k v w, (fn k v w).1 = true) (hfix : ∀ k v w, (fn k v w).2.1 = w.1) :
    cm.Keys.toFinset.card = cm.Len ∧ cm.Keys.Nodup ∧
      (CMap.ForEachLocked.calls cm fn s).length = cm.Len := by
  have hnd := hcm.homeShard.keys_nodup
  refine ⟨?_, hnd, ?_⟩
  · rw [List.toFinset_card_of_nodup hnd, cm.Keys_length]
  · unfold CMap.ForEachLocked.calls CMap.ForEachLocked
    rw [(CMap.ForEachLocked.loop_count fn hgo hfix _ _).2, cm.Len_eq_sum]
    simp only [List.length_nil, Nat.zero_add]
    have hmm : (List.range cm.shards.length).map (fun i => (cm.deref i).Len)
        = ((List.range cm.shards.length).map (fun i => cm.deref i)).map LMap.Len := by
      rw [List.map_map]; rfl
    rw [hmm, map_deref_range]

end LengthEquality

/-! ## `SetIfNotExists` of the generic template -/

section TemplateSetIfNotExists

variable {K V : Type}

theorem Internal.CMap.shard_of_mod_lt [DecidableEq K] (cm : Internal.CMap K V) (k : K)
    (hmod : cm.mod < cm.shards.length) :
    ∃ sh, cm.shards[cm.HashFn k % 2 ^ 32 &&& cm.mod]? = some sh ∧
      cm.shard k = some (cm.HashFn k % 2 ^ 32 &&& cm.mod, sh) := by
  have hle : cm.HashFn k % 2 ^ 32 &&& cm.mod ≤ cm.mod := Nat.and_le_right
  have hlt : cm.HashFn k % 2 ^ 32 &&& cm.mod < cm.shards.length := by omega
  refine ⟨cm.shards[cm.HashFn k % 2 ^ 32 &&& cm.mod], List.getElem?_eq_getElem hlt, ?_⟩
  simp only [Internal.CMap.shard, List.getElem?_eq_getElem hlt]

theorem Internal.CMap.shard_after_set [DecidableEq K] (cm : Internal.CMap K V) (k : K)
    (sh : Internal.LockedMap K V) (hmod : cm.mod < cm.shards.length) :
    Internal.CMap.shard
        { cm with shards := cm.shards.set (cm.HashFn k % 2 ^ 32 &&& cm.mod) sh } k
      = some (cm.HashFn k % 2 ^ 32 &&& cm.mod, sh) := by
  have hle : cm.HashFn k % 2 ^ 32 &&& cm.mod ≤ cm.mod := Nat.and_le_right
  have hlt : cm.HashFn k % 2 ^ 32 &&& cm.mod < cm.shards.length := by omega
  simp only [Internal.CMap.shard, List.getElem?_set_self hlt]

/-- After `NewSize` of the template the mask is below the number of shards. -/
theorem Internal.NewSize_mod_lt [DecidableEq K] [Inhabited V] (hashFn : K → Nat)
    (shardCount : Int) (cm : Internal.CMap K V)
    (h : Internal.NewSize hashFn shardCount = some cm) : cm.mod < cm.shards.length := by
  have key : ∀ n : Int, (∃ e : Nat, n = 2 ^ e) →
      (Internal.allocShards hashFn n : Internal.CMap K V).mod
        < (Internal.allocShards hashFn n : Internal.CMap K V).shards.length := by
    rintro n ⟨e, rfl⟩
    simp only [Internal.allocShards, List.length_replicate, uint32]
    have hcast : (((2 : Int) ^ e) % 2 ^ 32).toNat = (2 ^ e % 2 ^ 32 : Nat) := by
      have : ((2 : Int) ^ e) % 2 ^ 32 = ((2 ^ e % 2 ^ 32 : Nat) : Int) := by push_cast; rfl
      rw [this, Int.toNat_natCast]
    have hto : ((2 : Int) ^ e).toNat = 2 ^ e := by
      have : ((2 : Int) ^ e) = ((2 ^ e : Nat) : Int) := by push_cast; rfl
      rw [this, Int.toNat_natCast]
    rw [hcast, hto]
    by_cases he : e < 32
    · have hlt : 2 ^ e < 2 ^ 32 := Nat.pow_lt_pow_right (by decide) he
      have hpos : 0 < 2 ^ e := Nat.pow_pos (by decide)
      rw [Nat.mod_eq_of_lt hlt]
      have : (2 ^ e + 2 ^ 32 - 1) % 2 ^ 32 = 2 ^ e - 1 := by
        have h1 : 2 ^ e + 2 ^ 32 - 1 = (2 ^ e - 1) + 2 ^ 32 := by omega
        rw [h1, Nat.add_mod_right, Nat.mod_eq_of_lt (by omega)]
      omega
    · have hge : 2 ^ 32 ≤ 2 ^ e := Nat.pow_le_pow_right (by decide) (by omega)
      have hlt := Nat.mod_lt (2 ^ e % 2 ^ 32 + 2 ^ 32 - 1) (show 0 < 2 ^ 32 by decide)
      omega
  unfold Internal.NewSize at h
  split_ifs at h with h1 h2
  · cases h
    exact key DefaultShardCount ⟨8, by decide⟩
  · cases h
    have h1' : 1 ≤ shardCount := by omega
    exact key shardCount ((int_land_pred_eq_zero_iff shardCount h1').mp (not_not.mp h2))

theorem Internal.CMap.SetIfNotExists_template [DecidableEq K] [Inhabited V]
    (cm : Internal.CMap K V) (k : K) (v : V) (hmod : cm.mod < cm.shards.length) :
    (cm.Has k = some false →
      ∃ cm', cm.SetIfNotExists k v = some (true, cm') ∧ cm'.GetOK k = some (v, true)) ∧
    (cm.Has k = some true →
      ∃ cm', cm.SetIfNotExists k v = some (false, cm') ∧ cm'.GetOK k = cm.GetOK k ∧
        cm' = cm) := by
  obtain ⟨sh, hsh, hshard⟩ := cm.shard_of_mod_lt k hmod
  constructor
  · intro hhas
    simp only [Internal.CMap.Has, hshard, Internal.LockedMap.Has, Option.some.injEq] at hhas
    refine ⟨{ cm with
      shards := cm.shards.set (cm.HashFn k % 2 ^ 32 &&& cm.mod)
        (Internal.LockedMap.mk (sh.m.insert k v)) }, ?_, ?_⟩
    · simp only [Internal.CMap.SetIfNotExists, hshard, hhas, if_true]
    · simp only [Internal.CMap.GetOK, cm.shard_after_set k _ hmod, Internal.LockedMap.GetOK,
        GoMap.commaOk_insert]
  · intro hhas
    simp only [Internal.CMap.Has, hshard, Internal.LockedMap.Has, Option.some.injEq] at hhas
    refine ⟨cm, ?_, rfl, rfl⟩
    simp only [Internal.CMap.SetIfNotExists, hshard, hhas, Bool.true_eq_false, if_false]

theorem CMap.SetIfNotExists_iface [DecidableEq K] [Inhabited V] (hasher : K → Nat) (cm : CMap K V)
    (k : K) (v : V) (hcm : Reachable hasher cm) :
    (cm.Has hasher k = some false →
      ∃ cm', cm.SetIfNotExists hasher k v = some (true, cm') ∧
        cm'.GetOK hasher k = some (v, true)) ∧
    (cm.Has hasher k = some true →
      ∃ cm', cm.SetIfNotExists hasher k v = some (false, cm') ∧
        cm'.GetOK hasher k = cm.GetOK hasher k ∧ cm' = cm) := by
  have hpos := hcm.length_pos
  obtain ⟨sh, hsh⟩ := cm.exists_shard hasher k hpos
  rw [cm.Has_of_shard hasher k sh hsh, cm.SetIfNotExists_of_shard hasher k v sh hsh]
  constructor
  · intro hhas
    have hhas' : (GoMap.commaOk sh.m k).2 = false := by simpa [LMap.Has] using hhas
    have hres : sh.SetIfNotExists k v = (true, { m := sh.m.insert k v }) := by
      simp only [LMap.SetIfNotExists, hhas', if_true]
    rw [hres]
    refine ⟨_, rfl, ?_⟩
    rw [CMap.GetOK_of_shard hasher _ k _ (cm.home_after_set hasher k _ hpos)]
    simp only [LMap.GetOK, GoMap.commaOk_insert]
  · intro hhas
    have hhas' : (GoMap.commaOk sh.m k).2 = true := by simpa [LMap.Has] using hhas
    have hres : sh.SetIfNotExists k v = (false, sh) := by
      simp only [LMap.SetIfNotExists, hhas', Bool.true_eq_false, if_false]
    rw [hres]
    refine ⟨_, rfl, ?_, cm.set_self _ _ hsh⟩
    rw [cm.set_self _ _ hsh]

/-- C2: when `Has(k)` is false, `SetIfNotExists(k, v)` returns true and afterwards
`GetOK(k) = (v, true)`; when `Has(k)` is true, it returns false and the map (so
also what `GetOK(k)` returns) is what it was.  Stated for the `interface{}`
variant on a reachable map `cm`, and for the template on a map `tm` whose mask
is below its number of shards, as `NewSize` sets it. -/
theorem setIfNotExists_spec [DecidableEq K] [Inhabited V] (hasher : K → Nat) (cm : CMap K V)
    (tm : Internal.CMap K V) (k : K) (v : V)
    (hcm : Reachable hasher cm) (htm : tm.mod < tm.shards.length) :
    ((cm.Has hasher k = some false →
        ∃ cm', cm.SetIfNotExists hasher k v = some (true, cm') ∧
          cm'.GetOK hasher k = some (v, true)) ∧
      (cm.Has hasher k = some true →
        ∃ cm', cm.SetIfNotExists hasher k v = some (false, cm') ∧
          cm'.GetOK hasher k = cm.GetOK hasher k ∧ cm' = cm)) ∧
    ((tm.Has k = some false →
        ∃ tm', tm.SetIfNotExists k v = some (true, tm') ∧ tm'.GetOK k = some (v, true)) ∧
      (tm.Has k = some true →
        ∃ tm', tm.SetIfNotExists k v = some (false, tm') ∧ tm'.GetOK k = tm.GetOK k ∧
          tm' = tm)) :=
  ⟨CMap.SetIfNotExists_iface hasher cm k v hcm, Internal.CMap.SetIfNotExists_template tm k v htm⟩

end TemplateSetIfNotExists

/-! ## The theorems on concrete maps -/

section Concrete

theorem exEmpty_reachable : Reachable exHash exEmpty :=
  Reachable.newSize 4 exEmpty rfl

theorem exMap_reachable : Reachable exHash exMap :=
  Reachable.set exTwo exMap 2 (some 20)
    (Reachable.set exOne exTwo 5 (some 50)
      (Reachable.set exEmpty exOne 1 (some 10) exEmpty_reachable rfl) rfl) rfl

theorem set_then_getOK_witness :
    Reachable exHash exMap ∧
    ∃ cm', exMap.Set exHash 9 (some 90) = some cm' ∧
      cm'.GetOK exHash 9 = some (some 90, true) ∧ cm'.Get exHash 9 = some (some 90) :=
  ⟨exMap_reachable, set_then_getOK exHash exMap 9 (some 90) exMap_reachable⟩

theorem setIfNotExists_spec_witness :
    (Reachable exHash exMap ∧ exTemplate.mod < exTemplate.shards.length) ∧
    ((exMap.Has exHash 5 = some false →
        ∃ cm', exMap.SetIfNotExists exHash 5 (some 55) = some (true, cm') ∧
          cm'.GetOK exHash 5 = some (some 55, true)) ∧
      (exMap.Has exHash 5 = some true →
        ∃ cm', exMap.SetIfNotExists exHash 5 (some 55) = some (false, cm') ∧
          cm'.GetOK exHash 5 = exMap.GetOK exHash 5 ∧ cm' = exMap)) ∧
    ((exTemplate.Has 5 = some false →
        ∃ tm', exTemplate.SetIfNotExists 5 (some 55) = some (true, tm') ∧
          tm'.GetOK 5 = some (some 55, true)) ∧
      (exTemplate.Has 5 = some true →
        ∃ tm', exTemplate.SetIfNotExists 5 (some 55) = some (false, tm') ∧
          tm'.GetOK 5 = exTemplate.GetOK 5 ∧ tm' = exTemplate)) :=
  ⟨⟨exMap_reachable, by decide⟩,
    setIfNotExists_spec exHash exMap exTemplate 5 (some 55) exMap_reachable (by decide)⟩

theorem swap_spec_witness :
    Reachable exHash exMap ∧
    ((∃ cm1 cm2, exMap.Set exHash 5 (some 51) = some cm1 ∧
        cm1.Swap exHash 5 (some 52) = some (some 51, cm2) ∧
        cm2.GetOK exHash 5 = some (some 52, true)) ∧
      (exMap.Has exHash 5 = some false →
        ∃ cm2, exMap.Swap exHash 5 (some 52) = some (default, cm2) ∧
          cm2.GetOK exHash 5 = some (some 52, true))) :=
  ⟨exMap_reachable, swap_spec exHash exMap 5 (some 51) (some 52) exMap_reachable⟩

theorem deleteAndGet_spec_witness :
    Reachable exHash exMap ∧
    ∃ cm1 cm2, exMap.Set exHash 7 (some 7) = some cm1 ∧
      cm1.DeleteAndGet exHash 7 = some (some 7, cm2) ∧
      cm2.Has exHash 7 = some false ∧ cm2.DeleteAndGet exHash 7 = some (default, cm2) :=
  ⟨exMap_reachable, deleteAndGet_spec exHash exMap 7 (some 7) exMap_reachable⟩

theorem delete_spec_witness :
    Reachable exHash exMap ∧
    ∃ cm1, exMap.Delete exHash 1 = some cm1 ∧ cm1.Has exHash 1 = some false ∧
      (exMap.Has exHash 1 = some false → cm1 = exMap) ∧ cm1.Delete exHash 1 = some cm1 :=
  ⟨exMap_reachable, delete_spec exHash exMap 1 exMap_reachable⟩

/-- C5, as stated, fails: on the empty map of `NewSize(4)`, `GetOK(1)` is
`(nil, false)` and `Len()` is 0; after `Update(1, identity)`, `GetOK(1)` is
`(nil, true)` and `Len()` is 1. -/
theorem update_identity_absent_counterexample :
    NewSize 4 = some exEmpty ∧
    exEmpty.GetOK exHash 1 = some (none, false) ∧ exEmpty.Len = 0 ∧
    (exEmpty.Update exHash 1 (fun old => old)).bind (fun cm => cm.GetOK exHash 1)
      = some (none, true) ∧
    (exEmpty.Update exHash 1 (fun old => old)).map (fun cm => cm.Len) = some 1 :=
  ⟨rfl, rfl, rfl, rfl, rfl⟩

theorem update_identity_spec_witness :
    Reachable exHash exMap ∧
    ∃ cm', exMap.Update exHash 5 (fun old => old) = some cm' ∧
      (∀ k', cm'.Get exHash k' = exMap.Get exHash k') ∧
      (∀ k', k' ≠ 5 → cm'.GetOK exHash k' = exMap.GetOK exHash k') ∧
      (exMap.Has exHash 5 = some true →
        (∀ k', cm'.GetOK exHash k' = exMap.GetOK exHash k') ∧ cm'.Len = exMap.Len) ∧
      (exMap.Has exHash 5 = some false →
        cm'.GetOK exHash 5 = some (default, true) ∧ cm'.Len = exMap.Len + 1) :=
  ⟨exMap_reachable, update_identity_spec exHash exMap 5 exMap_reachable⟩

theorem len_keys_forEachLocked_witness :
    (Reachable exHash exMap ∧ (∀ k v w, (exCount k v w).1 = true) ∧
      (∀ k v w, (exCount k v w).2.1 = w.1)) ∧
    (exMap.Keys.toFinset.card = exMap.Len ∧ exMap.Keys.Nodup ∧
      (CMap.ForEachLocked.calls exMap exCount 0).length = exMap.Len) :=
  ⟨⟨exMap_reachable, fun _ _ _ => rfl, fun _ _ _ => rfl⟩,
    len_keys_forEachLocked exHash exMap exCount 0 exMap_reachable
      (fun _ _ _ => rfl) (fun _ _ _ => rfl)⟩

/-- C10, as stated, fails for `ForEachLocked`: on the map holding keys 1, 5 and
2, a callback that returns true for every pair is invoked three times and
`ForEachLocked` returns true, while `ForEach` returns false. -/
theorem forEachLocked_full_counterexample :
    (exMap.ForEachLocked exCount 0).1 = true ∧
    (exMap.ForEachLocked exCount 0).2.2 = 3 ∧
    (exMap.ForEach exCount 0).1 = false ∧
    (exMap.ForEach exCount 0).2.2 = 3 :=
  ⟨rfl, rfl, rfl, rfl⟩

end Concrete

/-! ## The home-shard invariant of the generic template -/

section TemplateInvariant

variable {K V : Type}

/-- Replacing the shard of `key` in the template by one whose keys are `key` or
keys of the old shard keeps the mask below the shard count and every key in its
home shard. -/
theorem Internal.HomeShard.replace_template {cm : Internal.CMap K V}
    (hmod : cm.mod < cm.shards.length) (h : Internal.HomeShard cm) (key : K)
    (sh sh' : Internal.LockedMap K V)
    (hsh : cm.shards[cm.HashFn key % 2 ^ 32 &&& cm.mod]? = some sh)
    (hkeys : ∀ k ∈ sh'.m.keys, k = key ∨ k ∈ sh.m.keys) :
    ({ cm with shards := cm.shards.set (cm.HashFn key % 2 ^ 32 &&& cm.mod) sh' } :
        Internal.CMap K V).mod
      < ({ cm with shards := cm.shards.set (cm.HashFn key % 2 ^ 32 &&& cm.mod) sh' } :
        Internal.CMap K V).shards.length ∧
    Internal.HomeShard
      { cm with shards := cm.shards.set (cm.HashFn key % 2 ^ 32 &&& cm.mod) sh' } := by
  refine ⟨by simpa using hmod, ?_⟩
  intro j shj hj k hk
  simp only [List.getElem?_set] at hj
  by_cases hij : cm.HashFn key % 2 ^ 32 &&& cm.mod = j
  · rw [if_pos hij] at hj
    split_ifs at hj with hlt
    cases hj
    rcases hkeys k hk with rfl | hold
    · exact hij
    · rw [← hij]
      exact h _ sh hsh k hold
  · rw [if_neg hij] at hj
    exact h j shj hj k hk

theorem Internal.NewSize_homeShard_template [DecidableEq K] [Inhabited V] (hashFn : K → Nat)
    (shardCount : Int) (cm : Internal.CMap K V)
    (h : Internal.NewSize hashFn shardCount = some cm) :
    Internal.HomeShard cm ∧ cm.HashFn = hashFn := by
  have hempty : ∀ n : Int,
      Internal.HomeShard (Internal.allocShards hashFn n : Internal.CMap K V) := by
    intro n j sh hj key hkey
    simp only [Internal.allocShards, List.getElem?_replicate] at hj
    split_ifs at hj
    cases hj
    simp [Internal.NewLockedMapSize] at hkey
  unfold Internal.NewSize at h
  split_ifs at h
  · cases h; exact ⟨hempty _, rfl⟩
  · cases h; exact ⟨hempty _, rfl⟩

theorem Internal.Reachable.invariant [DecidableEq K] [Inhabited V] {hashFn : K → Nat}
    {cm : Internal.CMap K V} (h : Internal.Reachable hashFn cm) :
    cm.mod < cm.shards.length ∧ Internal.HomeShard cm ∧ cm.HashFn = hashFn := by
  induction h with
  | newSize n cm hn =>
    exact ⟨Internal.NewSize_mod_lt hashFn n cm hn,
      (Internal.NewSize_homeShard_template hashFn n cm hn).1,
      (Internal.NewSize_homeShard_template hashFn n cm hn).2⟩
  | set cm cm' key val _ hop ih =>
    obtain ⟨hmod, hhome, hfn⟩ := ih
    obtain ⟨sh, hsh, hshard⟩ := cm.shard_of_mod_lt key hmod
    simp only [Internal.CMap.Set, hshard, Option.some.injEq] at hop
    subst hop
    obtain ⟨h1, h2⟩ := hhome.replace_template hmod key sh (sh.Set key val) hsh
      (keys_insert_sub _ _ _)
    exact ⟨h1, h2, hfn⟩
  | setIfNotExists cm cm' key val b _ hop ih =>
    obtain ⟨hmod, hhome, hfn⟩ := ih
    obtain ⟨sh, hsh, hshard⟩ := cm.shard_of_mod_lt key hmod
    simp only [Internal.CMap.SetIfNotExists, hshard] at hop
    split_ifs at hop
    · simp only [Option.some.injEq, Prod.mk.injEq] at hop
      obtain ⟨_, rfl⟩ := hop
      obtain ⟨h1, h2⟩ := hhome.replace_template hmod key sh
        (Internal.LockedMap.mk (sh.m.insert key val)) hsh (keys_insert_sub _ _ _)
      exact ⟨h1, h2, hfn⟩
    · simp only [Option.some.injEq, Prod.mk.injEq] at hop
      obtain ⟨_, rfl⟩ := hop
      exact ⟨hmod, hhome, hfn⟩
  | delete cm cm' key _ hop ih =>
    obtain ⟨hmod, hhome, hfn⟩ := ih
    obtain ⟨sh, hsh, hshard⟩ := cm.shard_of_mod_lt key hmod
    simp only [Internal.CMap.Delete, hshard, Option.some.injEq] at hop
    subst hop
    obtain ⟨h1, h2⟩ := hhome.replace_template hmod key sh (sh.Delete key) hsh
      (keys_erase_sub _ _)
    exact ⟨h1, h2, hfn⟩
  | deleteAndGet cm cm' key old _ hop ih =>
    obtain ⟨hmod, hhome, hfn⟩ := ih
    obtain ⟨sh, hsh, hshard⟩ := cm.shard_of_mod_lt key hmod
    simp only [Internal.CMap.DeleteAndGet, hshard, Option.some.injEq, Prod.mk.injEq] at hop
    obtain ⟨_, rfl⟩ := hop
    obtain ⟨h1, h2⟩ := hhome.replace_template hmod key sh (sh.DeleteAndGet key).2 hsh
      (keys_erase_sub _ _)
    exact ⟨h1, h2, hfn⟩
  | swap cm cm' key val old _ hop ih =>
    obtain ⟨hmod, hhome, hfn⟩ := ih
    obtain ⟨sh, hsh, hshard⟩ := cm.shard_of_mod_lt key hmod
    simp only [Internal.CMap.Swap, hshard, Option.some.injEq, Prod.mk.injEq] at hop
    obtain ⟨_, rfl⟩ := hop
    obtain ⟨h1, h2⟩ := hhome.replace_template hmod key sh (sh.Swap key val).2 hsh
      (keys_insert_sub _ _ _)
    exact ⟨h1, h2, hfn⟩
  | update cm cm' key fn _ hop ih =>
    obtain ⟨hmod, hhome, hfn⟩ := ih
    obtain ⟨sh, hsh, hshard⟩ := cm.shard_of_mod_lt key hmod
    simp only [Internal.CMap.Update, hshard, Option.some.injEq] at hop
    subst hop
    obtain ⟨h1, h2⟩ := hhome.replace_template hmod key sh (sh.Update key fn) hsh
      (keys_insert_sub _ _ _)
    exact ⟨h1, h2, hfn⟩

theorem Internal.CMap.Keys_flatten (cm : Internal.CMap K V) :
    cm.Keys = (cm.shards.map fun sh => sh.m.keys).flatten := by
  have key : ∀ (l : List (Internal.LockedMap K V)) (acc : List K),
      l.foldl (fun out sh => out ++ sh.m.keys) acc
        = acc ++ (l.map fun sh => sh.m.keys).flatten := by
    intro l
    induction l with
    | nil => intro acc; simp
    | cons x xs ih =>
      intro acc
      rw [List.foldl_cons, ih, List.map_cons, List.flatten_cons, List.append_assoc]
  unfold Internal.CMap.Keys
  rw [key, List.nil_append]

theorem Internal.HomeShard.mem_keys_iff_template [DecidableEq K] [Inhabited V]
    {cm : Internal.CMap K V} (h : Internal.HomeShard cm) (hmod : cm.mod < cm.shards.length)
    (k : K) : k ∈ cm.Keys ↔ cm.Has k = some true := by
  obtain ⟨sh, hsh, hshard⟩ := cm.shard_of_mod_lt k hmod
  rw [cm.Keys_flatten, List.mem_flatten]
  simp only [Internal.CMap.Has, hshard, Internal.LockedMap.Has, Option.some.injEq,
    GoMap.commaOk_snd_true]
  constructor
  · rintro ⟨l, hl, hk⟩
    obtain ⟨sh', hsh', rfl⟩ := List.mem_map.mp hl
    obtain ⟨i, hi⟩ := List.mem_iff_getElem?.mp hsh'
    have hidx := h i sh' hi k hk
    rw [← hidx, hsh] at hi
    cases hi
    have hmem : k ∈ sh.m := AList.mem_keys.mpr hk
    rw [← AList.lookup_isSome] at hmem
    exact Option.isSome_iff_exists.mp hmem
  · rintro ⟨v, hv⟩
    refine ⟨sh.m.keys, List.mem_map.mpr ⟨sh, List.mem_iff_getElem?.mpr ⟨_, hsh⟩, rfl⟩, ?_⟩
    have hmem : k ∈ sh.m := by
      rw [← AList.lookup_isSome, hv]; rfl
    exact AList.mem_keys.mp hmem

end TemplateInvariant

/-! ## Shard distribution and the order of `Keys` -/

section DistributionAndKeys

variable {K V : Type}

theorem sum_map_div_const {α : Type} (f : α → ℚ) (c : ℚ) (l : List α) :
    (l.map fun x => f x / c).sum = (l.map f).sum / c := by
  induction l with
  | nil => simp
  | cons x xs ih => simp only [List.map_cons, List.sum_cons, ih, add_div]

/-- C11: for every map with `Len() > 0`, `ShardDistribution()` has `NumShards()`
entries, entry `i` is the number of keys of shard `i` divided by `Len()`, and
the entries sum to 1 (over exact rationals). -/
theorem shardDistribution_spec (cm : CMap K V) (hlen : 0 < cm.Len) :
    cm.ShardDistribution.length = cm.NumShards ∧
    (∀ (i : Nat) (sh : LMap K V), cm.shards[i]? = some sh →
      cm.ShardDistribution[i]? = some ((sh.Len : ℚ) / (cm.Len : ℚ))) ∧
    cm.ShardDistribution.sum = 1 := by
  refine ⟨?_, ?_, ?_⟩
  · simp only [CMap.ShardDistribution, List.length_map, CMap.NumShards]
  · intro i sh hsh
    simp only [CMap.ShardDistribution, List.getElem?_map, hsh, Option.map_some']
  · have hne : (cm.Len : ℚ) ≠ 0 := by
      exact_mod_cast Nat.pos_iff_ne_zero.mp hlen
    simp only [CMap.ShardDistribution]
    rw [sum_map_div_const (fun sh : LMap K V => (sh.Len : ℚ)) (cm.Len : ℚ) cm.shards]
    have hsum : (cm.shards.map fun sh : LMap K V => (sh.Len : ℚ)).sum = (cm.Len : ℚ) := by
      rw [cm.Len_eq_sum, Nat.cast_list_sum, List.map_map]
      rfl
    rw [hsum, div_self hne]

theorem sublist_pair_flatten {α : Type} (L : List (List α)) (i j : Nat) (li lj : List α)
    (a b : α) (hij : i < j) (hi : L[i]? = some li) (hj : L[j]? = some lj)
    (ha : a ∈ li) (hb : b ∈ lj) : [a, b].Sublist L.flatten := by
  have hsplit : L.flatten = (L.take j).flatten ++ (L.drop j).flatten := by
    rw [← List.flatten_append, List.take_append_drop]
  rw [hsplit]
  have h1 : [a].Sublist (L.take j).flatten := by
    rw [List.singleton_sublist, List.mem_flatten]
    refine ⟨li, ?_, ha⟩
    rw [List.mem_iff_getElem?]
    exact ⟨i, by rw [List.getElem?_take, if_pos hij, hi]⟩
  have h2 : [b].Sublist (L.drop j).flatten := by
    rw [List.singleton_sublist, List.mem_flatten]
    refine ⟨lj, ?_, hb⟩
    rw [List.mem_iff_getElem?]
    exact ⟨0, by rw [List.getElem?_drop, Nat.add_zero, hj]⟩
  exact h1.append h2

theorem HomeShard.mem_keys_iff [DecidableEq K] [Inhabited V] {hasher : K → Nat}
    {cm : CMap K V} (h : HomeShard hasher cm) (hpos : 0 < cm.shards.length) (k : K) :
    k ∈ cm.Keys ↔ cm.Has hasher k = some true := by
  obtain ⟨sh, hsh⟩ := cm.exists_shard hasher k hpos
  rw [cm.Has_of_shard hasher k sh hsh, cm.Keys_eq_flatten, List.mem_flatten]
  simp only [LMap.Has, Option.some.injEq, GoMap.commaOk_snd_true]
  constructor
  · rintro ⟨l, hl, hk⟩
    obtain ⟨sh', hsh', rfl⟩ := List.mem_map.mp hl
    obtain ⟨i, hi⟩ := List.mem_iff_getElem?.mp hsh'
    have hidx := h i sh' hi k hk
    rw [← hidx, hsh] at hi
    cases hi
    have hmem : k ∈ sh.m := AList.mem_keys.mpr hk
    rw [← AList.lookup_isSome] at hmem
    exact Option.isSome_iff_exists.mp hmem
  · rintro ⟨v, hv⟩
    refine ⟨sh.m.keys, List.mem_map.mpr ⟨sh, List.mem_iff_getElem?.mpr ⟨_, hsh⟩, rfl⟩, ?_⟩
    have hmem : k ∈ sh.m := by
      rw [← AList.lookup_isSome, hv]; rfl
    exact AList.mem_keys.mp hmem

/-- C12: `Keys()` is the concatenation of the shards' key lists in increasing
shard index, in both variants: a key of shard `i` stands before a key of shard
`j` whenever `i < j`.  On a reachable map a key occurs in `Keys()` exactly when
`Has` reports it. -/
theorem keys_order_spec [DecidableEq K] [Inhabited V] (hasher : K → Nat) (cm : CMap K V)
    (tm : Internal.CMap K V) (hcm : Reachable hasher cm)
    (htm : Internal.Reachable hasher tm) :
    (cm.Keys = (cm.shards.map fun sh => sh.m.keys).flatten ∧
      (∀ (i j : Nat) (shi shj : LMap K V) (a b : K), i < j →
        cm.shards[i]? = some shi → cm.shards[j]? = some shj →
        a ∈ shi.m.keys → b ∈ shj.m.keys → [a, b].Sublist cm.Keys) ∧
      (∀ k, k ∈ cm.Keys ↔ cm.Has hasher k = some true)) ∧
    (tm.Keys = (tm.shards.map fun sh => sh.m.keys).flatten ∧
      (∀ (i j : Nat) (shi shj : Internal.LockedMap K V) (a b : K), i < j →
        tm.shards[i]? = some shi → tm.shards[j]? = some shj →
        a ∈ shi.m.keys → b ∈ shj.m.keys → [a, b].Sublist tm.Keys) ∧
      (∀ k, k ∈ tm.Keys ↔ tm.Has k = some true)) := by
  refine ⟨⟨cm.Keys_eq_flatten, ?_, hcm.homeShard.mem_keys_iff hcm.length_pos⟩,
    ⟨tm.Keys_flatten, ?_, htm.invariant.2.1.mem_keys_iff_template htm.invariant.1⟩⟩
  · intro i j shi shj a b hij hi hj ha hb
    rw [cm.Keys_eq_flatten]
    exact sublist_pair_flatten _ i j shi.m.keys shj.m.keys a b hij
      (by rw [List.getElem?_map, hi]; rfl) (by rw [List.getElem?_map, hj]; rfl) ha hb
  · intro i j shi shj a b hij hi hj ha hb
    rw [tm.Keys_flatten]
    exact sublist_pair_flatten _ i j shi.m.keys shj.m.keys a b hij
      (by rw [List.getElem?_map, hi]; rfl) (by rw [List.getElem?_map, hj]; rfl) ha hb

end DistributionAndKeys

/-! ## The shard index -/

section ShardIndex

variable {K V : Type}

theorem two_pow_split (e : Nat) (he : 32 ≤ e) : 2 ^ e = 2 ^ 32 * 2 ^ (e - 32) := by
  rw [← pow_add]
  congr 1
  omega

/-- The mask of the `interface{}` variant for `2 ^ e` shards. -/
theorem uint32_pow_pred (e : Nat) :
    uint32 (((2 ^ e : Nat) : Int) - 1) = if e < 32 then 2 ^ e - 1 else 2 ^ 32 - 1 := by
  have hpos : 0 < 2 ^ e := Nat.pow_pos (by decide)
  unfold uint32
  split_ifs with he
  · have hlt : 2 ^ e < 2 ^ 32 := Nat.pow_lt_pow_right (by decide) he
    omega
  · have hsplit := two_pow_split e (by omega)
    have hq : 0 < 2 ^ (e - 32) := Nat.pow_pos (by decide)
    generalize 2 ^ (e - 32) = q at hsplit hq
    generalize 2 ^ e = x at hsplit hpos
    omega

/-- The mask of the template for `2 ^ e` shards. -/
theorem template_mask_pow (e : Nat) :
    (uint32 ((2 ^ e : Nat) : Int) + 2 ^ 32 - 1) % 2 ^ 32
      = if e < 32 then 2 ^ e - 1 else 2 ^ 32 - 1 := by
  have hpos : 0 < 2 ^ e := Nat.pow_pos (by decide)
  unfold uint32
  split_ifs with he
  · have hlt : 2 ^ e < 2 ^ 32 := Nat.pow_lt_pow_right (by decide) he
    omega
  · have hsplit := two_pow_split e (by omega)
    have hq : 0 < 2 ^ (e - 32) := Nat.pow_pos (by decide)
    generalize 2 ^ (e - 32) = q at hsplit hq
    generalize 2 ^ e = x at hsplit hpos
    omega

theorem NewSize_both [DecidableEq K] [Inhabited V] (hasher : K → Nat) (shardCount : Int)
    (cm : CMap K V) (tm : Internal.CMap K V)
    (hcm : NewSize shardCount = some cm) (htm : Internal.NewSize hasher shardCount = some tm) :
    ∃ e : Nat, cm = allocShards ((2 ^ e : Nat) : Int) ∧
      tm = Internal.allocShards hasher ((2 ^ e : Nat) : Int) := by
  unfold NewSize at hcm
  unfold Internal.NewSize at htm
  by_cases h1 : shardCount < 1
  · rw [if_pos h1] at hcm htm
    cases hcm; cases htm
    exact ⟨8, rfl, rfl⟩
  · rw [if_neg h1] at hcm htm
    by_cases h2 : Int.land shardCount (shardCount - 1) = 0
    · rw [if_neg (not_not.mpr h2)] at hcm htm
      cases hcm; cases htm
      obtain ⟨e, he⟩ := (int_land_pred_eq_zero_iff shardCount (by omega)).mp h2
      refine ⟨e, ?_, ?_⟩
      · rw [he]; push_cast; rfl
      · rw [he]; push_cast; rfl
    · rw [if_pos h2] at hcm
      cases hcm

/-- C16: for every map `NewSize` builds and every key, the index
`h & uint32(N-1)` is below the number of shards `N`, equals `h mod N` when
`N ≤ 2^32`, and selects a shard; the template's stored mask
`mod = uint32(N) - 1` gives the same index into a slice of the same length. -/
theorem shardIndex_spec [DecidableEq K] [Inhabited V] (hasher : K → Nat) (shardCount : Int)
    (cm : CMap K V) (tm : Internal.CMap K V) (key : K)
    (hcm : NewSize shardCount = some cm)
    (htm : Internal.NewSize hasher shardCount = some tm) :
    cm.shardIndex hasher key < cm.NumShards ∧
    (cm.NumShards ≤ 2 ^ 32 →
      cm.shardIndex hasher key = (hasher key % 2 ^ 32) % cm.NumShards) ∧
    (∃ sh, cm.ShardForKey hasher key = some sh) ∧
    tm.NumShards = cm.NumShards ∧
    (tm.HashFn key % 2 ^ 32) &&& tm.mod = cm.shardIndex hasher key ∧
    (∃ sh, tm.shard key = some (cm.shardIndex hasher key, sh)) := by
  have hpos := NewSize_length_pos shardCount cm hcm
  have hmodlt := Internal.NewSize_mod_lt hasher shardCount tm htm
  obtain ⟨e, rfl, rfl⟩ := NewSize_both hasher shardCount cm tm hcm htm
  have hlen : (allocShards ((2 ^ e : Nat) : Int) : CMap K V).shards.length = 2 ^ e := by
    simp only [allocShards, List.length_replicate, Int.toNat_natCast]
  have hmask : (allocShards ((2 ^ e : Nat) : Int) : CMap K V).shardIndex hasher key
      = (hasher key % 2 ^ 32) &&& (if e < 32 then 2 ^ e - 1 else 2 ^ 32 - 1) := by
    show (hasher key % 2 ^ 32) &&& uint32 (((allocShards ((2 ^ e : Nat) : Int) :
      CMap K V).shards.length : Int) - 1) = _
    rw [hlen, uint32_pow_pred]
  have htmask : (Internal.allocShards hasher ((2 ^ e : Nat) : Int) : Internal.CMap K V).mod
      = if e < 32 then 2 ^ e - 1 else 2 ^ 32 - 1 := template_mask_pow e
  have hidx : (Internal.allocShards hasher ((2 ^ e : Nat) : Int) :
      Internal.CMap K V).HashFn key % 2 ^ 32
        &&& (Internal.allocShards hasher ((2 ^ e : Nat) : Int) : Internal.CMap K V).mod
      = (allocShards ((2 ^ e : Nat) : Int) : CMap K V).shardIndex hasher key := by
    rw [hmask, htmask]
    rfl
  refine ⟨CMap.shardIndex_lt hasher _ key hpos, ?_, CMap.exists_shard hasher _ key hpos, ?_,
    hidx, ?_⟩
  · intro hN
    simp only [CMap.NumShards, hlen] at hN ⊢
    rw [hmask]
    have he : e ≤ 32 := by
      by_contra hgt
      have : 2 ^ 32 < 2 ^ e := Nat.pow_lt_pow_right (by decide) (by omega)
      omega
    by_cases he' : e < 32
    · rw [if_pos he', Nat.and_pow_two_sub_one_eq_mod]
    · have he32 : e = 32 := by omega
      subst he32
      rw [if_neg he', Nat.and_pow_two_sub_one_eq_mod]
  · simp only [Internal.CMap.NumShards, CMap.NumShards, Internal.allocShards, allocShards,
      List.length_replicate]
  · obtain ⟨sh, _, hshard⟩ := Internal.CMap.shard_of_mod_lt _ key hmodlt
    rw [hidx] at hshard
    exact ⟨sh, hshard⟩

end ShardIndex

/-! ## The frame of the point operations -/

section Frame

variable {K V : Type}

/-- Replacing the shard of `k` by one that answers like the old one at `k'`
leaves `GetOK(k')` and `Has(k')` unchanged. -/
theorem CMap.frame_of_lookup [DecidableEq K] [Inhabited V] (hasher : K → Nat) (cm : CMap K V)
    (k k' : K) (sh sh' : LMap K V) (hpos : 0 < cm.shards.length)
    (hsh : cm.shards[cm.shardIndex hasher k]? = some sh)
    (hlk : sh'.m.lookup k' = sh.m.lookup k') :
    (CMap.mk (cm.shards.set (cm.shardIndex hasher k) sh')).GetOK hasher k'
        = cm.GetOK hasher k' ∧
    (CMap.mk (cm.shards.set (cm.shardIndex hasher k) sh')).Has hasher k'
        = cm.Has hasher k' ∧
    (CMap.mk (cm.shards.set (cm.shardIndex hasher k) sh')).NumShards = cm.NumShards := by
  have hrep := cm.shard_after_replace hasher k k' sh' hpos
  refine ⟨?_, ?_, ?_⟩
  · simp only [CMap.GetOK]
    rw [hrep]
    by_cases hidx : cm.shardIndex hasher k' = cm.shardIndex hasher k
    · rw [if_pos hidx, hidx, hsh]
      simp only [LMap.GetOK, GoMap.commaOk, hlk]
    · rw [if_neg hidx]
  · simp only [CMap.Has]
    rw [hrep]
    by_cases hidx : cm.shardIndex hasher k' = cm.shardIndex hasher k
    · rw [if_pos hidx, hidx, hsh]
      simp only [LMap.Has, GoMap.commaOk, hlk]
    · rw [if_neg hidx]
  · simp only [CMap.NumShards, List.length_set]

/-- C19: for distinct keys `k` and `k'`, each of `Set(k, _)`,
`SetIfNotExists(k, _)`, `Delete(k)`, `DeleteAndGet(k)`, `Swap(k, _)` and
`Update(k, _)` succeeds, leaves `GetOK(k')` as it was and keeps `NumShards()`.
The read operations `Get`, `GetOK`, `Has`, `Len` and `Keys` are functions of
the map that return no new map. -/
theorem point_ops_frame [DecidableEq K] [Inhabited V] (hasher : K → Nat) (cm : CMap K V)
    (k k' : K) (v : V) (fn : V → V) (hcm : Reachable hasher cm) (hne : k' ≠ k) :
    (∃ cm', cm.Set hasher k v = some cm' ∧
      cm'.GetOK hasher k' = cm.GetOK hasher k' ∧ cm'.NumShards = cm.NumShards) ∧
    (∃ b cm', cm.SetIfNotExists hasher k v = some (b, cm') ∧
      cm'.GetOK hasher k' = cm.GetOK hasher k' ∧ cm'.NumShards = cm.NumShards) ∧
    (∃ cm', cm.Delete hasher k = some cm' ∧
      cm'.GetOK hasher k' = cm.GetOK hasher k' ∧ cm'.NumShards = cm.NumShards) ∧
    (∃ old cm', cm.DeleteAndGet hasher k = some (old, cm') ∧
      cm'.GetOK hasher k' = cm.GetOK hasher k' ∧ cm'.NumShards = cm.NumShards) ∧
    (∃ old cm', cm.Swap hasher k v = some (old, cm') ∧
      cm'.GetOK hasher k' = cm.GetOK hasher k' ∧ cm'.NumShards = cm.NumShards) ∧
    (∃ cm', cm.Update hasher k fn = some cm' ∧
      cm'.GetOK hasher k' = cm.GetOK hasher k' ∧ cm'.NumShards = cm.NumShards) := by
  have hpos := hcm.length_pos
  obtain ⟨sh, hsh⟩ := cm.exists_shard hasher k hpos
  have hins : ∀ w : V, (sh.m.insert k w).lookup k' = sh.m.lookup k' :=
    fun w => AList.lookup_insert_ne hne
  have hers : (sh.m.erase k).lookup k' = sh.m.lookup k' := AList.lookup_erase_ne hne
  refine ⟨?_, ?_, ?_, ?_, ?_, ?_⟩
  · obtain ⟨h1, _, h3⟩ := cm.frame_of_lookup hasher k k' sh (sh.Set k v) hpos hsh (hins v)
    exact ⟨_, cm.Set_of_shard hasher k v sh hsh, h1, h3⟩
  · have hlk : (sh.SetIfNotExists k v).2.m.lookup k' = sh.m.lookup k' := by
      unfold LMap.SetIfNotExists
      split_ifs
      · exact hins v
      · rfl
    obtain ⟨h1, _, h3⟩ := cm.frame_of_lookup hasher k k' sh (sh.SetIfNotExists k v).2 hpos
      hsh hlk
    exact ⟨_, _, cm.SetIfNotExists_of_shard hasher k v sh hsh, h1, h3⟩
  · obtain ⟨h1, _, h3⟩ := cm.frame_of_lookup hasher k k' sh (sh.Delete k) hpos hsh hers
    exact ⟨_, cm.Delete_of_shard hasher k sh hsh, h1, h3⟩
  · obtain ⟨h1, _, h3⟩ := cm.frame_of_lookup hasher k k' sh (sh.DeleteAndGet k).2 hpos hsh hers
    exact ⟨_, _, cm.DeleteAndGet_of_shard hasher k sh hsh, h1, h3⟩
  · obtain ⟨h1, _, h3⟩ := cm.frame_of_lookup hasher k k' sh (sh.Swap k v).2 hpos hsh (hins v)
    exact ⟨_, _, cm.Swap_of_shard hasher k v sh hsh, h1, h3⟩
  · obtain ⟨h1, _, h3⟩ := cm.frame_of_lookup hasher k k' sh (sh.Update k fn) hpos hsh
      (hins _)
    exact ⟨_, cm.Update_of_shard hasher k fn sh hsh, h1, h3⟩

/-- C18: in every map reachable from `NewSize` by the six point operations,
every key stored in shard `i` has `hash(key) & mask = i`, and so no key is
stored in two different shards.  Stated for the `interface{}` variant (`cm`)
and for the template (`tm`). -/
theorem homeShard_invariant [DecidableEq K] [Inhabited V] (hasher : K → Nat) (cm : CMap K V)
    (tm : Internal.CMap K V) (hcm : Reachable hasher cm)
    (htm : Internal.Reachable hasher tm) :
    ((∀ (i : Nat) (sh : LMap K V), cm.shards[i]? = some sh →
        ∀ key ∈ sh.m.keys, cm.shardIndex hasher key = i) ∧
      (∀ (i j : Nat) (shi shj : LMap K V) (key : K),
        cm.shards[i]? = some shi → cm.shards[j]? = some shj →
        key ∈ shi.m.keys → key ∈ shj.m.keys → i = j)) ∧
    ((∀ (i : Nat) (sh : Internal.LockedMap K V), tm.shards[i]? = some sh →
        ∀ key ∈ sh.m.keys, (hasher key % 2 ^ 32) &&& tm.mod = i) ∧
      (∀ (i j : Nat) (shi shj : Internal.LockedMap K V) (key : K),
        tm.shards[i]? = some shi → tm.shards[j]? = some shj →
        key ∈ shi.m.keys → key ∈ shj.m.keys → i = j) ∧
      tm.HashFn = hasher ∧ tm.mod < tm.NumShards) := by
  have h := hcm.homeShard
  obtain ⟨hmod, ht, hfn⟩ := htm.invariant
  have ht' : ∀ (i : Nat) (sh : Internal.LockedMap K V), tm.shards[i]? = some sh →
      ∀ key ∈ sh.m.keys, (hasher key % 2 ^ 32) &&& tm.mod = i := by
    intro i sh hi key hkey
    have := ht i sh hi key hkey
    rw [hfn] at this
    exact this
  refine ⟨⟨h, ?_⟩, ⟨ht', ?_, hfn, hmod⟩⟩
  · intro i j shi shj key hi hj hki hkj
    rw [← h i shi hi key hki, ← h j shj hj key hkj]
  · intro i j shi shj key hi hj hki hkj
    rw [← ht' i shi hi key hki, ← ht' j shj hj key hkj]

end Frame

/-! ## `Len` under `Set` -/

section LenUnderSet

variable {K V : Type}

theorem CMap.Len_after_Set [DecidableEq K] [Inhabited V] (hasher : K → Nat) (cm : CMap K V)
    (k : K) (v : V) (hpos : 0 < cm.shards.length) :
    ∃ cm', cm.Set hasher k v = some cm' ∧
      (cm.Has hasher k = some false → cm'.Len = cm.Len + 1) ∧
      (cm.Has hasher k = some true → cm'.Len = cm.Len) := by
  obtain ⟨sh, hsh⟩ := cm.exists_shard hasher k hpos
  have hlen := cm.Len_replace (cm.shardIndex hasher k) sh (sh.Set k v) hsh
  refine ⟨_, cm.Set_of_shard hasher k v sh hsh, ?_, ?_⟩
  · intro hhas
    rw [cm.Has_of_shard hasher k sh hsh] at hhas
    have habs : sh.m.lookup k = none := by
      rw [← GoMap.commaOk_snd_false]; simpa [LMap.Has] using hhas
    have : (sh.Set k v).Len = sh.Len + 1 := by
      simp only [LMap.Len, LMap.Set]
      exact GoMap.length_insert_of_absent _ _ _ habs
    omega
  · intro hhas
    rw [cm.Has_of_shard hasher k sh hsh] at hhas
    obtain ⟨w, hw⟩ : ∃ w, sh.m.lookup k = some w := by
      rw [← GoMap.commaOk_snd_true]; simpa [LMap.Has] using hhas
    have : (sh.Set k v).Len = sh.Len := by
      simp only [LMap.Len, LMap.Set]
      exact GoMap.length_insert_of_present _ _ _ w hw
    omega

theorem Reachable.keys_after_Set [DecidableEq K] [Inhabited V] {hasher : K → Nat}
    {cm cm' : CMap K V} (hcm : Reachable hasher cm) (k : K) (v : V)
    (hset : cm.Set hasher k v = some cm') :
    cm'.Keys.toFinset = insert k cm.Keys.toFinset ∧
    ∀ k', cm'.GetOK hasher k' = if k = k' then some (v, true) else cm.GetOK hasher k' := by
  have hcm' : Reachable hasher cm' := Reachable.set cm cm' k v hcm hset
  have hpos := hcm.length_pos
  obtain ⟨sh, hsh⟩ := cm.exists_shard hasher k hpos
  rw [cm.Set_of_shard hasher k v sh hsh] at hset
  cases hset
  have hhome := cm.home_after_set hasher k (sh.Set k v) hpos
  constructor
  · ext k'
    rw [List.mem_toFinset, Finset.mem_insert, List.mem_toFinset,
      hcm'.homeShard.mem_keys_iff hcm'.length_pos, hcm.homeShard.mem_keys_iff hpos]
    by_cases hk : k' = k
    · subst hk
      rw [CMap.Has_of_shard hasher _ k' _ hhome]
      simp [LMap.Has, LMap.Set, GoMap.commaOk_insert]
    · rw [(cm.frame_of_lookup hasher k k' sh (sh.Set k v) hpos hsh
        (AList.lookup_insert_ne hk)).2.1]
      simp [hk]
  · intro k'
    by_cases hk : k = k'
    · subst hk
      rw [if_pos rfl, CMap.GetOK_of_shard hasher _ k _ hhome]
      simp only [LMap.GetOK, LMap.Set, GoMap.commaOk_insert]
    · rw [if_neg hk]
      exact (cm.frame_of_lookup hasher k k' sh (sh.Set k v) hpos hsh
        (AList.lookup_insert_ne (fun h => hk h.symm))).1

theorem Reachable.SetAll_spec [DecidableEq K] [Inhabited V] {hasher : K → Nat}
    (kvs : List (K × V)) {cm : CMap K V} (hcm : Reachable hasher cm) :
    ∃ cm1, cm.SetAll hasher kvs = some cm1 ∧ Reachable hasher cm1 ∧
      cm1.Keys.toFinset = cm.Keys.toFinset ∪ (kvs.map Prod.fst).toFinset ∧
      ∀ k, cm1.GetOK hasher k
        = kvs.foldl (fun acc p => if p.1 = k then some (p.2, true) else acc)
            (cm.GetOK hasher k) := by
  induction kvs generalizing cm with
  | nil =>
    exact ⟨cm, rfl, hcm, by simp, fun _ => rfl⟩
  | cons p rest ih =>
    obtain ⟨cm', hset, _, _⟩ := cm.Len_after_Set hasher p.1 p.2 hcm.length_pos
    obtain ⟨hkeys, hget⟩ := hcm.keys_after_Set p.1 p.2 hset
    obtain ⟨cm1, hall, hreach, hk1, hg1⟩ := ih (Reachable.set cm cm' p.1 p.2 hcm hset)
    refine ⟨cm1, ?_, hreach, ?_, ?_⟩
    · simp only [CMap.SetAll, hset, hall]
    · rw [hk1, hkeys]
      ext x
      simp only [Finset.mem_union, Finset.mem_insert, List.mem_toFinset, List.map_cons,
        List.mem_cons]
      tauto
    · intro k
      rw [hg1 k, hget k, List.foldl_cons]

theorem NewSize_keys_nil [DecidableEq K] [Inhabited V] (shardCount : Int) (cm : CMap K V)
    (h : NewSize shardCount = some cm) : cm.Keys = [] := by
  have hlen : cm.Len = 0 := by
    unfold NewSize at h
    split_ifs at h
    · cases h; exact CMap.Len_allocShards _
    · cases h; exact CMap.Len_allocShards _
  exact List.eq_nil_of_length_eq_zero (by rw [cm.Keys_length, hlen])

theorem NewSize_GetOK [DecidableEq K] [Inhabited V] (hasher : K → Nat) (shardCount : Int)
    (cm : CMap K V) (h : NewSize shardCount = some cm) (k : K) :
    cm.GetOK hasher k = some (default, false) := by
  obtain ⟨sh, hsh⟩ := cm.exists_shard hasher k (NewSize_length_pos shardCount cm h)
  have hnil := NewSize_keys_nil shardCount cm h
  rw [cm.GetOK_of_shard hasher k sh hsh]
  have hk : k ∉ sh.m := by
    intro hmem
    have : k ∈ cm.Keys := by
      rw [cm.Keys_eq_flatten, List.mem_flatten]
      exact ⟨sh.m.keys, List.mem_map.mpr ⟨sh, List.mem_iff_getElem?.mpr ⟨_, hsh⟩, rfl⟩,
        AList.mem_keys.mp hmem⟩
    rw [hnil] at this
    cases this
  simp only [LMap.GetOK, GoMap.commaOk, AList.lookup_eq_none.mpr hk]

/-- C17: `Set(k, v)` raises `Len()` by one when `k` was absent and leaves it as it
was when `k` was present; a sequence of `Set` calls on the map of `NewSize`
gives a `Len()` equal to the number of distinct keys set; and
`NewSize(4); Set(a, v1); Set(b, v2); Set(a, v3)` with `a`, `b`, `c` distinct gives
`Len() = 2`, `GetOK(a) = (v3, true)` and `GetOK(c) = (nil, false)`. -/
theorem set_len_spec [DecidableEq K] [Inhabited V] (hasher : K → Nat) (cm cm0 : CMap K V)
    (k : K) (v : V) (kvs : List (K × V)) (shardCount : Int) (a b c : K) (v1 v2 v3 : V)
    (hcm : Reachable hasher cm) (hnew : NewSize shardCount = some cm0)
    (hab : a ≠ b) (hca : c ≠ a) (hcb : c ≠ b) :
    (∃ cm', cm.Set hasher k v = some cm' ∧
      (cm.Has hasher k = some false → cm'.Len = cm.Len + 1) ∧
      (cm.Has hasher k = some true → cm'.Len = cm.Len)) ∧
    (∃ cm1, cm0.SetAll hasher kvs = some cm1 ∧
      cm1.Len = (kvs.map Prod.fst).toFinset.card) ∧
    (∃ cm4 cm2 : CMap K V, NewSize 4 = some cm4 ∧
      cm4.SetAll hasher [(a, v1), (b, v2), (a, v3)] = some cm2 ∧ cm2.Len = 2 ∧
      cm2.GetOK hasher a = some (v3, true) ∧ cm2.GetOK hasher c = some (default, false)) := by
  have hseq : ∀ (n : Int) (c0 : CMap K V) (l : List (K × V)), NewSize n = some c0 →
      ∃ cm1, c0.SetAll hasher l = some cm1 ∧ cm1.Len = (l.map Prod.fst).toFinset.card ∧
        ∀ x, cm1.GetOK hasher x
          = l.foldl (fun acc p => if p.1 = x then some (p.2, true) else acc)
              (some (default, false)) := by
    intro n c0 l hn
    obtain ⟨cm1, hall, hreach, hkeys, hget⟩ :=
      (Reachable.newSize n c0 hn : Reachable hasher c0).SetAll_spec l
    refine ⟨cm1, hall, ?_, ?_⟩
    · rw [← cm1.Keys_length, ← List.toFinset_card_of_nodup hreach.homeShard.keys_nodup, hkeys,
        NewSize_keys_nil n c0 hn]
      simp
    · intro x
      rw [hget x, NewSize_GetOK hasher n c0 hn x]
  refine ⟨cm.Len_after_Set hasher k v hcm.length_pos, ?_, ?_⟩
  · obtain ⟨cm1, hall, hlen, _⟩ := hseq shardCount cm0 kvs hnew
    exact ⟨cm1, hall, hlen⟩
  · obtain ⟨cm2, hall, hlen, hget⟩ :=
      hseq 4 (allocShards 4) [(a, v1), (b, v2), (a, v3)] rfl
    refine ⟨allocShards 4, cm2, rfl, hall, ?_, ?_, ?_⟩
    · rw [hlen]
      simp only [List.map_cons, List.map_nil, List.toFinset_cons, List.toFinset_nil]
      have hba : b ≠ a := fun h => hab h.symm
      simp [hba]
    · rw [hget a]
      simp [List.foldl_cons, List.foldl_nil]
    · rw [hget c]
      have hac : a ≠ c := fun h => hca h.symm
      have hbc : b ≠ c := fun h => hcb h.symm
      simp [List.foldl_cons, List.foldl_nil, hac, hbc]

end LenUnderSet

/-! ## Snapshot and locked traversal deliver the same pairs -/

section SameTraversal

variable {K V C σ : Type}

theorem LMap.ForEachLocked.visit_log_locked (fn : K → V → C × σ → Bool × (C × σ))
    (hgo : ∀ k v w, (fn k v w).1 = true) (hfix : ∀ k v w, (fn k v w).2.1 = w.1)
    (es : List (Sigma fun _ : K => V)) (w : C × (σ × List (K × V × Bool))) :
    (LMap.ForEachLocked.visit (traced fn) es w).1 = true ∧
    (LMap.ForEachLocked.visit (traced fn) es w).2.1 = w.1 ∧
    (LMap.ForEachLocked.visit (traced fn) es w).2.2.2
      = w.2.2 ++ es.map fun e => (e.1, e.2, true) := by
  induction es generalizing w with
  | nil => exact ⟨rfl, rfl, by simp [LMap.ForEachLocked.visit]⟩
  | cons e es ih =>
    simp only [LMap.ForEachLocked.visit, traced, hgo, Bool.true_eq_false, if_false]
    obtain ⟨h1, h2, h3⟩ := ih ((fn e.1 e.2 (w.1, w.2.1)).2.1,
      ((fn e.1 e.2 (w.1, w.2.1)).2.2, w.2.2 ++ [(e.1, e.2, true)]))
    refine ⟨h1, ?_, ?_⟩
    · rw [h2]; exact hfix _ _ _
    · rw [h3]
      simp only [List.map_cons, List.append_assoc, List.singleton_append]

theorem LMap.ForEach.visit_log_snap [DecidableEq K] (g : C → LMap K V)
    (fn : K → V → C × σ → Bool × (C × σ))
    (hgo : ∀ k v w, (fn k v w).1 = true) (hfix : ∀ k v w, (fn k v w).2.1 = w.1)
    (es : List (Sigma fun _ : K => V)) (w : C × (σ × List (K × V × Bool)))
    (hes : ∀ e ∈ es, e ∈ (g w.1).m.entries) :
    (LMap.ForEach.visit (fun w' : C × (σ × List (K × V × Bool)) => g w'.1) (traced fn)
      (es.map Sigma.fst) w).1 = true ∧
    (LMap.ForEach.visit (fun w' : C × (σ × List (K × V × Bool)) => g w'.1) (traced fn)
      (es.map Sigma.fst) w).2.1 = w.1 ∧
    (LMap.ForEach.visit (fun w' : C × (σ × List (K × V × Bool)) => g w'.1) (traced fn)
      (es.map Sigma.fst) w).2.2.2 = w.2.2 ++ es.map fun e => (e.1, e.2, true) := by
  induction es generalizing w with
  | nil => exact ⟨rfl, rfl, by simp [LMap.ForEach.visit]⟩
  | cons e es ih =>
    have hlk : (g w.1).m.lookup e.1 = some e.2 := by
      have hmem : e ∈ (g w.1).m.entries := hes e (List.mem_cons_self _ _)
      have : e.2 ∈ (g w.1).m.lookup e.1 := AList.mem_lookup_iff.mpr (by simpa using hmem)
      exact this
    simp only [List.map_cons, LMap.ForEach.visit, hlk, traced, hgo, Bool.true_eq_false,
      if_false]
    have hes' : ∀ e' ∈ es, e' ∈ (g ((fn e.1 e.2 (w.1, w.2.1)).2.1)).m.entries := by
      intro e' he'
      rw [hfix]
      exact hes e' (List.mem_cons_of_mem _ he')
    obtain ⟨h1, h2, h3⟩ := ih ((fn e.1 e.2 (w.1, w.2.1)).2.1,
      ((fn e.1 e.2 (w.1, w.2.1)).2.2, w.2.2 ++ [(e.1, e.2, true)])) hes'
    refine ⟨h1, ?_, ?_⟩
    · rw [h2]; exact hfix _ _ _
    · rw [h3]
      simp only [List.append_assoc, List.singleton_append]

theorem CMap.ForEachLocked.loop_log_locked [DecidableEq K]
    (fn : K → V → CMap K V × σ → Bool × (CMap K V × σ))
    (hgo : ∀ k v w, (fn k v w).1 = true) (hfix : ∀ k v w, (fn k v w).2.1 = w.1)
    (idxs : List Nat) (w : CMap K V × (σ × List (K × V × Bool))) :
    (CMap.ForEachLocked.loop (traced fn) idxs w).2.1 = w.1 ∧
    (CMap.ForEachLocked.loop (traced fn) idxs w).2.2.2
      = w.2.2 ++ (idxs.map fun i =>
          (w.1.deref i).m.entries.map fun e => (e.1, e.2, true)).flatten := by
  induction idxs generalizing w with
  | nil => exact ⟨rfl, by simp [CMap.ForEachLocked.loop]⟩
  | cons i rest ih =>
    obtain ⟨h1, h2, h3⟩ := LMap.ForEachLocked.visit_log_locked fn hgo hfix (w.1.deref i).m.entries w
    simp only [CMap.ForEachLocked.loop, LMap.ForEachLocked]
    rw [h1]
    simp only [Bool.true_eq_false, if_false]
    obtain ⟨g1, g2⟩ := ih (LMap.ForEachLocked.visit (traced fn) (w.1.deref i).m.entries w).2
    refine ⟨by rw [g1, h2], ?_⟩
    rw [g2, h3, h2]
    simp only [List.map_cons, List.flatten_cons, List.append_assoc]

theorem CMap.ForEach.loop_log_snap [DecidableEq K]
    (fn : K → V → CMap K V × σ → Bool × (CMap K V × σ))
    (hgo : ∀ k v w, (fn k v w).1 = true) (hfix : ∀ k v w, (fn k v w).2.1 = w.1)
    (idxs : List Nat) (w : CMap K V × (σ × List (K × V × Bool))) :
    (CMap.ForEach.loop (traced fn) idxs w).2.1 = w.1 ∧
    (CMap.ForEach.loop (traced fn) idxs w).2.2.2
      = w.2.2 ++ (idxs.map fun i =>
          (w.1.deref i).m.entries.map fun e => (e.1, e.2, true)).flatten := by
  induction idxs generalizing w with
  | nil => exact ⟨rfl, by simp [CMap.ForEach.loop]⟩
  | cons i rest ih =>
    obtain ⟨h1, h2, h3⟩ := LMap.ForEach.visit_log_snap (fun c : CMap K V => c.deref i) fn hgo hfix
      (w.1.deref i).m.entries w (fun e he => he)
    have hkeys : ([] : List K).take 0 ++ (w.1.deref i).m.keys
        = (w.1.deref i).m.entries.map Sigma.fst := rfl
    simp only [CMap.ForEach.loop, LMap.ForEach]
    rw [hkeys, h1]
    simp only [Bool.true_eq_false, if_false]
    obtain ⟨g1, g2⟩ := ih (LMap.ForEach.visit
      (fun w' : CMap K V × (σ × List (K × V × Bool)) => w'.1.deref i) (traced fn)
      ((w.1.deref i).m.entries.map Sigma.fst) w).2
    refine ⟨by rw [g1, h2], ?_⟩
    rw [g2, h3, h2]
    simp only [List.map_cons, List.flatten_cons, List.append_assoc]

theorem flatten_deref_range (cm : CMap K V) {β : Type} (f : LMap K V → List β) :
    ((List.range cm.shards.length).map fun i => f (cm.deref i)).flatten
      = (cm.shards.map f).flatten := by
  have hmm : (List.range cm.shards.length).map (fun i => f (cm.deref i))
      = ((List.range cm.shards.length).map (fun i => cm.deref i)).map f := by
    rw [List.map_map]; rfl
  rw [hmm, map_deref_range]

/-- C20: for a callback that never asks to stop and leaves the map unchanged,
`CMap.ForEach` and `CMap.ForEachLocked` invoke it on the same pairs: the entries
of shard 0, then those of shard 1, and so on, each entry once.  The traversal of
a shard starts from an empty key buffer whatever the pooled buffer holds, and on
a reachable map no key is delivered twice.  When the locked traversal ranges
over the shards in another order of their entries (`cm'`), the two traversals
still deliver the same pairs, up to the order. -/
theorem forEach_same_pairs [DecidableEq K] [Inhabited V] (hasher : K → Nat) (cm : CMap K V)
    (fn : K → V → CMap K V × σ → Bool × (CMap K V × σ)) (s : σ)
    (hgo : ∀ k v w, (fn k v w).1 = true) (hfix : ∀ k v w, (fn k v w).2.1 = w.1) :
    CMap.ForEach.calls cm fn s
      = (cm.shards.map fun sh => sh.m.entries.map fun e => (e.1, e.2, true)).flatten ∧
    CMap.ForEachLocked.calls cm fn s
      = (cm.shards.map fun sh => sh.m.entries.map fun e => (e.1, e.2, true)).flatten ∧
    (∀ (keysP : List K) (i : Nat) (w : CMap K V × σ),
      LMap.ForEach (fun w => w.1.deref i) (keysP.take 0) fn w
        = LMap.ForEach.visit (fun w => w.1.deref i) fn (w.1.deref i).m.keys w) ∧
    (Reachable hasher cm →
      ((CMap.ForEach.calls cm fn s).map fun c => c.1).Nodup) ∧
    (∀ cm' : CMap K V,
      List.Forall₂ (fun sh sh' => sh.m.entries.Perm sh'.m.entries) cm.shards cm'.shards →
      (CMap.ForEach.calls cm fn s).Perm (CMap.ForEachLocked.calls cm' fn s)) := by
  have hlocked : ∀ c : CMap K V, CMap.ForEachLocked.calls c fn s
      = (c.shards.map fun sh => sh.m.entries.map fun e => (e.1, e.2, true)).flatten := by
    intro c
    unfold CMap.ForEachLocked.calls CMap.ForEachLocked
    rw [(CMap.ForEachLocked.loop_log_locked fn hgo hfix _ _).2, List.nil_append]
    exact flatten_deref_range c (fun sh => sh.m.entries.map fun e => (e.1, e.2, true))
  have hsnap : CMap.ForEach.calls cm fn s
      = (cm.shards.map fun sh => sh.m.entries.map fun e => (e.1, e.2, true)).flatten := by
    unfold CMap.ForEach.calls CMap.ForEach
    rw [(CMap.ForEach.loop_log_snap fn hgo hfix _ _).2, List.nil_append]
    exact flatten_deref_range cm (fun sh => sh.m.entries.map fun e => (e.1, e.2, true))
  refine ⟨hsnap, hlocked cm, ?_, ?_, ?_⟩
  · intro keysP i w
    simp only [LMap.ForEach, List.take_zero, List.nil_append]
  · intro hcm
    have hkeys : ((cm.shards.map fun sh => sh.m.entries.map
        fun e => ((e.1, e.2, true) : K × V × Bool)).flatten.map fun c => c.1) = cm.Keys := by
      rw [cm.Keys_eq_flatten, List.map_flatten, List.map_map]
      congr 1
      apply List.map_congr_left
      intro sh _
      simp [AList.keys, List.keys, Function.comp_def]
    rw [hsnap, hkeys]
    exact hcm.homeShard.keys_nodup
  · intro cm' hperm
    rw [hsnap, hlocked cm']
    apply List.Perm.flatten_congr
    rw [List.forall₂_map_left_iff, List.forall₂_map_right_iff]
    exact hperm.imp (fun {_ _} h => h.map _)

end SameTraversal

/-! ## The snapshot traversal of one shard under mutation -/

section SnapshotUnderMutation

variable {K V C σ : Type}

theorem Linked.append_one (start mid stop : C) (l : List (K × V × C × C)) (k : K) (v : V)
    (h : Linked start l mid) : Linked start (l ++ [(k, v, mid, stop)]) stop := by
  induction l generalizing start with
  | nil =>
    simp only [Linked] at h
    subst h
    exact ⟨rfl, rfl⟩
  | cons c rest ih =>
    obtain ⟨h1, h2⟩ := h
    exact ⟨h1, ih _ h2⟩

theorem LMap.ForEach.visit_recorded [DecidableEq K]
    (fn : K → V → LMap K V × σ → Bool × (LMap K V × σ)) (keys : List K)
    (w : LMap K V × (σ × List (K × V × LMap K V × LMap K V))) :
    (LMap.ForEach.visit (fun w' : LMap K V × (σ × List (K × V × LMap K V × LMap K V)) => w'.1)
        (recorded fn) keys w).1
      = (LMap.ForEach.visit (fun w' : LMap K V × σ => w'.1) fn keys (w.1, w.2.1)).1 ∧
    ((LMap.ForEach.visit (fun w' : LMap K V × (σ × List (K × V × LMap K V × LMap K V)) => w'.1)
        (recorded fn) keys w).2.1,
      (LMap.ForEach.visit (fun w' : LMap K V × (σ × List (K × V × LMap K V × LMap K V)) => w'.1)
        (recorded fn) keys w).2.2.1)
      = (LMap.ForEach.visit (fun w' : LMap K V × σ => w'.1) fn keys (w.1, w.2.1)).2 := by
  induction keys generalizing w with
  | nil => exact ⟨rfl, rfl⟩
  | cons key keys ih =>
    simp only [LMap.ForEach.visit]
    cases hlk : w.1.m.lookup key with
    | none => exact ih w
    | some val =>
      simp only [recorded]
      split_ifs
      · exact ⟨rfl, rfl⟩
      · exact ih _

/-- What one run of the second loop adds to the record. -/
theorem LMap.ForEach.visit_moments [DecidableEq K]
    (fn : K → V → LMap K V × σ → Bool × (LMap K V × σ)) (keys : List K)
    (w : LMap K V × (σ × List (K × V × LMap K V × LMap K V))) :
    ∃ ext : List (K × V × LMap K V × LMap K V),
      (LMap.ForEach.visit
        (fun w' : LMap K V × (σ × List (K × V × LMap K V × LMap K V)) => w'.1)
        (recorded fn) keys w).2.2.2 = w.2.2 ++ ext ∧
      (ext.map fun c => c.1).Sublist keys ∧
      (∀ c ∈ ext, c.2.2.1.m.lookup c.1 = some c.2.1) ∧
      Linked w.1 ext (LMap.ForEach.visit
        (fun w' : LMap K V × (σ × List (K × V × LMap K V × LMap K V)) => w'.1)
        (recorded fn) keys w).2.1 ∧
      ((∀ k v w', (fn k v w').1 = true) →
        ∀ k ∈ keys, k ∈ w.1.m.keys → (∀ c ∈ ext, k ∈ c.2.2.2.m.keys) →
          k ∈ ext.map fun c => c.1) := by
  induction keys generalizing w with
  | nil =>
    refine ⟨[], by simp [LMap.ForEach.visit], List.Sublist.refl _, ?_, rfl, ?_⟩
    · intro c hc; cases hc
    · intro _ k hk; cases hk
  | cons key keys ih =>
    simp only [LMap.ForEach.visit]
    cases hlk : w.1.m.lookup key with
    | none =>
      obtain ⟨ext, h1, h2, h3, h4, h5⟩ := ih w
      refine ⟨ext, h1, h2.trans (List.sublist_cons_self _ _), h3, h4, ?_⟩
      intro hgo k hk hpres hall
      rcases List.mem_cons.mp hk with rfl | hk'
      · have : k ∈ w.1.m := AList.mem_keys.mpr hpres
        rw [← AList.lookup_isSome, hlk] at this
        cases this
      · exact h5 hgo k hk' hpres hall
    | some val =>
      simp only [recorded]
      split_ifs with hstop
      · refine ⟨[(key, val, w.1, (fn key val (w.1, w.2.1)).2.1)], rfl, ?_, ?_, ⟨rfl, rfl⟩, ?_⟩
        · simp
        · intro c hc
          simp only [List.mem_singleton] at hc
          subst hc
          exact hlk
        · intro hgo
          rw [hgo] at hstop
          cases hstop
      · obtain ⟨ext, h1, h2, h3, h4, h5⟩ := ih ((fn key val (w.1, w.2.1)).2.1,
          ((fn key val (w.1, w.2.1)).2.2,
            w.2.2 ++ [(key, val, w.1, (fn key val (w.1, w.2.1)).2.1)]))
        refine ⟨(key, val, w.1, (fn key val (w.1, w.2.1)).2.1) :: ext, ?_, ?_, ?_, ⟨rfl, h4⟩, ?_⟩
        · rw [h1]
          simp only [List.append_assoc, List.singleton_append]
        · simpa using h2
        · intro c hc
          rcases List.mem_cons.mp hc with rfl | hc'
          · exact hlk
          · exact h3 c hc'
        · intro hgo k hk _ hall
          rcases List.mem_cons.mp hk with rfl | hk'
          · simp
          · have hnext : k ∈ (fn key val (w.1, w.2.1)).2.1.m.keys :=
              hall _ (List.mem_cons_self _ _)
            have := h5 hgo k hk' hnext (fun c hc => hall c (List.mem_cons_of_mem _ hc))
            simp only [List.map_cons, List.mem_cons]
            exact Or.inr this

/-- C15: the snapshot traversal `LMap.ForEach` of one shard, started with an empty
scratch buffer, with a callback that may change the shard.  The keys of the
invocations are, in order, a selection of the keys the shard had when the
traversal began, no key twice; every invocation `fn(k, v)` is made in a state in
which `k` is present with value `v`, and these states follow one another from
the initial shard to the final one; and when `fn` never asks to stop, every key
that is in the initial shard and in the shard after each invocation is visited,
exactly once. -/
theorem snapshot_forEach_spec [DecidableEq K] (lm : LMap K V)
    (fn : K → V → LMap K V × σ → Bool × (LMap K V × σ)) (s : σ) :
    ((LMap.ForEach.visits lm fn s).map fun c => c.1).Sublist lm.m.keys ∧
    ((LMap.ForEach.visits lm fn s).map fun c => c.1).Nodup ∧
    (∀ c ∈ LMap.ForEach.visits lm fn s, c.2.2.1.m.lookup c.1 = some c.2.1) ∧
    Linked lm (LMap.ForEach.visits lm fn s)
      (LMap.ForEach (fun w => w.1) [] fn (lm, s)).2.1 ∧
    ((∀ k v w, (fn k v w).1 = true) →
      ∀ k ∈ lm.m.keys, (∀ c ∈ LMap.ForEach.visits lm fn s, k ∈ c.2.2.2.m.keys) →
        ((LMap.ForEach.visits lm fn s).map fun c => c.1).count k = 1) := by
  obtain ⟨ext, h1, h2, h3, h4, h5⟩ :=
    LMap.ForEach.visit_moments fn ([] ++ lm.m.keys) (lm, (s, []))
  have hsim := (LMap.ForEach.visit_recorded fn ([] ++ lm.m.keys) (lm, (s, []))).2
  have hvis : LMap.ForEach.visits lm fn s = ext := by
    unfold LMap.ForEach.visits LMap.ForEach
    rw [h1, List.nil_append]
  have hnd : (ext.map fun c => c.1).Nodup := by
    rw [List.nil_append] at h2
    exact h2.nodup lm.m.keys_nodup
  rw [hvis]
  refine ⟨by simpa using h2, hnd, h3, ?_, ?_⟩
  · have hfin : (LMap.ForEach.visit
        (fun w' : LMap K V × (σ × List (K × V × LMap K V × LMap K V)) => w'.1)
        (recorded fn) ([] ++ lm.m.keys) (lm, (s, []))).2.1
        = (LMap.ForEach (fun w => w.1) [] fn (lm, s)).2.1 := by
      have := congrArg Prod.fst hsim
      exact this
    rw [← hfin]
    exact h4
  · intro hgo k hk hall
    have hmem := h5 hgo k (by simpa using hk) hk hall
    exact List.count_eq_one_of_mem hnd hmem

end SnapshotUnderMutation

/-! ## Channel iteration -/

section ChannelIteration

variable {K V : Type}

/-- A property of the state that every continuing call keeps (`Q`) and that
every stopping call leaves in a weaker form (`R`) holds, in the weaker form,
when the second loop of `LMap.ForEach` ends. -/
theorem LMap.ForEach.visit_inv [DecidableEq K] {W : Type} (lm : W → LMap K V)
    (fn : K → V → W → Bool × W) (Q R : W → Prop) (hQR : ∀ w, Q w → R w)
    (hfn : ∀ k v w, Q w →
      ((fn k v w).1 = true → Q (fn k v w).2) ∧ ((fn k v w).1 = false → R (fn k v w).2))
    (keys : List K) (w : W) (hw : Q w) :
    ((LMap.ForEach.visit lm fn keys w).1 = true → Q (LMap.ForEach.visit lm fn keys w).2) ∧
    R (LMap.ForEach.visit lm fn keys w).2 := by
  induction keys generalizing w with
  | nil => exact ⟨fun _ => hw, hQR w hw⟩
  | cons key keys ih =>
    simp only [LMap.ForEach.visit]
    cases hlk : (lm w).m.lookup key with
    | none => exact ih w hw
    | some val =>
      simp only []
      obtain ⟨hgo, hstop⟩ := hfn key val w hw
      split_ifs with hr
      · exact ⟨fun h => (by cases h), hstop hr⟩
      · exact ih _ (hgo (by simpa using hr))

theorem CMap.ForEach.loop_inv [DecidableEq K] {σ : Type}
    (fn : K → V → CMap K V × σ → Bool × (CMap K V × σ)) (Q R : CMap K V × σ → Prop)
    (hQR : ∀ w, Q w → R w)
    (hfn : ∀ k v w, Q w →
      ((fn k v w).1 = true → Q (fn k v w).2) ∧ ((fn k v w).1 = false → R (fn k v w).2))
    (idxs : List Nat) (w : CMap K V × σ) (hw : Q w) :
    R (CMap.ForEach.loop fn idxs w).2 := by
  induction idxs generalizing w with
  | nil => exact hQR w hw
  | cons i rest ih =>
    obtain ⟨h1, h2⟩ := LMap.ForEach.visit_inv (fun w : CMap K V × σ => w.1.deref i) fn Q R hQR
      hfn (([] : List K).take 0 ++ (w.1.deref i).m.keys) w hw
    simp only [CMap.ForEach.loop, LMap.ForEach]
    split_ifs with hr
    · exact h2
    · exact ih _ (h1 (by simpa using hr))

/-- From a state in which every call continues and leaves a state with `N`, a
property that no call destroys: the second loop either finds no key to visit
and changes nothing, or ends in a state with `N`. -/
theorem LMap.ForEach.visit_first [DecidableEq K] {W : Type} (lm : W → LMap K V)
    (fn : K → V → W → Bool × W) (N : W → Prop)
    (hkeep : ∀ k v w, N w → N (fn k v w).2) (w : W)
    (hfirst : ∀ k v, (fn k v w).1 = true ∧ N (fn k v w).2)
    (keys : List K) (hkeys : ∀ k ∈ keys, k ∈ (lm w).m.keys) :
    (keys = [] ∧ LMap.ForEach.visit lm fn keys w = (true, w)) ∨
    N (LMap.ForEach.visit lm fn keys w).2 := by
  cases keys with
  | nil => exact Or.inl ⟨rfl, rfl⟩
  | cons key rest =>
    right
    have hmem : key ∈ (lm w).m := AList.mem_keys.mpr (hkeys key (List.mem_cons_self _ _))
    obtain ⟨val, hval⟩ := Option.isSome_iff_exists.mp (AList.lookup_isSome.mpr hmem)
    simp only [LMap.ForEach.visit, hval]
    obtain ⟨hgo, hN⟩ := hfirst key val
    rw [if_neg (by rw [hgo]; decide)]
    exact (LMap.ForEach.visit_inv lm fn N N (fun _ h => h)
      (fun k v w' hw' => ⟨fun _ => hkeep k v w' hw', fun _ => hkeep k v w' hw'⟩) rest _ hN).2

theorem CMap.ForEach.loop_first [DecidableEq K] {σ : Type}
    (fn : K → V → CMap K V × σ → Bool × (CMap K V × σ)) (N : CMap K V × σ → Prop)
    (hkeep : ∀ k v w, N w → N (fn k v w).2) (w : CMap K V × σ)
    (hfirst : ∀ k v, (fn k v w).1 = true ∧ N (fn k v w).2) (idxs : List Nat) :
    (∀ i ∈ idxs, (w.1.deref i).m.keys = []) ∨ N (CMap.ForEach.loop fn idxs w).2 := by
  induction idxs with
  | nil => exact Or.inl (fun i hi => by cases hi)
  | cons i rest ih =>
    rcases LMap.ForEach.visit_first (fun w : CMap K V × σ => w.1.deref i) fn N hkeep w hfirst
      (([] : List K).take 0 ++ (w.1.deref i).m.keys) (fun k hk => by simpa using hk)
      with ⟨hnil, hsame⟩ | hN
    · simp only [CMap.ForEach.loop, LMap.ForEach, hsame, Bool.true_eq_false, if_false]
      rcases ih with hall | hN
      · left
        intro j hj
        rcases List.mem_cons.mp hj with rfl | hj'
        · simpa using hnil
        · exact hall j hj'
      · exact Or.inr hN
    · right
      simp only [CMap.ForEach.loop, LMap.ForEach]
      split_ifs with hr
      · exact hN
      · exact CMap.ForEach.loop_inv fn N N (fun _ h => h)
          (fun k v w' hw' => ⟨fun _ => hkeep k v w' hw', fun _ => hkeep k v w' hw'⟩) rest _ hN

theorem CMap.Len_pos_nonempty_shard (cm : CMap K V) (hlen : 0 < cm.Len) :
    ¬ ∀ i ∈ List.range cm.shards.length, (cm.deref i).m.keys = [] := by
  intro hall
  have hzero : ∀ sh ∈ cm.shards, LMap.Len sh = 0 := by
    intro sh hsh
    obtain ⟨i, hi⟩ := List.mem_iff_getElem?.mp hsh
    have hlt : i < cm.shards.length := by
      by_contra hge
      rw [List.getElem?_eq_none (by omega)] at hi
      cases hi
    have hkeys := hall i (List.mem_range.mpr hlt)
    have hd : cm.deref i = sh := by
      simp only [CMap.deref, List.getD_eq_getElem?_getD, hi, Option.getD_some]
    rw [hd] at hkeys
    have : sh.m.keys.length = 0 := by rw [hkeys]; rfl
    simpa [LMap.Len, AList.keys, List.keys] using this
  have : cm.Len = 0 := by
    rw [cm.Len_eq_sum]
    apply List.sum_eq_zero
    intro n hn
    obtain ⟨sh, hsh, rfl⟩ := List.mem_map.mp hn
    exact hzero sh hsh
  omega

/-- One `select` with a fired token: which way it goes and what it leaves. -/
theorem CMap.iterContext.fn_fired (env : IterEnv K V (CMap K V)) (hdone : env.done = true) (k : K) (v : V)
    (w : CMap K V × IterChan K V) :
    ((env.receiver = true ∨ w.2.sent.length < w.2.cap) → env.pick w.2.selects = true →
      CMap.iterContext.fn env k v w
        = (true, (if env.receiver then env.react k v w.1 else w.1,
            { w.2 with sent := w.2.sent ++ [(k, v)], selects := w.2.selects + 1 }))) ∧
    (¬ ((env.receiver = true ∨ w.2.sent.length < w.2.cap) ∧ env.pick w.2.selects = true) →
      CMap.iterContext.fn env k v w
        = (false, (w.1, { w.2 with selects := w.2.selects + 1 }))) := by
  constructor
  · intro hsend hpick
    have hcan : (env.receiver || decide (w.2.sent.length < w.2.cap)) = true := by
      rcases hsend with h | h
      · simp [h]
      · simp [h]
    simp only [CMap.iterContext.fn, hdone, hcan, hpick, Bool.and_self, if_true]
  · intro hno
    by_cases hcan : (env.receiver || decide (w.2.sent.length < w.2.cap)) = true
    · have hsend : env.receiver = true ∨ w.2.sent.length < w.2.cap := by
        simpa using hcan
      have hpick : env.pick w.2.selects = false := by
        cases hp : env.pick w.2.selects
        · rfl
        · exact absurd ⟨hsend, hp⟩ hno
      simp [CMap.iterContext.fn, hdone, hcan, hpick]
    · have hcan' : (env.receiver || decide (w.2.sent.length < w.2.cap)) = false := by
        simpa using hcan
      simp [CMap.iterContext.fn, hdone, hcan']

theorem CMap.iter_fired_iface [DecidableEq K] (env : IterEnv K V (CMap K V)) (cm : CMap K V) (buffer : Int)
    (hdone : env.done = true) (hbuf : 0 ≤ buffer) :
    ∃ r, cm.Iter env buffer = some r ∧ r.2.closed = true ∧ r.2.blocked = false ∧
      (∀ n, n < r.2.sent.length → env.pick n = true) ∧
      (env.receiver = false → (r.2.sent.length : Int) ≤ buffer) ∧
      (env.pick 0 = false → r.2.sent = []) ∧
      (env.receiver = false → buffer = 0 → r.2.sent = []) ∧
      (0 < cm.Len → env.pick 0 = true → (env.receiver = true ∨ 0 < buffer) →
        r.2.sent ≠ []) := by
  let ch0 : IterChan K V :=
    { cap := buffer.toNat, sent := [], selects := 0, blocked := false, closed := false }
  let Q : CMap K V × IterChan K V → Prop := fun w =>
    w.2.blocked = false ∧ w.2.selects = w.2.sent.length ∧
    (∀ n, n < w.2.sent.length → env.pick n = true) ∧
    (env.receiver = false → w.2.sent.length ≤ w.2.cap) ∧ w.2.cap = buffer.toNat
  let R : CMap K V × IterChan K V → Prop := fun w =>
    w.2.blocked = false ∧
    (∀ n, n < w.2.sent.length → env.pick n = true) ∧
    (env.receiver = false → w.2.sent.length ≤ w.2.cap) ∧ w.2.cap = buffer.toNat
  have hQR : ∀ w, Q w → R w := fun w h => ⟨h.1, h.2.2.1, h.2.2.2.1, h.2.2.2.2⟩
  have hfn : ∀ k v w, Q w →
      (((CMap.iterContext.fn env k v w).1 = true → Q (CMap.iterContext.fn env k v w).2) ∧
        ((CMap.iterContext.fn env k v w).1 = false → R (CMap.iterContext.fn env k v w).2)) := by
    intro k v w hw
    obtain ⟨hb, hsel, hpk, hcap, hc0⟩ := hw
    obtain ⟨hsendCase, hstopCase⟩ := CMap.iterContext.fn_fired env hdone k v w
    by_cases hgo : (env.receiver = true ∨ w.2.sent.length < w.2.cap) ∧
        env.pick w.2.selects = true
    · rw [hsendCase hgo.1 hgo.2]
      refine ⟨fun _ => ⟨hb, ?_, ?_, ?_, hc0⟩, fun h => (by cases h)⟩
      · simp only [List.length_append, List.length_singleton, hsel]
      · intro n hn
        simp only [List.length_append, List.length_singleton] at hn
        by_cases hlt : n < w.2.sent.length
        · exact hpk n hlt
        · have : n = w.2.selects := by omega
          rw [this]; exact hgo.2
      · intro hrecv
        simp only [List.length_append, List.length_singleton]
        rcases hgo.1 with h | h
        · rw [hrecv] at h; cases h
        · omega
    · rw [hstopCase hgo]
      exact ⟨fun h => (by cases h), fun _ => ⟨hb, hpk, hcap, hc0⟩⟩
  have hQ0 : Q (cm, ch0) :=
    ⟨rfl, rfl, fun n hn => absurd hn (Nat.not_lt_zero n), fun _ => Nat.zero_le _, rfl⟩
  have hR := CMap.ForEach.loop_inv (CMap.iterContext.fn env) Q R hQR hfn
    (List.range cm.shards.length) (cm, ch0) hQ0
  obtain ⟨hblocked, hpicks, hcap, hc0⟩ := hR
  have hrun : cm.Iter env buffer
      = some ((CMap.ForEach.loop (CMap.iterContext.fn env) (List.range cm.shards.length)
          (cm, ch0)).2.1,
        { (CMap.ForEach.loop (CMap.iterContext.fn env) (List.range cm.shards.length)
            (cm, ch0)).2.2 with
          closed := !(CMap.ForEach.loop (CMap.iterContext.fn env)
            (List.range cm.shards.length) (cm, ch0)).2.2.blocked }) := by
    have hnot : ¬ buffer < 0 := by omega
    simp only [CMap.Iter, CMap.runProducer, hnot, if_false, CMap.iterContext, CMap.ForEach]
    rfl
  refine ⟨_, hrun, ?_, hblocked, hpicks, ?_, ?_, ?_, ?_⟩
  · simp only [hblocked, Bool.not_false]
  · intro hrecv
    have := hcap hrecv
    rw [hc0] at this
    show (((CMap.ForEach.loop (CMap.iterContext.fn env) (List.range cm.shards.length)
      (cm, ch0)).2.2.sent.length : Nat) : Int) ≤ buffer
    omega
  · intro hp0
    show (CMap.ForEach.loop (CMap.iterContext.fn env) (List.range cm.shards.length)
      (cm, ch0)).2.2.sent = []
    by_contra hne
    have hpos : 0 < (CMap.ForEach.loop (CMap.iterContext.fn env)
        (List.range cm.shards.length) (cm, ch0)).2.2.sent.length :=
      List.length_pos.mpr hne
    rw [hpicks 0 hpos] at hp0
    cases hp0
  · intro hrecv hzero
    have := hcap hrecv
    rw [hc0, hzero] at this
    show (CMap.ForEach.loop (CMap.iterContext.fn env) (List.range cm.shards.length)
      (cm, ch0)).2.2.sent = []
    exact List.eq_nil_of_length_eq_zero (by simpa using this)
  · intro hlen hp0 hcan
    have hkeep : ∀ k v (w : CMap K V × IterChan K V), w.2.sent ≠ [] →
        (CMap.iterContext.fn env k v w).2.2.sent ≠ [] := by
      intro k v w hw
      obtain ⟨hsendCase, hstopCase⟩ := CMap.iterContext.fn_fired env hdone k v w
      by_cases hgo : (env.receiver = true ∨ w.2.sent.length < w.2.cap) ∧
          env.pick w.2.selects = true
      · rw [hsendCase hgo.1 hgo.2]
        simp
      · rw [hstopCase hgo]
        exact hw
    have hfirst : ∀ k v, (CMap.iterContext.fn env k v (cm, ch0)).1 = true ∧
        (CMap.iterContext.fn env k v (cm, ch0)).2.2.sent ≠ [] := by
      intro k v
      have hsend : env.receiver = true ∨ (cm, ch0).2.sent.length < (cm, ch0).2.cap := by
        rcases hcan with h | h
        · exact Or.inl h
        · right
          show 0 < buffer.toNat
          omega
      rw [(CMap.iterContext.fn_fired env hdone k v (cm, ch0)).1 hsend hp0]
      simp
    rcases CMap.ForEach.loop_first (CMap.iterContext.fn env)
      (fun w => w.2.sent ≠ []) hkeep (cm, ch0) hfirst (List.range cm.shards.length)
      with hall | hN
    · exact absurd hall (cm.Len_pos_nonempty_shard hlen)
    · exact hN

/-! ### The same for the template -/

theorem Internal.LockedMap.ForEach.visit_inv_template [DecidableEq K] {W E : Type}
    (lm : W → Internal.LockedMap K V) (fn : K → V → W → Option E × W) (Q R : W → Prop)
    (hQR : ∀ w, Q w → R w)
    (hfn : ∀ k v w, Q w →
      ((fn k v w).1 = none → Q (fn k v w).2) ∧ ((fn k v w).1 ≠ none → R (fn k v w).2))
    (keys : List K) (w : W) (hw : Q w) :
    ((Internal.LockedMap.ForEach.visit lm fn keys w).1 = none →
      Q (Internal.LockedMap.ForEach.visit lm fn keys w).2) ∧
    R (Internal.LockedMap.ForEach.visit lm fn keys w).2 := by
  induction keys generalizing w with
  | nil => exact ⟨fun _ => hw, hQR w hw⟩
  | cons key keys ih =>
    simp only [Internal.LockedMap.ForEach.visit]
    cases hlk : (lm w).m.lookup key with
    | none => exact ih w hw
    | some val =>
      simp only []
      obtain ⟨hgo, hstop⟩ := hfn key val w hw
      cases hr : (fn key val w).1 with
      | none => exact ih _ (hgo hr)
      | some err =>
        exact ⟨fun h => (by cases h), hstop (by rw [hr]; exact Option.some_ne_none err)⟩

theorem Internal.CMap.ForEach.loop_inv_template [DecidableEq K] {σ E : Type} [DecidableEq E]
    (Break : E) (fn : K → V → Internal.CMap K V × σ → Option E × (Internal.CMap K V × σ))
    (Q R : Internal.CMap K V × σ → Prop) (hQR : ∀ w, Q w → R w)
    (hfn : ∀ k v w, Q w →
      ((fn k v w).1 = none → Q (fn k v w).2) ∧ ((fn k v w).1 ≠ none → R (fn k v w).2))
    (idxs : List Nat) (w : Internal.CMap K V × σ) (hw : Q w) :
    R (Internal.CMap.ForEach.loop Break fn idxs w).2 := by
  induction idxs generalizing w with
  | nil => exact hQR w hw
  | cons i rest ih =>
    obtain ⟨h1, h2⟩ := Internal.LockedMap.ForEach.visit_inv_template
      (fun w : Internal.CMap K V × σ => w.1.deref i) fn Q R hQR hfn
      (([] : List K).take 0 ++ (w.1.deref i).m.keys) w hw
    simp only [Internal.CMap.ForEach.loop, Internal.LockedMap.ForEach]
    cases hr : (Internal.LockedMap.ForEach.visit
      (fun w : Internal.CMap K V × σ => w.1.deref i) fn
      (([] : List K).take 0 ++ (w.1.deref i).m.keys) w).1 with
    | none => exact ih _ (h1 hr)
    | some err =>
      simp only []
      split_ifs
      · exact h2
      · exact h2

theorem Internal.LockedMap.ForEach.visit_first_template [DecidableEq K] {W E : Type}
    (lm : W → Internal.LockedMap K V) (fn : K → V → W → Option E × W) (N : W → Prop)
    (hkeep : ∀ k v w, N w → N (fn k v w).2) (w : W)
    (hfirst : ∀ k v, (fn k v w).1 = none ∧ N (fn k v w).2)
    (keys : List K) (hkeys : ∀ k ∈ keys, k ∈ (lm w).m.keys) :
    (keys = [] ∧ Internal.LockedMap.ForEach.visit lm fn keys w = (none, w)) ∨
    N (Internal.LockedMap.ForEach.visit lm fn keys w).2 := by
  cases keys with
  | nil => exact Or.inl ⟨rfl, rfl⟩
  | cons key rest =>
    right
    have hmem : key ∈ (lm w).m := AList.mem_keys.mpr (hkeys key (List.mem_cons_self _ _))
    obtain ⟨val, hval⟩ := Option.isSome_iff_exists.mp (AList.lookup_isSome.mpr hmem)
    simp only [Internal.LockedMap.ForEach.visit, hval]
    obtain ⟨hgo, hN⟩ := hfirst key val
    rw [hgo]
    exact (Internal.LockedMap.ForEach.visit_inv_template lm fn N N (fun _ h => h)
      (fun k v w' hw' => ⟨fun _ => hkeep k v w' hw', fun _ => hkeep k v w' hw'⟩) rest _ hN).2

theorem Internal.CMap.ForEach.loop_first_template [DecidableEq K] {σ E : Type}
    [DecidableEq E] (Break : E)
    (fn : K → V → Internal.CMap K V × σ → Option E × (Internal.CMap K V × σ))
    (N : Internal.CMap K V × σ → Prop)
    (hkeep : ∀ k v w, N w → N (fn k v w).2) (w : Internal.CMap K V × σ)
    (hfirst : ∀ k v, (fn k v w).1 = none ∧ N (fn k v w).2) (idxs : List Nat) :
    (∀ i ∈ idxs, (w.1.deref i).m.keys = []) ∨
    N (Internal.CMap.ForEach.loop Break fn idxs w).2 := by
  induction idxs with
  | nil => exact Or.inl (fun i hi => by cases hi)
  | cons i rest ih =>
    rcases Internal.LockedMap.ForEach.visit_first_template
      (fun w : Internal.CMap K V × σ => w.1.deref i) fn N hkeep w hfirst
      (([] : List K).take 0 ++ (w.1.deref i).m.keys) (fun k hk => by simpa using hk)
      with ⟨hnil, hsame⟩ | hN
    · simp only [Internal.CMap.ForEach.loop, Internal.LockedMap.ForEach, hsame]
      rcases ih with hall | hN
      · left
        intro j hj
        rcases List.mem_cons.mp hj with rfl | hj'
        · simpa using hnil
        · exact hall j hj'
      · exact Or.inr hN
    · right
      simp only [Internal.CMap.ForEach.loop, Internal.LockedMap.ForEach]
      cases hr : (Internal.LockedMap.ForEach.visit
        (fun w : Internal.CMap K V × σ => w.1.deref i) fn
        (([] : List K).take 0 ++ (w.1.deref i).m.keys) w).1 with
      | none =>
        simp only []
        exact Internal.CMap.ForEach.loop_inv_template Break fn N N (fun _ h => h)
          (fun k v w' hw' => ⟨fun _ => hkeep k v w' hw', fun _ => hkeep k v w' hw'⟩) rest _ hN
      | some err =>
        simp only []
        split_ifs
        · exact hN
        · exact hN

theorem Internal.CMap.iterContext.fn_fired_template {E : Type} (Break : E)
    (env : IterEnv K V (Internal.CMap K V)) (hdone : env.done = true) (k : K) (v : V)
    (w : Internal.CMap K V × IterChan K V) :
    ((env.receiver = true ∨ w.2.sent.length < w.2.cap) → env.pick w.2.selects = true →
      Internal.CMap.iterContext.fn Break env k v w
        = (none, (if env.receiver then env.react k v w.1 else w.1,
            { w.2 with sent := w.2.sent ++ [(k, v)], selects := w.2.selects + 1 }))) ∧
    (¬ ((env.receiver = true ∨ w.2.sent.length < w.2.cap) ∧ env.pick w.2.selects = true) →
      Internal.CMap.iterContext.fn Break env k v w
        = (some Break, (w.1, { w.2 with selects := w.2.selects + 1 }))) := by
  constructor
  · intro hsend hpick
    have hcan : (env.receiver || decide (w.2.sent.length < w.2.cap)) = true := by
      rcases hsend with h | h
      · simp [h]
      · simp [h]
    simp only [Internal.CMap.iterContext.fn, hdone, hcan, hpick, Bool.and_self, if_true]
  · intro hno
    by_cases hcan : (env.receiver || decide (w.2.sent.length < w.2.cap)) = true
    · have hsend : env.receiver = true ∨ w.2.sent.length < w.2.cap := by
        simpa using hcan
      have hpick : env.pick w.2.selects = false := by
        cases hp : env.pick w.2.selects
        · rfl
        · exact absurd ⟨hsend, hp⟩ hno
      simp [Internal.CMap.iterContext.fn, hdone, hcan, hpick]
    · have hcan' : (env.receiver || decide (w.2.sent.length < w.2.cap)) = false := by
        simpa using hcan
      simp [Internal.CMap.iterContext.fn, hdone, hcan']

theorem Internal.CMap.Len_pos_nonempty_shard_template (cm : Internal.CMap K V)
    (hlen : 0 < cm.Len) :
    ¬ ∀ i ∈ List.range cm.shards.length, (cm.deref i).m.keys = [] := by
  intro hall
  have hzero : ∀ sh ∈ cm.shards, Internal.LockedMap.Len sh = 0 := by
    intro sh hsh
    obtain ⟨i, hi⟩ := List.mem_iff_getElem?.mp hsh
    have hlt : i < cm.shards.length := by
      by_contra hge
      rw [List.getElem?_eq_none (by omega)] at hi
      cases hi
    have hkeys := hall i (List.mem_range.mpr hlt)
    have hd : cm.deref i = sh := by
      simp only [Internal.CMap.deref, List.getD_eq_getElem?_getD, hi, Option.getD_some]
    rw [hd] at hkeys
    have : sh.m.keys.length = 0 := by rw [hkeys]; rfl
    simpa [Internal.LockedMap.Len, AList.keys, List.keys] using this
  have : cm.Len = 0 := by
    unfold Internal.CMap.Len
    rw [← List.foldl_map (f := Internal.LockedMap.Len) (g := fun (ln : Nat) n => ln + n),
      ← List.sum_eq_foldl]
    apply List.sum_eq_zero
    intro n hn
    obtain ⟨sh, hsh, rfl⟩ := List.mem_map.mp hn
    exact hzero sh hsh
  omega

theorem Internal.CMap.iter_fired_template [DecidableEq K] {E : Type} [DecidableEq E]
    (Break : E) (env : IterEnv K V (Internal.CMap K V)) (cm : Internal.CMap K V)
    (buffer : Int) (hdone : env.done = true) (hbuf : 0 ≤ buffer) :
    ∃ r, cm.Iter Break env buffer = some r ∧ r.2.closed = true ∧ r.2.blocked = false ∧
      (∀ n, n < r.2.sent.length → env.pick n = true) ∧
      (env.receiver = false → (r.2.sent.length : Int) ≤ buffer) ∧
      (env.pick 0 = false → r.2.sent = []) ∧
      (env.receiver = false → buffer = 0 → r.2.sent = []) ∧
      (0 < cm.Len → env.pick 0 = true → (env.receiver = true ∨ 0 < buffer) →
        r.2.sent ≠ []) := by
  let ch0 : IterChan K V :=
    { cap := buffer.toNat, sent := [], selects := 0, blocked := false, closed := false }
  let Q : Internal.CMap K V × IterChan K V → Prop := fun w =>
    w.2.blocked = false ∧ w.2.selects = w.2.sent.length ∧
    (∀ n, n < w.2.sent.length → env.pick n = true) ∧
    (env.receiver = false → w.2.sent.length ≤ w.2.cap) ∧ w.2.cap = buffer.toNat
  let R : Internal.CMap K V × IterChan K V → Prop := fun w =>
    w.2.blocked = false ∧
    (∀ n, n < w.2.sent.length → env.pick n = true) ∧
    (env.receiver = false → w.2.sent.length ≤ w.2.cap) ∧ w.2.cap = buffer.toNat
  have hQR : ∀ w, Q w → R w := fun w h => ⟨h.1, h.2.2.1, h.2.2.2.1, h.2.2.2.2⟩
  have hfn : ∀ k v w, Q w →
      (((Internal.CMap.iterContext.fn Break env k v w).1 = none →
          Q (Internal.CMap.iterContext.fn Break env k v w).2) ∧
        ((Internal.CMap.iterContext.fn Break env k v w).1 ≠ none →
          R (Internal.CMap.iterContext.fn Break env k v w).2)) := by
    intro k v w hw
    obtain ⟨hb, hsel, hpk, hcap, hc0⟩ := hw
    obtain ⟨hsendCase, hstopCase⟩ :=
      Internal.CMap.iterContext.fn_fired_template Break env hdone k v w
    by_cases hgo : (env.receiver = true ∨ w.2.sent.length < w.2.cap) ∧
        env.pick w.2.selects = true
    · rw [hsendCase hgo.1 hgo.2]
      refine ⟨fun _ => ⟨hb, ?_, ?_, ?_, hc0⟩, fun h => absurd rfl h⟩
      · simp only [List.length_append, List.length_singleton, hsel]
      · intro n hn
        simp only [List.length_append, List.length_singleton] at hn
        by_cases hlt : n < w.2.sent.length
        · exact hpk n hlt
        · have : n = w.2.selects := by omega
          rw [this]; exact hgo.2
      · intro hrecv
        simp only [List.length_append, List.length_singleton]
        rcases hgo.1 with h | h
        · rw [hrecv] at h; cases h
        · omega
    · rw [hstopCase hgo]
      exact ⟨fun h => (by cases h), fun _ => ⟨hb, hpk, hcap, hc0⟩⟩
  have hQ0 : Q (cm, ch0) :=
    ⟨rfl, rfl, fun n hn => absurd hn (Nat.not_lt_zero n), fun _ => Nat.zero_le _, rfl⟩
  have hR := Internal.CMap.ForEach.loop_inv_template Break
    (Internal.CMap.iterContext.fn Break env) Q R hQR hfn
    (List.range cm.shards.length) (cm, ch0) hQ0
  obtain ⟨hblocked, hpicks, hcap, hc0⟩ := hR
  have hrun : cm.Iter Break env buffer
      = some ((Internal.CMap.ForEach.loop Break (Internal.CMap.iterContext.fn Break env)
          (List.range cm.shards.length) (cm, ch0)).2.1,
        { (Internal.CMap.ForEach.loop Break (Internal.CMap.iterContext.fn Break env)
            (List.range cm.shards.length) (cm, ch0)).2.2 with
          closed := !(Internal.CMap.ForEach.loop Break (Internal.CMap.iterContext.fn Break env)
            (List.range cm.shards.length) (cm, ch0)).2.2.blocked }) := by
    have hnot : ¬ buffer < 0 := by omega
    simp only [Internal.CMap.Iter, Internal.CMap.runProducer, hnot, if_false,
      Internal.CMap.iterContext, Internal.CMap.ForEach]
    rfl
  refine ⟨_, hrun, ?_, hblocked, hpicks, ?_, ?_, ?_, ?_⟩
  · simp only [hblocked, Bool.not_false]
  · intro hrecv
    have := hcap hrecv
    rw [hc0] at this
    show (((Internal.CMap.ForEach.loop Break (Internal.CMap.iterContext.fn Break env)
      (List.range cm.shards.length) (cm, ch0)).2.2.sent.length : Nat) : Int) ≤ buffer
    omega
  · intro hp0
    show (Internal.CMap.ForEach.loop Break (Internal.CMap.iterContext.fn Break env)
      (List.range cm.shards.length) (cm, ch0)).2.2.sent = []
    by_contra hne
    have hpos : 0 < (Internal.CMap.ForEach.loop Break (Internal.CMap.iterContext.fn Break env)
        (List.range cm.shards.length) (cm, ch0)).2.2.sent.length :=
      List.length_pos.mpr hne
    rw [hpicks 0 hpos] at hp0
    cases hp0
  · intro hrecv hzero
    have := hcap hrecv
    rw [hc0, hzero] at this
    show (Internal.CMap.ForEach.loop Break (Internal.CMap.iterContext.fn Break env)
      (List.range cm.shards.length) (cm, ch0)).2.2.sent = []
    exact List.eq_nil_of_length_eq_zero (by simpa using this)
  · intro hlen hp0 hcan
    have hkeep : ∀ k v (w : Internal.CMap K V × IterChan K V), w.2.sent ≠ [] →
        (Internal.CMap.iterContext.fn Break env k v w).2.2.sent ≠ [] := by
      intro k v w hw
      obtain ⟨hsendCase, hstopCase⟩ :=
        Internal.CMap.iterContext.fn_fired_template Break env hdone k v w
      by_cases hgo : (env.receiver = true ∨ w.2.sent.length < w.2.cap) ∧
          env.pick w.2.selects = true
      · rw [hsendCase hgo.1 hgo.2]
        simp
      · rw [hstopCase hgo]
        exact hw
    have hfirst : ∀ k v, (Internal.CMap.iterContext.fn Break env k v (cm, ch0)).1 = none ∧
        (Internal.CMap.iterContext.fn Break env k v (cm, ch0)).2.2.sent ≠ [] := by
      intro k v
      have hsend : env.receiver = true ∨ (cm, ch0).2.sent.length < (cm, ch0).2.cap := by
        rcases hcan with h | h
        · exact Or.inl h
        · right
          show 0 < buffer.toNat
          omega
      rw [(Internal.CMap.iterContext.fn_fired_template Break env hdone k v (cm, ch0)).1
        hsend hp0]
      simp
    rcases Internal.CMap.ForEach.loop_first_template Break
      (Internal.CMap.iterContext.fn Break env)
      (fun w => w.2.sent ≠ []) hkeep (cm, ch0) hfirst (List.range cm.shards.length)
      with hall | hN
    · exact absurd hall (cm.Len_pos_nonempty_shard_template hlen)
    · exact hN

/-- C14 (amended): `Iter(ctx, buffer)` with a token that has already fired
closes the channel and is never left blocked.  Every pair it published was
published by a `select` that took the send case; with nobody receiving at most
`buffer` pairs are published.  So no pair is published when the first `select`
takes the cancellation case, and none when the capacity is 0 and no receiver is
waiting; but on a non-empty map, when the first `select` can send (a waiting
receiver or a free buffer slot) and takes the send case, a pair is published.
Stated for the `interface{}` variant (`cm`, `env`) and the template (`tm`,
`tenv`). -/
theorem iter_fired_spec [DecidableEq K] {E : Type} [DecidableEq E] (Break : E)
    (env : IterEnv K V (CMap K V)) (tenv : IterEnv K V (Internal.CMap K V))
    (cm : CMap K V) (tm : Internal.CMap K V) (buffer : Int)
    (hdone : env.done = true) (htdone : tenv.done = true) (hbuf : 0 ≤ buffer) :
    (∃ r, cm.Iter env buffer = some r ∧ r.2.closed = true ∧ r.2.blocked = false ∧
      (∀ n, n < r.2.sent.length → env.pick n = true) ∧
      (env.receiver = false → (r.2.sent.length : Int) ≤ buffer) ∧
      (env.pick 0 = false → r.2.sent = []) ∧
      (env.receiver = false → buffer = 0 → r.2.sent = []) ∧
      (0 < cm.Len → env.pick 0 = true → (env.receiver = true ∨ 0 < buffer) →
        r.2.sent ≠ [])) ∧
    (∃ r, tm.Iter Break tenv buffer = some r ∧ r.2.closed = true ∧ r.2.blocked = false ∧
      (∀ n, n < r.2.sent.length → tenv.pick n = true) ∧
      (tenv.receiver = false → (r.2.sent.length : Int) ≤ buffer) ∧
      (tenv.pick 0 = false → r.2.sent = []) ∧
      (tenv.receiver = false → buffer = 0 → r.2.sent = []) ∧
      (0 < tm.Len → tenv.pick 0 = true → (tenv.receiver = true ∨ 0 < buffer) →
        r.2.sent ≠ [])) :=
  ⟨CMap.iter_fired_iface env cm buffer hdone hbuf,
    Internal.CMap.iter_fired_template Break tenv tm buffer htdone hbuf⟩

/-- C13, the code at a failing input: on the map holding 5 and 1 in shard 1 and 2
in shard 2, with a channel of capacity 3 and a receiver that deletes key 1 when
it is handed key 5, `IterLocked` does what `Iter` does and publishes
`(5, 50), (2, 20)`: key 1 is skipped, as the snapshot traversal skips deleted
keys.  The producer on the locked path publishes all three pairs.  The same in
the template (with `Break = 0` among numbered errors). -/
theorem iterLocked_takes_snapshot_path :
    (exMap.IterLocked exDeletingEnv 3 = exMap.Iter exDeletingEnv 3 ∧
      (exMap.IterLocked exDeletingEnv 3).map (fun r => r.2.sent)
        = some [(5, some 50), (2, some 20)] ∧
      (exMap.runProducer exDeletingEnv 3 true).map (fun r => r.2.sent)
        = some [(5, some 50), (1, some 10), (2, some 20)]) ∧
    (exTemplateMap.IterLocked (0 : Nat) exDeletingTemplateEnv 3
        = exTemplateMap.Iter (0 : Nat) exDeletingTemplateEnv 3 ∧
      (exTemplateMap.IterLocked (0 : Nat) exDeletingTemplateEnv 3).map (fun r => r.2.sent)
        = some [(5, some 50), (2, some 20)] ∧
      (exTemplateMap.runProducer (0 : Nat) exDeletingTemplateEnv 3 true).map
          (fun r => r.2.sent)
        = some [(5, some 50), (1, some 10), (2, some 20)]) :=
  ⟨⟨rfl, rfl, rfl⟩, ⟨rfl, rfl, rfl⟩⟩

/-- C14, as stated, fails: on the map holding keys 5, 1 and 2, with a fired
token, a channel of capacity 1 and a `select` that takes the send case while it
can, `Iter` publishes the pair `(5, 50)` before it closes the channel; so does
`Iter` of the template. -/
theorem iter_fired_counterexample :
    (exFiredEnv.done = true ∧ 0 < exMap.Len ∧
      (exMap.Iter exFiredEnv 1).map (fun r => (r.2.sent, r.2.closed))
        = some ([(5, some 50)], true)) ∧
    (exFiredTemplateEnv.done = true ∧ 0 < exTemplateMap.Len ∧
      (exTemplateMap.Iter (0 : Nat) exFiredTemplateEnv 1).map
          (fun r => (r.2.sent, r.2.closed))
        = some ([(5, some 50)], true)) :=
  ⟨⟨rfl, by decide, rfl⟩, ⟨rfl, by decide, rfl⟩⟩

end ChannelIteration

/-! ## Further theorems on concrete maps -/

section ConcreteFurther

theorem shardDistribution_spec_witness :
    0 < exMap.Len ∧
    (exMap.ShardDistribution.length = exMap.NumShards ∧
      (∀ (i : Nat) (sh : LMap Nat (Option Nat)), exMap.shards[i]? = some sh →
        exMap.ShardDistribution[i]? = some ((sh.Len : ℚ) / (exMap.Len : ℚ))) ∧
      exMap.ShardDistribution.sum = 1) :=
  ⟨by decide, shardDistribution_spec exMap (by decide)⟩

theorem exTemplateMap_reachable : Internal.Reachable exHash exTemplateMap :=
  Internal.Reachable.set _ exTemplateMap 2 (some 20)
    (Internal.Reachable.set _ _ 5 (some 50)
      (Internal.Reachable.set exTemplate _ 1 (some 10)
        (Internal.Reachable.newSize 4 exTemplate rfl) rfl) rfl) rfl

theorem keys_order_spec_witness :
    (Reachable exHash exMap ∧ Internal.Reachable exHash exTemplateMap) ∧
    ((exMap.Keys = (exMap.shards.map fun sh => sh.m.keys).flatten ∧
        (∀ (i j : Nat) (shi shj : LMap Nat (Option Nat)) (a b : Nat), i < j →
          exMap.shards[i]? = some shi → exMap.shards[j]? = some shj →
          a ∈ shi.m.keys → b ∈ shj.m.keys → [a, b].Sublist exMap.Keys) ∧
        (∀ k, k ∈ exMap.Keys ↔ exMap.Has exHash k = some true)) ∧
      (exTemplateMap.Keys = (exTemplateMap.shards.map fun sh => sh.m.keys).flatten ∧
        (∀ (i j : Nat) (shi shj : Internal.LockedMap Nat (Option Nat)) (a b : Nat), i < j →
          exTemplateMap.shards[i]? = some shi → exTemplateMap.shards[j]? = some shj →
          a ∈ shi.m.keys → b ∈ shj.m.keys → [a, b].Sublist exTemplateMap.Keys) ∧
        (∀ k, k ∈ exTemplateMap.Keys ↔ exTemplateMap.Has k = some true))) :=
  ⟨⟨exMap_reachable, exTemplateMap_reachable⟩,
    keys_order_spec exHash exMap exTemplateMap exMap_reachable exTemplateMap_reachable⟩

theorem iter_fired_spec_witness :
    (exFiredEnv.done = true ∧ exFiredTemplateEnv.done = true ∧ (0 : Int) ≤ 1) ∧
    ((∃ r, exMap.Iter exFiredEnv 1 = some r ∧ r.2.closed = true ∧ r.2.blocked = false ∧
        (∀ n, n < r.2.sent.length → exFiredEnv.pick n = true) ∧
        (exFiredEnv.receiver = false → (r.2.sent.length : Int) ≤ 1) ∧
        (exFiredEnv.pick 0 = false → r.2.sent = []) ∧
        (exFiredEnv.receiver = false → (1 : Int) = 0 → r.2.sent = []) ∧
        (0 < exMap.Len → exFiredEnv.pick 0 = true →
          (exFiredEnv.receiver = true ∨ (0 : Int) < 1) → r.2.sent ≠ [])) ∧
      (∃ r, exTemplateMap.Iter (0 : Nat) exFiredTemplateEnv 1 = some r ∧
        r.2.closed = true ∧ r.2.blocked = false ∧
        (∀ n, n < r.2.sent.length → exFiredTemplateEnv.pick n = true) ∧
        (exFiredTemplateEnv.receiver = false → (r.2.sent.length : Int) ≤ 1) ∧
        (exFiredTemplateEnv.pick 0 = false → r.2.sent = []) ∧
        (exFiredTemplateEnv.receiver = false → (1 : Int) = 0 → r.2.sent = []) ∧
        (0 < exTemplateMap.Len → exFiredTemplateEnv.pick 0 = true →
          (exFiredTemplateEnv.receiver = true ∨ (0 : Int) < 1) → r.2.sent ≠ []))) :=
  ⟨⟨rfl, rfl, by decide⟩,
    iter_fired_spec (0 : Nat) exFiredEnv exFiredTemplateEnv exMap exTemplateMap 1 rfl rfl
      (by decide)⟩

theorem shardIndex_spec_witness :
    (NewSize 4 = some exEmpty ∧ Internal.NewSize exHash 4 = some exTemplate) ∧
    (exEmpty.shardIndex exHash 7 < exEmpty.NumShards ∧
      (exEmpty.NumShards ≤ 2 ^ 32 →
        exEmpty.shardIndex exHash 7 = (exHash 7 % 2 ^ 32) % exEmpty.NumShards) ∧
      (∃ sh, exEmpty.ShardForKey exHash 7 = some sh) ∧
      exTemplate.NumShards = exEmpty.NumShards ∧
      (exTemplate.HashFn 7 % 2 ^ 32) &&& exTemplate.mod = exEmpty.shardIndex exHash 7 ∧
      (∃ sh, exTemplate.shard 7 = some (exEmpty.shardIndex exHash 7, sh))) :=
  ⟨⟨rfl, rfl⟩, shardIndex_spec exHash 4 exEmpty exTemplate 7 rfl rfl⟩

theorem set_len_spec_witness :
    (Reachable exHash exMap ∧ NewSize 4 = some exEmpty ∧ (1 : Nat) ≠ 2 ∧ (3 : Nat) ≠ 1 ∧
      (3 : Nat) ≠ 2) ∧
    ((∃ cm', exMap.Set exHash 9 (some 90) = some cm' ∧
        (exMap.Has exHash 9 = some false → cm'.Len = exMap.Len + 1) ∧
        (exMap.Has exHash 9 = some true → cm'.Len = exMap.Len)) ∧
      (∃ cm1, exEmpty.SetAll exHash [(1, some 1), (2, some 2), (1, some 3)] = some cm1 ∧
        cm1.Len = ([(1, some 1), (2, some 2), (1, some 3)].map Prod.fst).toFinset.card) ∧
      (∃ cm4 cm2 : CMap Nat (Option Nat), NewSize 4 = some cm4 ∧
        cm4.SetAll exHash [(1, some 1), (2, some 2), (1, some 3)] = some cm2 ∧ cm2.Len = 2 ∧
        cm2.GetOK exHash 1 = some (some 3, true) ∧
        cm2.GetOK exHash 3 = some (default, false))) :=
  ⟨⟨exMap_reachable, rfl, by decide, by decide, by decide⟩,
    set_len_spec exHash exMap exEmpty 9 (some 90) [(1, some 1), (2, some 2), (1, some 3)] 4
      1 2 3 (some 1) (some 2) (some 3) exMap_reachable rfl (by decide) (by decide)
      (by decide)⟩

theorem homeShard_invariant_witness :
    (Reachable exHash exMap ∧ Internal.Reachable exHash exTemplateMap) ∧
    (((∀ (i : Nat) (sh : LMap Nat (Option Nat)), exMap.shards[i]? = some sh →
          ∀ key ∈ sh.m.keys, exMap.shardIndex exHash key = i) ∧
        (∀ (i j : Nat) (shi shj : LMap Nat (Option Nat)) (key : Nat),
          exMap.shards[i]? = some shi → exMap.shards[j]? = some shj →
          key ∈ shi.m.keys → key ∈ shj.m.keys → i = j)) ∧
      ((∀ (i : Nat) (sh : Internal.LockedMap Nat (Option Nat)),
          exTemplateMap.shards[i]? = some sh →
          ∀ key ∈ sh.m.keys, (exHash key % 2 ^ 32) &&& exTemplateMap.mod = i) ∧
        (∀ (i j : Nat) (shi shj : Internal.LockedMap Nat (Option Nat)) (key : Nat),
          exTemplateMap.shards[i]? = some shi → exTemplateMap.shards[j]? = some shj →
          key ∈ shi.m.keys → key ∈ shj.m.keys → i = j) ∧
        exTemplateMap.HashFn = exHash ∧ exTemplateMap.mod < exTemplateMap.NumShards)) :=
  ⟨⟨exMap_reachable, exTemplateMap_reachable⟩,
    homeShard_invariant exHash exMap exTemplateMap exMap_reachable exTemplateMap_reachable⟩

theorem point_ops_frame_witness :
    (Reachable exHash exMap ∧ (5 : Nat) ≠ 1) ∧
    ((∃ cm', exMap.Set exHash 1 (some 11) = some cm' ∧
        cm'.GetOK exHash 5 = exMap.GetOK exHash 5 ∧ cm'.NumShards = exMap.NumShards) ∧
      (∃ b cm', exMap.SetIfNotExists exHash 1 (some 11) = some (b, cm') ∧
        cm'.GetOK exHash 5 = exMap.GetOK exHash 5 ∧ cm'.NumShards = exMap.NumShards) ∧
      (∃ cm', exMap.Delete exHash 1 = some cm' ∧
        cm'.GetOK exHash 5 = exMap.GetOK exHash 5 ∧ cm'.NumShards = exMap.NumShards) ∧
      (∃ old cm', exMap.DeleteAndGet exHash 1 = some (old, cm') ∧
        cm'.GetOK exHash 5 = exMap.GetOK exHash 5 ∧ cm'.NumShards = exMap.NumShards) ∧
      (∃ old cm', exMap.Swap exHash 1 (some 11) = some (old, cm') ∧
        cm'.GetOK exHash 5 = exMap.GetOK exHash 5 ∧ cm'.NumShards = exMap.NumShards) ∧
      (∃ cm', exMap.Update exHash 1 (fun _ => some 12) = some cm' ∧
        cm'.GetOK exHash 5 = exMap.GetOK exHash 5 ∧ cm'.NumShards = exMap.NumShards)) :=
  ⟨⟨exMap_reachable, by decide⟩,
    point_ops_frame exHash exMap 1 5 (some 11) (fun _ => some 12) exMap_reachable
      (by decide)⟩

theorem forEach_same_pairs_witness :
    ((∀ k v w, (exCount k v w).1 = true) ∧ (∀ k v w, (exCount k v w).2.1 = w.1)) ∧
    (CMap.ForEach.calls exMap exCount 0
        = (exMap.shards.map fun sh => sh.m.entries.map fun e => (e.1, e.2, true)).flatten ∧
      CMap.ForEachLocked.calls exMap exCount 0
        = (exMap.shards.map fun sh => sh.m.entries.map fun e => (e.1, e.2, true)).flatten ∧
      (∀ (keysP : List Nat) (i : Nat) (w : CMap Nat (Option Nat) × Nat),
        LMap.ForEach (fun w => w.1.deref i) (keysP.take 0) exCount w
          = LMap.ForEach.visit (fun w => w.1.deref i) exCount (w.1.deref i).m.keys w) ∧
      (Reachable exHash exMap →
        ((CMap.ForEach.calls exMap exCount 0).map fun c => c.1).Nodup) ∧
      (∀ cm' : CMap Nat (Option Nat),
        List.Forall₂ (fun sh sh' => sh.m.entries.Perm sh'.m.entries) exMap.shards cm'.shards →
        (CMap.ForEach.calls exMap exCount 0).Perm (CMap.ForEachLocked.calls cm' exCount 0))) :=
  ⟨⟨fun _ _ _ => rfl, fun _ _ _ => rfl⟩,
    forEach_same_pairs exHash exMap exCount 0 (fun _ _ _ => rfl) (fun _ _ _ => rfl)⟩

/-- C6, as stated, fails: `1 << 62` is a power of two and at least 1, yet
`NewSize(1 << 62)` panics in `make` instead of returning a map of `1 << 62`
shards: in the run that has memory for `2 ^ 45` shards, and in every run that
has memory for fewer than `2 ^ 62`.  So does `NewSize` of the template. -/
theorem newSize_huge_counterexample :
    ((1 : Int) ≤ 2 ^ 62 ∧ ∃ e : Nat, (2 ^ 62 : Int) = 2 ^ e) ∧
    (NewSize.within exMaxLen (2 ^ 62) : Option (CMap Nat (Option Nat))) = none ∧
    (Internal.NewSize.within exMaxLen exHash (2 ^ 62)
      : Option (Internal.CMap Nat (Option Nat))) = none ∧
    (∀ maxLen : Nat, maxLen < 2 ^ 62 →
      (NewSize.within maxLen (2 ^ 62) : Option (CMap Nat (Option Nat))) = none ∧
      (Internal.NewSize.within maxLen exHash (2 ^ 62)
        : Option (Internal.CMap Nat (Option Nat))) = none) := by
  have hlen : ((2 ^ 62 : Int)).toNat = 2 ^ 62 := by omega
  have hnot : ¬ ((2 ^ 62 : Int) < 1) := by norm_num
  have hall : ∀ maxLen : Nat, maxLen < 2 ^ 62 →
      (NewSize.within maxLen (2 ^ 62) : Option (CMap Nat (Option Nat))) = none ∧
      (Internal.NewSize.within maxLen exHash (2 ^ 62)
        : Option (Internal.CMap Nat (Option Nat))) = none := by
    intro maxLen hm
    have hbig : ¬ (if (2 ^ 62 : Int) < 1 then 256 else ((2 ^ 62 : Int)).toNat) ≤ maxLen := by
      rw [if_neg hnot, hlen]
      omega
    rw [NewSize.within_eq, Internal.NewSize.within_eq_template, if_neg hbig, if_neg hbig]
    exact ⟨rfl, rfl⟩
  have h45 : exMaxLen < 2 ^ 62 := by decide
  exact ⟨⟨by norm_num, 62, rfl⟩, (hall exMaxLen h45).1, (hall exMaxLen h45).2, hall⟩

/-- C6 at `exMaxLen`: `NewSize(8)` returns an empty map of 8 shards and
`NewSize(0)` an empty map of 256 shards, in both variants; `NewSize(6)` panics,
and the theorem gives the reason. -/
theorem newSize_spec_witness :
    (∃ cm : CMap Nat (Option Nat),
      NewSize.within exMaxLen 8 = some cm ∧ cm.Len = 0 ∧ (cm.NumShards : Int) = 8) ∧
    (∃ cm : CMap Nat (Option Nat),
      NewSize.within exMaxLen 0 = some cm ∧ cm.Len = 0 ∧ cm.NumShards = 256) ∧
    (∃ cm : Internal.CMap Nat (Option Nat),
      Internal.NewSize.within exMaxLen exHash 8 = some cm ∧ cm.Len = 0 ∧
        (cm.NumShards : Int) = 8) ∧
    (∃ cm : Internal.CMap Nat (Option Nat),
      Internal.NewSize.within exMaxLen exHash 0 = some cm ∧ cm.Len = 0 ∧
        cm.NumShards = 256) ∧
    ((NewSize.within exMaxLen 6 : Option (CMap Nat (Option Nat))) = none ∧
      (((1 : Int) ≤ 6 ∧ ¬ ∃ e : Nat, (6 : Int) = 2 ^ e) ∨
        exMaxLen < (if (6 : Int) < 1 then 256 else (6 : Int).toNat))) :=
  ⟨(newSize_spec exHash exMaxLen 8).1.2.2.1 ⟨3, by norm_num⟩ (by decide),
    (newSize_spec exHash exMaxLen 0).1.2.1 (by decide) (by decide),
    (newSize_spec exHash exMaxLen 8).2.2.2.1 ⟨3, by norm_num⟩ (by decide),
    (newSize_spec exHash exMaxLen 0).2.2.1 (by decide) (by decide),
    rfl, (newSize_spec (K := Nat) (V := Option Nat) exHash exMaxLen 6).1.1.mp rfl⟩

/-- C9 on the template's map holding keys 5 and 1 in shard 1 and key 2 in shard
2, with `Break = 0`: a callback that fails with error 7 on key 2 makes both
traversals return 7, after the three stored pairs were visited in shard order;
a callback that returns `Break` on key 1 makes both return nil, and the pair of
key 2, in the next shard, is not visited. -/
theorem forEach_error_spec_witness :
    ((∀ k v w, (exStopAt 2 7 k v w).2.1 = w.1) ∧ (∀ k v w, (exStopAt 1 0 k v w).2.1 = w.1)) ∧
    ((exTemplateMap.ForEach (0 : Nat) (exStopAt 2 7) 0).1 = some 7 ∧
      (exTemplateMap.ForEachLocked (0 : Nat) (exStopAt 2 7) 0).1 = some 7) ∧
    ((exTemplateMap.ForEach (0 : Nat) (exStopAt 1 0) 0).1 = none ∧
      (exTemplateMap.ForEachLocked (0 : Nat) (exStopAt 1 0) 0).1 = none) ∧
    ((Internal.CMap.ForEach.calls (0 : Nat) exTemplateMap (exStopAt 2 7) 0).map
          (fun c => (⟨c.1, c.2.1⟩ : Sigma fun _ : Nat => Option Nat))
        <+: (exTemplateMap.shards.map fun sh => sh.m.entries).flatten ∧
      Internal.CMap.ForEach.calls (0 : Nat) exTemplateMap (exStopAt 2 7) 0
        = [(5, some 50, none), (1, some 10, none), (2, some 20, some 7)] ∧
      Internal.CMap.ForEachLocked.calls (0 : Nat) exTemplateMap (exStopAt 1 0) 0
        = [(5, some 50, none), (1, some 10, some 0)]) :=
  ⟨⟨fun _ _ _ => rfl, fun _ _ _ => rfl⟩,
    ⟨((forEach_error_spec (0 : Nat) exTemplateMap (exStopAt 2 7) 0).1.2.2.2
        (fun k _ => if k = 2 then some 7 else none) (fun _ _ _ => rfl)
        (fun _ _ _ => rfl)).trans rfl,
      ((forEach_error_spec (0 : Nat) exTemplateMap (exStopAt 2 7) 0).2.2.2.2
        (fun k _ => if k = 2 then some 7 else none) (fun _ _ _ => rfl)
        (fun _ _ _ => rfl)).trans rfl⟩,
    ⟨((forEach_error_spec (0 : Nat) exTemplateMap (exStopAt 1 0) 0).1.2.2.2
        (fun k _ => if k = 1 then some 0 else none) (fun _ _ _ => rfl)
        (fun _ _ _ => rfl)).trans rfl,
      ((forEach_error_spec (0 : Nat) exTemplateMap (exStopAt 1 0) 0).2.2.2.2
        (fun k _ => if k = 1 then some 0 else none) (fun _ _ _ => rfl)
        (fun _ _ _ => rfl)).trans rfl⟩,
    ⟨((forEach_error_spec (0 : Nat) exTemplateMap (exStopAt 2 7) 0).1.2.2.1
        (fun _ _ _ => rfl)).1, rfl, rfl⟩⟩

end ConcreteFurther

end Cmap
